import Mathlib

/-!
The bitcoin-toolkit: key derivation, serialisation and command front ends.

A shallow embedding of `src/mods/pubkey.c`, `src/libs/btk_privkey.c` and
`src/ctrl_mods/btk_pubkey.c`.  Big numbers (`mpz_t`) are natural numbers, byte
buffers are lists of naturals below 256, C strings are lists of characters.
An `assert` that fails, or an access outside a buffer, makes a function return
`none`.
-/

namespace Btk

/-! ## Constants of the headers -/

/-- Modelled from the spec: `PRIVKEY_LENGTH` of privkey.h (not in src), the 32 bytes of a scalar. -/
def PRIVKEY_LENGTH : Nat := 32

/-- Modelled from the spec: `PUBKEY_COMPRESSED_LENGTH` of pubkey.h (not in src), the 32 bytes of x. -/
def PUBKEY_COMPRESSED_LENGTH : Nat := 32

/-- Modelled from the spec: `PUBKEY_UNCOMPRESSED_LENGTH` of pubkey.h (not in src), 32 bytes of x and 32 of y. -/
def PUBKEY_UNCOMPRESSED_LENGTH : Nat := 64

def ADDRESS_VERSION_BIT_MAINNET : Nat := 0x00

def ADDRESS_VERSION_BIT_TESTNET : Nat := 0x6F

def PUBKEY_COMPRESSED_FLAG_EVEN : Nat := 0x02

def PUBKEY_COMPRESSED_FLAG_ODD : Nat := 0x03

def PUBKEY_UNCOMPRESSED_FLAG : Nat := 0x04

def PUBKEY_POINTS : Nat := PRIVKEY_LENGTH * 8

/-! ## GMP functions used by the sources -/

/-- Number of binary digits of `v`, counted by halving; none for zero. -/
def bitLen : Nat → Nat → Nat
  | 0, _ => 0
  | fuel + 1, v => if v = 0 then 0 else bitLen fuel (v / 2) + 1

/-- The call `mpz_sizeinbase(v, 2)`: the number of bits of `v`, and 1 for zero. -/
def mpz_sizeinbase2 (v : Nat) : Nat := if v = 0 then 1 else bitLen v v

/-- Base-256 digits of `v`, least significant first, none for zero. -/
def bytesLE : Nat → Nat → List Nat
  | 0, _ => []
  | fuel + 1, v => if v = 0 then [] else v % 256 :: bytesLE fuel (v / 256)

/-- The bytes `mpz_export(buf, &count, 1, 1, 1, 0, v)` writes: most significant byte
first, as many as `v` needs, none for zero; `count` is the length of the list. -/
def mpz_export (v : Nat) : List Nat := (bytesLE v v).reverse

/-- Copy of `bs` into `buf` from offset `off`; the callers check that it fits. -/
def writeAt (buf : List Nat) (off : Nat) (bs : List Nat) : List Nat :=
  buf.take off ++ bs.take (buf.length - off) ++ buf.drop (off + bs.length)

/-- One digit of the C format `%x`. -/
def hexDigit (d : Nat) : Char := if d < 10 then Char.ofNat (48 + d) else Char.ofNat (87 + d)

/-- The two characters `sprintf(r, "%02x", b)` writes for a byte. -/
def hexByte (b : Nat) : List Char := [hexDigit (b / 16), hexDigit (b % 16)]

/-- Lowercase hex of a byte sequence, two characters per byte. -/
def hexOfBytes : List Nat → List Char
  | [] => []
  | b :: bs => hexByte b ++ hexOfBytes bs

/-- Value of a digit character in bases up to 16, as `mpz_set_str` reads it. -/
def digitVal (c : Char) : Option Nat :=
  if 48 ≤ c.toNat ∧ c.toNat ≤ 57 then some (c.toNat - 48)
  else if 97 ≤ c.toNat ∧ c.toNat ≤ 102 then some (c.toNat - 87)
  else if 65 ≤ c.toNat ∧ c.toNat ≤ 70 then some (c.toNat - 55)
  else none

/-- Digit-by-digit reading of a numeral, `none` at a character that is no digit of the base. -/
def parseDigits (base : Nat) : List Char → Nat → Option Nat
  | [], acc => some acc
  | c :: cs, acc =>
    match digitVal c with
    | some d => if d < base then parseDigits base cs (acc * base + d) else none
    | none => none

/-- The call `mpz_set_str(d, s, base)` on a freshly initialised `d`: the value of the
numeral; on an empty or malformed string `d` keeps its initial value 0. -/
def mpz_set_str (s : List Char) (base : Nat) : Nat :=
  match s with
  | [] => 0
  | _ => (parseDigits base s 0).getD 0

/-! ## Points and private keys -/

/-- A `Point` of point.h: two `mpz_t` coordinates. -/
structure Point where
  x : Nat
  y : Nat
deriving DecidableEq, Repr

/-- The call `point_init`: both coordinates are initialised to 0. -/
def point_init : Point := ⟨0, 0⟩

/-- The functions of point.c that `pubkey_get` calls; point.c is not in src. -/
structure PointOps where
  point_set_generator : Point
  point_double : Point → Point
  point_add : Point → Point → Point
  point_verify : Point → Bool

/-- Modelled from the spec: the PrivKey object of privkey.c (not in src), a 32-byte
scalar buffer and a compression flag. -/
structure PrivKey where
  data : List Nat
  cflag : Bool
deriving DecidableEq, Repr

/-- A private key holds exactly 32 bytes. -/
def PrivKey.wf (k : PrivKey) : Prop := k.data.length = PRIVKEY_LENGTH ∧ ∀ b ∈ k.data, b < 256

instance (k : PrivKey) : Decidable k.wf := by
  unfold PrivKey.wf
  exact inferInstance

/-- Modelled from the spec: `privkey_to_hex` of privkey.c (not in src), the lowercase hex of
the scalar bytes, followed by the compression marker 01 for a compressed key. -/
def privkey_to_hex (k : PrivKey) : List Char :=
  hexOfBytes k.data ++ (if k.cflag then ['0', '1'] else [])

/-- Modelled from the spec: `privkey_is_compressed` of privkey.c (not in src). -/
def privkey_is_compressed (k : PrivKey) : Bool := k.cflag

/-- A `struct PubKey`: the buffer `data[PUBKEY_UNCOMPRESSED_LENGTH + 1]`. -/
structure PubKey where
  data : List Nat
deriving DecidableEq, Repr

/-! ## pubkey_get -/

/-- Lines 40-44 of `pubkey_get`: the key's hex string, cut after `PRIVKEY_LENGTH * 2`
characters, read as a base-16 number. -/
def pubkey_get_scalar (k : PrivKey) : Nat :=
  mpz_set_str ((privkey_to_hex k).take (PRIVKEY_LENGTH * 2)) 16

/-- The loop `for (i = 1; i < PUBKEY_POINTS; ++i)`: `fuel` iterations are left and
`prev` is `points[i-1]`; the result lists `points[i]`, `points[i+1]`, ...; a failing
`assert(point_verify(points[i]))` gives `none`. -/
def doubleLoop (ops : PointOps) : Nat → Point → Option (List Point)
  | 0, _ => some []
  | fuel + 1, prev =>
    let pt := ops.point_double prev
    if ops.point_verify pt then (doubleLoop ops fuel pt).map (fun l => pt :: l) else none

/-- The table `points[0 .. PUBKEY_POINTS-1]` of `pubkey_get`. -/
def pubkey_get_points (ops : PointOps) : Option (List Point) :=
  (doubleLoop ops (PUBKEY_POINTS - 1) ops.point_set_generator).map
    (fun l => ops.point_set_generator :: l)

/-- The test `mpz_cmp_ui(pubkey.x, 0) == 0 && mpz_cmp_ui(pubkey.y, 0) == 0`. -/
def isEmptyAcc (acc : Point) : Bool := decide (acc.x = 0) && decide (acc.y = 0)

/-- The loop `for (i = 0; i < PUBKEY_POINTS; ++i)` that adds the points of the 1 bits:
the list holds `points[i]`, `points[i+1]`, ..., and `acc` is `pubkey`; a failing
`assert(point_verify(pubkey))` gives `none`. -/
def addLoop (ops : PointOps) (prvkey : Nat) : List Point → Nat → Point → Option Point
  | [], _, acc => some acc
  | pt :: rest, i, acc =>
    if prvkey.testBit i then
      let acc1 := if isEmptyAcc acc then pt else ops.point_add acc pt
      if ops.point_verify acc1 then addLoop ops prvkey rest (i + 1) acc1 else none
    else addLoop ops prvkey rest (i + 1) acc

/-- The point `pubkey` at line 70 of `pubkey_get`, `none` when an assertion failed. -/
def pubkey_get_point (ops : PointOps) (k : PrivKey) : Option Point :=
  match pubkey_get_points ops with
  | none => none
  | some points => addLoop ops (pubkey_get_scalar k) points 0 point_init

/-- Lines 84-86 and 88-90 of `pubkey_get`: export of one coordinate into the 32 bytes
of `buf` that start at `base`, right-aligned.  With more than 32 bytes the offset
`32 - l` wraps around and the write leaves the buffer (`none`); `assert(l == i)`
fails (`none`) when the byte count of the export differs from `l`. -/
def exportCoord (buf : List Nat) (base : Nat) (v : Nat) : Option (List Nat) :=
  let l := (mpz_sizeinbase2 v + 7) / 8
  if 32 < l then none
  else
    let bs := mpz_export v
    if l = bs.length then some (writeAt buf (base + (32 - l)) bs) else none

/-- Lines 71-91 of `pubkey_get`: the flag byte and the coordinates, written into the
zeroed buffer of `NEW0(r)`. -/
def pubkey_get_serialize (k : PrivKey) (pubkey : Point) : Option PubKey :=
  let r0 : List Nat := List.replicate (PUBKEY_UNCOMPRESSED_LENGTH + 1) 0
  let flag :=
    if privkey_is_compressed k then
      (if pubkey.y % 2 = 0 then PUBKEY_COMPRESSED_FLAG_EVEN else PUBKEY_COMPRESSED_FLAG_ODD)
    else PUBKEY_UNCOMPRESSED_FLAG
  let r1 := r0.set 0 flag
  match exportCoord r1 1 pubkey.x with
  | none => none
  | some r2 =>
    if !privkey_is_compressed k then
      (exportCoord r2 33 pubkey.y).map PubKey.mk
    else some ⟨r2⟩

/-- The function `pubkey_get` of src/mods/pubkey.c. -/
def pubkey_get (ops : PointOps) (k : PrivKey) : Option PubKey :=
  match pubkey_get_point ops k with
  | none => none
  | some pubkey => pubkey_get_serialize k pubkey


/-! ## Conversions of a public key -/

/-- The function `pubkey_is_compressed` of src/mods/pubkey.c. -/
def pubkey_is_compressed (k : PubKey) : Bool :=
  decide (k.data.getD 0 0 = PUBKEY_COMPRESSED_FLAG_EVEN) ||
    decide (k.data.getD 0 0 = PUBKEY_COMPRESSED_FLAG_ODD)

/-- The function `pubkey_to_hex` of src/mods/pubkey.c: `l / 2` bytes of the buffer, each
printed with `%02x`; `none` is the NULL returned for an unknown flag byte (the
allocation is taken to succeed). -/
def pubkey_to_hex (k : PubKey) : Option (List Char) :=
  if k.data.getD 0 0 = PUBKEY_UNCOMPRESSED_FLAG then
    some (hexOfBytes (k.data.take ((PUBKEY_UNCOMPRESSED_LENGTH * 2 + 2) / 2)))
  else if k.data.getD 0 0 = PUBKEY_COMPRESSED_FLAG_EVEN ∨
      k.data.getD 0 0 = PUBKEY_COMPRESSED_FLAG_ODD then
    some (hexOfBytes (k.data.take ((PUBKEY_COMPRESSED_LENGTH * 2 + 2) / 2)))
  else none

/-- The functions of crypto.c and base58check.c that the address conversion calls;
neither file is in src. -/
structure AddressLib where
  crypto_get_sha256 : List Nat → List Nat
  crypto_get_rmd160 : List Nat → List Nat
  base58check_encode : List Nat → List Char

/-- The process-wide network selector of network.c (not in src), as the two queries
`network_is_main()` and `network_is_test()` see it. -/
structure Network where
  network_is_main : Bool
  network_is_test : Bool
deriving DecidableEq, Repr

/-- The function `pubkey_to_address` of src/mods/pubkey.c.  When neither network query
answers true, `r[0]` is read uninitialised and the result is `none`. -/
def pubkey_to_address (lib : AddressLib) (net : Network) (k : PubKey) : Option (List Char) :=
  let l := if pubkey_is_compressed k then PUBKEY_COMPRESSED_LENGTH + 1
    else PUBKEY_UNCOMPRESSED_LENGTH + 1
  let sha := lib.crypto_get_sha256 (k.data.take l)
  let rmd := lib.crypto_get_rmd160 (sha.take 32)
  let version : Option Nat :=
    if net.network_is_main then some ADDRESS_VERSION_BIT_MAINNET
    else if net.network_is_test then some ADDRESS_VERSION_BIT_TESTNET
    else none
  match version with
  | none => none
  | some v => some (lib.base58check_encode (v :: rmd.take 20))

/-! ## btk_pubkey_main (src/ctrl_mods/btk_pubkey.c) -/

namespace BtkPubkey

def INPUT_WIF : Nat := 1

def INPUT_HEX : Nat := 2

def INPUT_RAW : Nat := 3

def INPUT_STR : Nat := 4

def INPUT_DEC : Nat := 5

def INPUT_BLOB : Nat := 6

def INPUT_GUESS : Nat := 7

def INPUT_SBD : Nat := 8

def OUTPUT_ADDRESS : Nat := 1

def OUTPUT_BECH32_ADDRESS : Nat := 2

def OUTPUT_HEX : Nat := 3

def OUTPUT_RAW : Nat := 4

def OUTPUT_COMPRESS : Nat := 1

def OUTPUT_UNCOMPRESS : Nat := 2

def OUTPUT_MAINNET : Nat := 1

def OUTPUT_TESTNET : Nat := 2

/-- The static option variables of btk_pubkey.c, as `btk_pubkey_init` leaves them. -/
structure Flags where
  input_format : Nat
  output_format : Nat
  output_compression : Nat
  output_privkey : Bool
  output_newline : Bool
  output_network : Nat
deriving DecidableEq, Repr

/-- The functions that `btk_pubkey_main` calls, none of them in src in the form called
here: allocation, the input readers with the text they deliver, the private-key
decoders with the key they write into `priv`, and the converters with their return
code and output.  `uninit` is the content of `priv` right after `malloc`; the
address converters see the network selector through `output_network`. -/
structure Env where
  malloc_priv : Bool
  malloc_key : Bool
  uninit : PrivKey
  input_get_str : Int × List Nat
  input_get_from_pipe : Int × List Nat
  input_get : Int × List Nat
  privkey_from_wif : List Nat → Int × PrivKey
  privkey_from_hex : List Nat → Int × PrivKey
  privkey_from_raw : List Nat → Int → Int × PrivKey
  privkey_from_str : List Nat → Int × PrivKey
  privkey_from_dec : List Nat → Int × PrivKey
  privkey_from_blob : List Nat → Int → Int × PrivKey
  privkey_from_sbd : List Nat → Int × PrivKey
  privkey_from_guess : List Nat → Int → Int × PrivKey
  privkey_is_zero : PrivKey → Bool
  privkey_compress : PrivKey → PrivKey
  privkey_uncompress : PrivKey → PrivKey
  pubkey_get : PrivKey → Int × PubKey
  privkey_to_hex : PrivKey → Nat → Int × List Nat
  privkey_to_raw : PrivKey → Nat → Int × List Nat
  privkey_to_wif : PrivKey → Int × List Nat
  pubkey_to_address : Nat → PubKey → Int × List Nat
  pubkey_to_bech32address : Nat → PubKey → Int × List Nat
  pubkey_to_hex : PubKey → Int × List Nat
  pubkey_to_raw : PubKey → Int × List Nat

/-- What a call of `btk_pubkey_main` does: its return value, the bytes written to
standard output, the messages given to `error_log`, and the keys `pubkey_get` was
called on. -/
structure Run where
  ret : Int
  stdout : List Nat
  errors : List String
  pubkey_get_calls : List PrivKey
deriving DecidableEq, Repr

/-- Result of a stage of `btk_pubkey_main`: the message logged before `return -1`, or
the value the stage produced. -/
inductive Stage (α : Type) where
  | error (msg : String) : Stage α
  | ok (val : α) : Stage α
deriving DecidableEq, Repr

/-- One case of the input switch: the reader's return code is checked, then the
decoder's. -/
def decodeWith (input : Int × List Nat) (decoder : List Nat → Int → Int × PrivKey) :
    Stage PrivKey :=
  if input.1 < 0 then .error "Could not get input."
  else
    let d := decoder input.2 input.1
    if d.1 < 0 then .error "Could not calculate private key from input." else .ok d.2

/-- Lines 170-308 of `btk_pubkey_main`: the switch on `input_format`; an error is the
message logged before `return -1`.  With a format outside the eight cases `priv` keeps
the content `malloc` gave it. -/
def decode (env : Env) (f : Flags) : Stage PrivKey :=
  if f.input_format = INPUT_WIF then
    decodeWith env.input_get_str (fun s _ => env.privkey_from_wif s)
  else if f.input_format = INPUT_HEX then
    decodeWith env.input_get_str (fun s _ => env.privkey_from_hex s)
  else if f.input_format = INPUT_RAW then
    decodeWith env.input_get_from_pipe env.privkey_from_raw
  else if f.input_format = INPUT_STR then
    decodeWith env.input_get_str (fun s _ => env.privkey_from_str s)
  else if f.input_format = INPUT_DEC then
    decodeWith env.input_get_str (fun s _ => env.privkey_from_dec s)
  else if f.input_format = INPUT_BLOB then
    decodeWith env.input_get_from_pipe env.privkey_from_blob
  else if f.input_format = INPUT_SBD then
    decodeWith env.input_get_str (fun s _ => env.privkey_from_sbd s)
  else if f.input_format = INPUT_GUESS then
    decodeWith env.input_get env.privkey_from_guess
  else .ok env.uninit

/-- Lines 322-332: the switch on `output_compression`. -/
def applyCompression (env : Env) (f : Flags) (priv : PrivKey) : PrivKey :=
  if f.output_compression = OUTPUT_COMPRESS then env.privkey_compress priv
  else if f.output_compression = OUTPUT_UNCOMPRESS then env.privkey_uncompress priv
  else priv

/-- Lines 363-399: the private key printed first when `-P` was given; an error is the
message logged before `return -1`, otherwise the bytes written to standard output. -/
def printPrivkey (env : Env) (f : Flags) (priv : PrivKey) : Stage (List Nat) :=
  if f.output_privkey then
    if f.output_format = OUTPUT_HEX then
      let r := env.privkey_to_hex priv f.output_compression
      if r.1 < 0 then .error "Could not convert private key to hex format."
      else .ok (r.2 ++ [32])
    else if f.output_format = OUTPUT_RAW then
      let r := env.privkey_to_raw priv f.output_compression
      if r.1 < 0 then .error "Could not convert private key to raw format."
      else .ok (r.2.take r.1.toNat)
    else
      let r := env.privkey_to_wif priv
      if r.1 < 0 then .error "Could not convert private key to WIF format."
      else .ok (r.2 ++ [32])
  else .ok []

/-- Lines 404-445: the switch on `output_format` that prints the public key. -/
def printPubkey (env : Env) (f : Flags) (key : PubKey) : Stage (List Nat) :=
  if f.output_format = OUTPUT_ADDRESS then
    let r := env.pubkey_to_address f.output_network key
    if r.1 < 0 then .error "Could not calculate public key address." else .ok r.2
  else if f.output_format = OUTPUT_BECH32_ADDRESS then
    let r := env.pubkey_to_bech32address f.output_network key
    if r.1 < 0 then .error "Could not calculate bech32 public key address." else .ok r.2
  else if f.output_format = OUTPUT_HEX then
    let r := env.pubkey_to_hex key
    if r.1 < 0 then .error "Could not generate hex data from public key." else .ok r.2
  else if f.output_format = OUTPUT_RAW then
    let r := env.pubkey_to_raw key
    if r.1 < 0 then .error "Could not generate raw data for public key."
    else .ok (r.2.take r.1.toNat)
  else .ok []

/-- The function `btk_pubkey_main` of src/ctrl_mods/btk_pubkey.c.  After the allocation
check `priv` is not NULL, so the test `!priv` of line 310 never fires. -/
def btk_pubkey_main (env : Env) (f : Flags) : Run :=
  if !env.malloc_priv then ⟨-1, [], ["Memory allocation error."], []⟩
  else
    match decode env f with
    | .error msg => ⟨-1, [], [msg], []⟩
    | .ok priv0 =>
      if env.privkey_is_zero priv0 then ⟨-1, [], ["Key value cannot be zero."], []⟩
      else
        let priv := applyCompression env f priv0
        if !env.malloc_key then ⟨-1, [], ["Memory allocation error"], []⟩
        else
          let g := env.pubkey_get priv
          if g.1 < 0 then ⟨-1, [], ["Could not calculate public key."], [priv]⟩
          else
            match printPrivkey env f priv with
            | .error msg => ⟨-1, [], [msg], [priv]⟩
            | .ok out1 =>
              match printPubkey env f g.2 with
              | .error msg => ⟨-1, out1, [msg], [priv]⟩
              | .ok out2 =>
                ⟨1, out1 ++ out2 ++ (if f.output_newline then [10] else []), [], [priv]⟩

/-- An environment for examples: allocation succeeds, the raw decoder copies 32 input
bytes into an uncompressed key without looking at their value, `privkey_is_zero` tests
for all-zero bytes, `pubkey_get` is the function of src/mods/pubkey.c over the point
functions `ops`, and the hex output is `pubkey_to_hex`. -/
def exampleEnv (ops : PointOps) (stdin : List Nat) : Env where
  malloc_priv := true
  malloc_key := true
  uninit := ⟨[], false⟩
  input_get_str := (Int.ofNat stdin.length, stdin)
  input_get_from_pipe := (Int.ofNat stdin.length, stdin)
  input_get := (Int.ofNat stdin.length, stdin)
  privkey_from_wif := fun _ => (-1, ⟨[], false⟩)
  privkey_from_hex := fun _ => (-1, ⟨[], false⟩)
  privkey_from_raw := fun s l =>
    if l < 32 then (-1, ⟨[], false⟩) else (1, ⟨s.take 32, false⟩)
  privkey_from_str := fun _ => (-1, ⟨[], false⟩)
  privkey_from_dec := fun _ => (-1, ⟨[], false⟩)
  privkey_from_blob := fun _ _ => (-1, ⟨[], false⟩)
  privkey_from_sbd := fun _ => (-1, ⟨[], false⟩)
  privkey_from_guess := fun _ _ => (-1, ⟨[], false⟩)
  privkey_is_zero := fun k => k.data.all fun b => decide (b = 0)
  privkey_compress := fun k => ⟨k.data, true⟩
  privkey_uncompress := fun k => ⟨k.data, false⟩
  pubkey_get := fun k =>
    match Btk.pubkey_get ops k with
    | some key => (1, key)
    | none => (-1, ⟨[]⟩)
  privkey_to_hex := fun _ _ => (-1, [])
  privkey_to_raw := fun _ _ => (-1, [])
  privkey_to_wif := fun _ => (-1, [])
  pubkey_to_address := fun _ _ => (-1, [])
  pubkey_to_bech32address := fun _ _ => (-1, [])
  pubkey_to_hex := fun key =>
    match Btk.pubkey_to_hex key with
    | some s => (1, s.map Char.toNat)
    | none => (-1, [])
  pubkey_to_raw := fun _ => (-1, [])

end BtkPubkey

/-! ## btk_privkey_main (src/libs/btk_privkey.c) -/

namespace BtkPrivkey

def BUFFER_SIZE : Nat := 1000

def INPUT_NEW : Nat := 1

def INPUT_WIF : Nat := 2

def INPUT_HEX : Nat := 3

def INPUT_RAW : Nat := 4

def INPUT_STR : Nat := 5

def INPUT_DEC : Nat := 6

def OUTPUT_WIF : Nat := 1

def OUTPUT_HEX : Nat := 2

def OUTPUT_RAW : Nat := 3

def OUTPUT_COMPRESS : Nat := 1

def OUTPUT_UNCOMPRESS : Nat := 2

/-- The flag variables of `btk_privkey_main`. -/
structure Flags where
  input_format : Nat
  output_format : Nat
  output_compression : Nat
  output_newline : Bool
deriving DecidableEq, Repr

/-- The default flags of lines 49-52. -/
def defaultFlags : Flags := ⟨INPUT_NEW, OUTPUT_WIF, 0, false⟩

/-- The `switch (o)` of lines 59-114 for one option character that `getopt` returned
(`?` for an unknown option); `none` is the `return EXIT_FAILURE` of the case `?`. -/
def optStep (o : Char) (f : Flags) : Option Flags :=
  if o = 'n' then some ⟨INPUT_NEW, f.output_format, OUTPUT_COMPRESS, f.output_newline⟩
  else if o = 'w' then some ⟨INPUT_WIF, f.output_format, f.output_compression, f.output_newline⟩
  else if o = 'h' then some ⟨INPUT_HEX, f.output_format, f.output_compression, f.output_newline⟩
  else if o = 'r' then some ⟨INPUT_RAW, f.output_format, f.output_compression, f.output_newline⟩
  else if o = 's' then some ⟨INPUT_STR, f.output_format, OUTPUT_COMPRESS, f.output_newline⟩
  else if o = 'd' then some ⟨INPUT_DEC, f.output_format, OUTPUT_COMPRESS, f.output_newline⟩
  else if o = 'W' then some ⟨f.input_format, OUTPUT_WIF, f.output_compression, f.output_newline⟩
  else if o = 'H' then some ⟨f.input_format, OUTPUT_HEX, f.output_compression, f.output_newline⟩
  else if o = 'R' then some ⟨f.input_format, OUTPUT_RAW, f.output_compression, f.output_newline⟩
  else if o = 'C' then some ⟨f.input_format, f.output_format, OUTPUT_COMPRESS, f.output_newline⟩
  else if o = 'U' then
    some ⟨f.input_format, f.output_format, OUTPUT_UNCOMPRESS, f.output_newline⟩
  else if o = 'N' then some ⟨f.input_format, f.output_format, f.output_compression, true⟩
  else if o = '?' then none
  else some f

/-- The loop `while ((o = getopt(argc, argv, "nwhrsdWHRCUN")) != -1)` over the option
characters that `getopt` returns one after the other. -/
def parseOpts : List Char → Flags → Option Flags
  | [], f => some f
  | o :: os, f =>
    match optStep o f with
    | none => none
    | some f1 => parseOpts os f1

/-- The functions and constants that `btk_privkey_main` takes from privkey.c, base58.c,
hex.c and crypto.c, none of them in src; a key constructor returns `none` for NULL. -/
structure Env where
  privkey_new : Option PrivKey
  privkey_from_wif : List Nat → Option PrivKey
  privkey_from_hex : List Nat → Option PrivKey
  privkey_from_raw : List Nat → Nat → Option PrivKey
  privkey_compress : PrivKey → Option PrivKey
  privkey_uncompress : PrivKey → Option PrivKey
  privkey_to_wif : PrivKey → List Nat
  privkey_to_hex : PrivKey → List Nat
  privkey_to_raw : PrivKey → List Nat
  crypto_get_sha256 : List Nat → List Nat
  base58_ischar : Nat → Bool
  hex_ischar : Nat → Bool
  PRIVKEY_WIF_LENGTH_MIN : Nat

/-- A call of a function of privkey.c or crypto.c, with its arguments. -/
inductive Call where
  | privkey_new : Call
  | privkey_from_wif (s : List Nat) : Call
  | privkey_from_hex (s : List Nat) : Call
  | privkey_from_raw (buf : List Nat) (len : Nat) : Call
  | crypto_get_sha256 (bytes : List Nat) : Call
  | privkey_compress (k : PrivKey) : Call
  | privkey_uncompress (k : PrivKey) : Call
deriving DecidableEq, Repr

/-- How a call of `btk_privkey_main` ends: `EXIT_SUCCESS`, `EXIT_FAILURE`, a failed
`assert`, or an access outside `input_buffer`. -/
inductive Exit where
  | success : Exit
  | failure : Exit
  | aborted : Exit
  | undefined : Exit
deriving DecidableEq, Repr

/-- What a call of `btk_privkey_main` does: how it ends, the bytes written to standard
output, the lines written to standard error, and the calls made in order. -/
structure Run where
  exit : Exit
  stdout : List Nat
  stderr : List String
  calls : List Call
deriving DecidableEq, Repr

/-- The C function `isspace` in the C locale. -/
def isspace (c : Nat) : Bool := decide (c = 32) || (decide (9 ≤ c) && decide (c ≤ 13))

/-- The call `read(STDIN_FILENO, input_buffer, BUFFER_SIZE - 1)` on the zeroed buffer:
the bytes read and the buffer afterwards. -/
def readInput (stdin : List Nat) : List Nat × List Nat :=
  (stdin.take (BUFFER_SIZE - 1),
    stdin.take (BUFFER_SIZE - 1) ++
      List.replicate (BUFFER_SIZE - (stdin.take (BUFFER_SIZE - 1)).length) 0)

/-- The loop `while (isspace((int)input_buffer[c-1])) --c;`: the count left, `none`
when the loop reads `input_buffer[-1]` (the count has reached 0). -/
def stripSpaces (buf : List Nat) : Nat → Option Nat
  | 0 => none
  | c + 1 => if isspace (buf.getD c 0) then stripSpaces buf c else some (c + 1)

/-- A C string in a buffer: the bytes before the first NUL. -/
def cstr (buf : List Nat) : List Nat := buf.takeWhile fun b => decide (b ≠ 0)

/-- The input stage of `btk_privkey_main` (lines 118-190): either the run ends here, or
a key (NULL as `none`) has been made by the calls listed. -/
def readKey (env : Env) (f : Flags) (stdin : List Nat) : Run ⊕ (Option PrivKey × List Call) :=
  let inp := (readInput stdin).1
  let buf := (readInput stdin).2
  let c := inp.length
  if f.input_format = INPUT_NEW then .inr (env.privkey_new, [Call.privkey_new])
  else if f.input_format = INPUT_WIF then
    let i := (inp.takeWhile env.base58_ischar).length
    if i < env.PRIVKEY_WIF_LENGTH_MIN then .inl ⟨Exit.failure, [], ["Error: Invalid input."], []⟩
    else
      let s := cstr (buf.set c 0)
      .inr (env.privkey_from_wif s, [Call.privkey_from_wif s])
  else if f.input_format = INPUT_HEX then
    match stripSpaces buf c with
    | none => .inl ⟨Exit.undefined, [], [], []⟩
    | some c1 =>
      if c1 < PRIVKEY_LENGTH * 2 then .inl ⟨Exit.failure, [], ["Error: Invalid input."], []⟩
      else if c1 = PRIVKEY_LENGTH * 2 + 1 then
        .inl ⟨Exit.failure, [], ["Error: Invalid input."], []⟩
      else if (buf.take c1).all env.hex_ischar then
        let s := cstr (buf.set c1 0)
        .inr (env.privkey_from_hex s, [Call.privkey_from_hex s])
      else .inl ⟨Exit.failure, [], ["Error: Invalid input."], []⟩
  else if f.input_format = INPUT_RAW then
    if c < PRIVKEY_LENGTH then .inl ⟨Exit.failure, [], ["Error: Invalid input."], []⟩
    else .inr (env.privkey_from_raw buf c, [Call.privkey_from_raw buf c])
  else if f.input_format = INPUT_STR then
    let t := env.crypto_get_sha256 (buf.take c)
    .inr (env.privkey_from_raw t 32, [Call.crypto_get_sha256 (buf.take c),
      Call.privkey_from_raw t 32])
  else if f.input_format = INPUT_DEC then
    if inp.all fun b => decide (48 ≤ b) && decide (b ≤ 57) then
      let d := mpz_set_str ((cstr buf).map Char.ofNat) 10
      let i0 := (mpz_sizeinbase2 d + 7) / 8
      let i := if i0 > PRIVKEY_LENGTH then PRIVKEY_LENGTH else i0
      let buf1 := writeAt (List.replicate BUFFER_SIZE 0) (PRIVKEY_LENGTH - i) (mpz_export d)
      .inr (env.privkey_from_raw buf1 PRIVKEY_LENGTH,
        [Call.privkey_from_raw buf1 PRIVKEY_LENGTH])
    else .inl ⟨Exit.failure, [], ["Error: Invalid input."], []⟩
  else .inr (none, [])

/-- The output stage of `btk_privkey_main` (lines 209-229). -/
def writeKey (env : Env) (f : Flags) (key : PrivKey) : List Nat :=
  (if f.output_format = OUTPUT_WIF then cstr (env.privkey_to_wif key)
    else if f.output_format = OUTPUT_HEX then cstr (env.privkey_to_hex key)
    else if f.output_format = OUTPUT_RAW then env.privkey_to_raw key
    else []) ++ (if f.output_newline then [10] else [])

/-- The function `btk_privkey_main` of src/libs/btk_privkey.c, on the option characters
`getopt` delivers and the bytes waiting on standard input.  A NULL key given to
`privkey_to_wif` and the like ends the run as `Exit.undefined`. -/
def btk_privkey_main (env : Env) (opts : List Char) (stdin : List Nat) : Run :=
  match parseOpts opts defaultFlags with
  | none => ⟨Exit.failure, [], ["Unknown option"], []⟩
  | some f =>
    match readKey env f stdin with
    | .inl run => run
    | .inr (none, calls) => ⟨Exit.aborted, [], [], calls⟩
    | .inr (some key, calls) =>
      if f.output_compression = OUTPUT_COMPRESS then
        match env.privkey_compress key with
        | none => ⟨Exit.undefined, [], [], calls ++ [Call.privkey_compress key]⟩
        | some key1 =>
          ⟨Exit.success, writeKey env f key1, [], calls ++ [Call.privkey_compress key]⟩
      else if f.output_compression = OUTPUT_UNCOMPRESS then
        match env.privkey_uncompress key with
        | none => ⟨Exit.undefined, [], [], calls ++ [Call.privkey_uncompress key]⟩
        | some key1 =>
          ⟨Exit.success, writeKey env f key1, [], calls ++ [Call.privkey_uncompress key]⟩
      else ⟨Exit.success, writeKey env f key, [], calls⟩

/-- An environment for examples: `privkey_from_raw` and `privkey_from_hex` build a key
from what they are given, the character tests are the usual ones. -/
def exampleEnv : Env where
  privkey_new := none
  privkey_from_wif := fun _ => none
  privkey_from_hex := fun s => some ⟨s, false⟩
  privkey_from_raw := fun buf len => some ⟨buf.take len, false⟩
  privkey_compress := fun k => some ⟨k.data, true⟩
  privkey_uncompress := fun k => some ⟨k.data, false⟩
  privkey_to_wif := fun k => k.data
  privkey_to_hex := fun k => k.data
  privkey_to_raw := fun k => k.data
  crypto_get_sha256 := fun b => List.replicate 31 0 ++ [b.length % 256]
  base58_ischar := fun _ => true
  hex_ischar := fun c => (decide (48 ≤ c) && decide (c ≤ 57)) ||
    (decide (97 ≤ c) && decide (c ≤ 102)) || (decide (65 ≤ c) && decide (c ≤ 70))
  PRIVKEY_WIF_LENGTH_MIN := 51

end BtkPrivkey

/-! ## The secp256k1 functions of point.c, modelled from the spec -/

/-- Modelled from the spec: the prime of the field of secp256k1, `2^256 - 2^32 - 977`
(constant of point.c, not in src). -/
def secp256k1_p : Nat := 0xFFFFFFFFFFFFFFFFFFFFFFFFFFFFFFFFFFFFFFFFFFFFFFFFFFFFFFFEFFFFFC2F

/-- Modelled from the spec: the order of the secp256k1 group (the bound of a valid scalar). -/
def secp256k1_n : Nat := 0xFFFFFFFFFFFFFFFFFFFFFFFFFFFFFFFEBAAEDCE6AF48A03BBFD25E8CD0364141

/-- Modelled from the spec: x-coordinate of the generator of secp256k1. -/
def secp256k1_Gx : Nat := 0x79BE667EF9DCBBAC55A06295CE870B07029BFCDB2DCE28D959F2815B16F81798

/-- Modelled from the spec: y-coordinate of the generator of secp256k1. -/
def secp256k1_Gy : Nat := 0x483ADA7726A3C4655DA4FBFC0E1108A8FD17B448A68554199C47D08FFB10D4B8

/-- The curve equation `y^2 = x^3 + 7 (mod p)` on reduced coordinates. -/
def onCurve (P : Point) : Prop :=
  P.x < secp256k1_p ∧ P.y < secp256k1_p ∧
    P.y * P.y % secp256k1_p = (P.x * P.x * P.x + 7) % secp256k1_p

instance (P : Point) : Decidable (onCurve P) := by
  unfold onCurve
  exact inferInstance

/-- Square-and-multiply loop: `acc * b ^ e mod m`, one bit of the exponent per step. -/
def powModAux (m : Nat) : Nat → Nat → Nat → Nat → Nat
  | 0, _, _, acc => acc
  | fuel + 1, b, e, acc =>
    if e = 0 then acc
    else powModAux m fuel (b * b % m) (e / 2) (if e % 2 = 1 then acc * b % m else acc)

/-- Modular exponentiation `a ^ e mod m`. -/
def powMod (a e m : Nat) : Nat := powModAux m e (a % m) e (1 % m)

/-- Product in the field of secp256k1. -/
def mulMod (a b : Nat) : Nat := a * b % secp256k1_p

/-- Difference in the field of secp256k1. -/
def subMod (a b : Nat) : Nat := (a + (secp256k1_p - b % secp256k1_p)) % secp256k1_p

/-- Modelled from the spec: modular inverse by Fermat's little theorem, `a^(p-2) mod p`;
the inverse of zero comes out as zero. -/
def modInv (a : Nat) : Nat := powMod a (secp256k1_p - 2) secp256k1_p

/-- Modelled from the spec: `point_set_generator` of point.c (not in src), the fixed base point. -/
def point_set_generator : Point := ⟨secp256k1_Gx, secp256k1_Gy⟩

/-- Modelled from the spec: `point_double` of point.c (not in src), the doubling formula
with slope `3x^2 * (2y)^(-1) mod p`.  The spec gives no coordinates to the identity,
so only the formula is modelled. -/
def point_double (P : Point) : Point :=
  let s := mulMod (mulMod 3 (mulMod P.x P.x)) (modInv (mulMod 2 P.y))
  let x3 := subMod (subMod (mulMod s s) P.x) P.x
  let y3 := subMod (mulMod s (subMod P.x x3)) P.y
  ⟨x3, y3⟩

/-- Modelled from the spec: `point_add` of point.c (not in src), the chord formula with
slope `(y_q - y_p) * (x_q - x_p)^(-1) mod p`.  The spec gives no coordinates to the
identity, so only the formula is modelled. -/
def point_add (P Q : Point) : Point :=
  let s := mulMod (subMod Q.y P.y) (modInv (subMod Q.x P.x))
  let x3 := subMod (subMod (mulMod s s) P.x) Q.x
  let y3 := subMod (mulMod s (subMod P.x x3)) P.y
  ⟨x3, y3⟩

/-- Modelled from the spec: `point_verify` of point.c (not in src), the curve equation
`y^2 = x^3 + 7 (mod p)`. -/
def point_verify (P : Point) : Bool :=
  decide (P.y * P.y % secp256k1_p = (P.x * P.x * P.x + 7) % secp256k1_p)

/-- The point functions of secp256k1 as modelled from the spec. -/
def secp256k1_ops : PointOps :=
  ⟨point_set_generator, point_double, point_add, point_verify⟩

/-- What it means for point functions to implement the group law of secp256k1: `toE`
reads a point on the curve as a non-zero element of a group in which the generator
has order `secp256k1_n`; doubling and addition stay on the curve and agree with the
group operation wherever the tangent and chord formulas are defined (a point is not
doubled to the identity, not added to itself nor to its negative); `point_verify`
accepts the points on the curve. -/
structure GroupLaw (ops : PointOps) {E : Type} [AddCommGroup E] (toE : Point → E) : Prop where
  generator_onCurve : onCurve ops.point_set_generator
  verify_of_onCurve : ∀ P, onCurve P → ops.point_verify P = true
  toE_ne_zero : ∀ P, onCurve P → toE P ≠ 0
  double_spec : ∀ P, onCurve P → toE P + toE P ≠ 0 →
    onCurve (ops.point_double P) ∧ toE (ops.point_double P) = toE P + toE P
  add_spec : ∀ P Q, onCurve P → onCurve Q → toE P ≠ toE Q → toE P + toE Q ≠ 0 →
    onCurve (ops.point_add P Q) ∧ toE (ops.point_add P Q) = toE P + toE Q
  generator_order : ∀ m : Nat, m • toE ops.point_set_generator = 0 ↔ secp256k1_n ∣ m

/-- Invariant of the accumulator `pubkey` before iteration `i` of the adding loop:
untouched while no bit below `i` is set, and afterwards the point on the curve that
stands for the multiple `(k mod 2^i) * G`. -/
def AccInv {E : Type} [AddCommGroup E] (toE : Point → E) (g : E) (k i : Nat) (acc : Point) :
    Prop :=
  (k % 2 ^ i = 0 ∧ acc = point_init) ∨
    (k % 2 ^ i ≠ 0 ∧ onCurve acc ∧ toE acc = (k % 2 ^ i) • g)

/-- The curve `y^2 = x^3 + 7` over the integers modulo `secp256k1_p`, in Mathlib's terms. -/
def secp256k1_curve : WeierstrassCurve (ZMod secp256k1_p) := ⟨0, 0, 0, 0, 7⟩

/-- The element of Mathlib's group of the curve that a point with reduced coordinates stands for. -/
def Rep (P : Point) (e : secp256k1_curve.toAffine.Point) : Prop :=
  ∃ h : secp256k1_curve.toAffine.Nonsingular (P.x : ZMod secp256k1_p) (P.y : ZMod secp256k1_p),
    P.x < secp256k1_p ∧ P.y < secp256k1_p ∧ e = WeierstrassCurve.Affine.Point.some h

/-- The reading `Rep` for an optional point, `none` standing for the identity. -/
def RepOpt (a : Option Point) (e : secp256k1_curve.toAffine.Point) : Prop :=
  match a with
  | none => e = 0
  | some A => Rep A e

/-- Checks of a Pratt certificate for `N`: a witness `a` and the prime powers of `N - 1`. -/
def prattCheck (N a : Nat) (fs : List (Nat × Nat)) : Bool :=
  decide (1 < N) && decide ((fs.map fun qe => qe.1 ^ qe.2).prod = N - 1) &&
    decide (powMod a (N - 1) N = 1) &&
    fs.all fun qe => decide (powMod a ((N - 1) / qe.1) N ≠ 1)

/-- Double-and-add with the side conditions of the formulas checked at every step:
`acc` is the sum so far (`none` before the first set bit), `B` the current power-of-two
multiple; the outer `none` reports a step whose formula is not defined. -/
def smulCheck (ops : PointOps) : Nat → Nat → Point → Option Point → Option (Option Point)
  | 0, k, _, acc => if k = 0 then some acc else none
  | fuel + 1, k, B, acc =>
    if k = 0 then some acc
    else
      let acc1 : Option (Option Point) :=
        if k % 2 = 1 then
          match acc with
          | none => some (some B)
          | some A => if A.x = B.x then none else some (some (ops.point_add A B))
        else some acc
      match acc1 with
      | none => none
      | some a => if B.y = 0 then none else smulCheck ops fuel (k / 2) (ops.point_double B) a

/-- An input text after its trailing white space has been taken off. -/
def stripTrailing (s : List Nat) : List Nat :=
  (s.reverse.dropWhile BtkPrivkey.isspace).reverse

/-- Value of a string of ASCII decimal digits. -/
def decValue (s : List Nat) : Nat := s.foldl (fun a c => a * 10 + (c - 48)) 0

/-- Big-endian value of a byte sequence. -/
def beNat (bs : List Nat) : Nat := bs.foldl (fun acc b => acc * 256 + b) 0

/-- Big-endian encoding of `v` in exactly 32 bytes (the standard serialisation of a coordinate). -/
def be32 (v : Nat) : List Nat := (List.range 32).map fun i => v / 256 ^ (31 - i) % 256

end Btk


namespace Btk

/-! ## Further conversions of a public key (src/mods/pubkey.c) -/

/-- The function `pubkey_compress` of src/mods/pubkey.c: a key whose flag is neither
0x02 nor 0x03 gets the flag of the parity of `y`, read by `mpz_import` from the 32
bytes that follow the 32 bytes of `x`; the other bytes stay. -/
def pubkey_compress (k : PubKey) : PubKey :=
  if k.data.getD 0 0 = PUBKEY_COMPRESSED_FLAG_EVEN ∨
      k.data.getD 0 0 = PUBKEY_COMPRESSED_FLAG_ODD then k
  else
    let y := beNat ((k.data.drop (1 + 32)).take 32)
    ⟨k.data.set 0 (if y % 2 = 0 then PUBKEY_COMPRESSED_FLAG_EVEN
      else PUBKEY_COMPRESSED_FLAG_ODD)⟩

/-- The loop of `pubkey_to_raw`: one byte `hex_to_dec(s[i], s[i+1])` for every two
characters. -/
def hexPairs (hex_to_dec : Char → Char → Nat) : List Char → List Nat
  | a :: b :: rest => hex_to_dec a b :: hexPairs hex_to_dec rest
  | _ => []

/-- The function `pubkey_to_raw` of src/mods/pubkey.c, with `hex_to_dec` of hex.c (not
in src) as a parameter: the bytes and the length stored in `*rl`; `none` when
`pubkey_to_hex` returned NULL, which `strlen` then dereferences. -/
def pubkey_to_raw (hex_to_dec : Char → Char → Nat) (k : PubKey) : Option (List Nat × Nat) :=
  match pubkey_to_hex k with
  | none => none
  | some s => some (hexPairs hex_to_dec s, s.length / 2)

/-- The function `bech32_get_address` of bech32.c (not in src): the text it writes for
the bytes and the length it is given. -/
structure Bech32Lib where
  bech32_get_address : List Nat → Nat → List Char

/-- The function `pubkey_to_bech32address` of src/mods/pubkey.c. -/
def pubkey_to_bech32address (lib : AddressLib) (b : Bech32Lib) (k : PubKey) : List Char :=
  let l := if pubkey_is_compressed k then PUBKEY_COMPRESSED_LENGTH + 1
    else PUBKEY_UNCOMPRESSED_LENGTH + 1
  let sha := lib.crypto_get_sha256 (k.data.take l)
  let rmd := lib.crypto_get_rmd160 (sha.take 32)
  b.bech32_get_address (rmd.take 20) 20

/-! ## Counting the group operations of pubkey_get -/

/-- The loop `doubleLoop` together with the number of `point_double` calls it has made. -/
def doubleLoopCount (ops : PointOps) : Nat → Point → Nat → Option (List Point × Nat)
  | 0, _, c => some ([], c)
  | fuel + 1, prev, c =>
    let pt := ops.point_double prev
    if ops.point_verify pt then
      (doubleLoopCount ops fuel pt (c + 1)).map (fun r => (pt :: r.1, r.2))
    else none

/-- The loop `addLoop` together with the number of `point_add` calls it has made: the
branch `point_set` of line 63 makes none. -/
def addLoopCount (ops : PointOps) (prvkey : Nat) :
    List Point → Nat → Point → Nat → Option (Point × Nat)
  | [], _, acc, c => some (acc, c)
  | pt :: rest, i, acc, c =>
    if prvkey.testBit i then
      if isEmptyAcc acc then
        (if ops.point_verify pt then addLoopCount ops prvkey rest (i + 1) pt c else none)
      else
        (if ops.point_verify (ops.point_add acc pt) then
          addLoopCount ops prvkey rest (i + 1) (ops.point_add acc pt) (c + 1)
        else none)
    else addLoopCount ops prvkey rest (i + 1) acc c

/-- The numbers of `point_double` and of `point_add` calls that `pubkey_get` makes for a
key, `none` when an assertion fails. -/
def pubkey_get_op_counts (ops : PointOps) (k : PrivKey) : Option (Nat × Nat) :=
  match doubleLoopCount ops (PUBKEY_POINTS - 1) ops.point_set_generator 0 with
  | none => none
  | some (pts, doubles) =>
    match addLoopCount ops (pubkey_get_scalar k) (ops.point_set_generator :: pts) 0
        point_init 0 with
    | none => none
    | some (_, adds) => some (doubles, adds)

/-- Number of set bits of `s` among the `len` positions from `i` on. -/
def setBits (s i len : Nat) : Nat := ((List.range' i len).filter fun j => s.testBit j).length

/-! ## compactuint_get_value (src/mods/compactuint.c) -/

/-- The loop `for (i = 0; i < j; ++i, ++input)`: `*output <<= 8; *output += *input;`
on a `uint64_t`. -/
def compactuintLoop : List Nat → Nat → Nat
  | [], out => out
  | b :: bs, out => compactuintLoop bs ((out * 256 % 2 ^ 64 + b) % 2 ^ 64)

/-- The function `compactuint_get_value` of src/mods/compactuint.c: the value returned
and the content of `*output` afterwards.  The result is `none` when `assert(input_len)`
fails, and when no branch assigns `j` (a first byte above 0xff, which an
`unsigned char` cannot hold). -/
def compactuint_get_value (output : Nat) (input : List Nat) (input_len : Nat) :
    Option (Int × Nat) :=
  if input_len = 0 then none
  else if input.getD 0 0 ≤ 0xfc then some (1, input.getD 0 0)
  else
    let j : Option Nat :=
      if input.getD 0 0 = 0xfd then some 2
      else if input.getD 0 0 = 0xfe then some 4
      else if input.getD 0 0 = 0xff then some 8
      else none
    match j with
    | none => none
    | some j =>
      if input_len < j + 1 then some (-1, output)
      else some (Int.ofNat (j + 1), compactuintLoop ((input.drop 1).take j) 0)

/-- Little-endian value of a byte sequence. -/
def leNat : List Nat → Nat
  | [] => 0
  | b :: bs => b + 256 * leNat bs

/-- Length of the compact-size encoding that starts with the byte `first`. -/
def compactSizeLen (first : Nat) : Nat :=
  if first ≤ 0xfc then 1 else if first = 0xfd then 3 else if first = 0xfe then 5 else 9

/-! ## UTXO values and keys (src/mods/databases/utxo.c) -/

def UTXO_KEY_MAX_LENGTH : Nat := 38

/-- A `struct UTXOValue`; `script` is `none` for the NULL pointer. -/
structure UTXOValue where
  height : Nat
  amount : Nat
  n_size : Nat
  script_len : Nat
  script : Option (List Nat)
deriving DecidableEq, Repr

/-- The function `utxo_value_has_address` of src/mods/databases/utxo.c. -/
def utxo_value_has_address (value : UTXOValue) : Int :=
  if value.script.isSome then
    (if value.n_size = 0 then 1 else if value.n_size = 1 then 1 else 0)
  else 0

/-- What `utxo_value_get_address` takes from outside: whether `malloc` of a size
succeeds, and `base58check_encode` of base58check.c (not in src) with its return code
and the text it writes into `address`. -/
structure UtxoEnv where
  malloc : Nat → Bool
  base58check_encode : List Nat → Nat → Int × List Char

/-- What a call of `utxo_value_get_address` leaves: the return value, the content of
`address`, and the value object. -/
structure AddressResult where
  ret : Int
  address : List Char
  value : UTXOValue
deriving DecidableEq, Repr

/-- The function `utxo_value_get_address` of src/mods/databases/utxo.c. -/
def utxo_value_get_address (env : UtxoEnv) (address : List Char) (value : UTXOValue) :
    AddressResult :=
  if utxo_value_has_address value = 0 then ⟨-1, address, value⟩
  else if !env.malloc (value.script_len + 1) then ⟨-1, address, value⟩
  else
    let rmd := (if value.n_size = 1 then 0x05 else 0x00) ::
      (value.script.getD []).take value.script_len
    let r := env.base58check_encode rmd (value.script_len + 1)
    if r.1 < 0 then ⟨-1, r.2, value⟩ else ⟨1, r.2, value⟩

/-- A `struct UTXOKey`. -/
structure UTXOKey where
  type : Nat
  tx_hash : List Nat
  vout : Nat
deriving DecidableEq, Repr

/-- The parts of utxo.h and serialize.c (neither in src) that the key functions use:
the constants `UTXO_KEY_TYPE`, `UTXO_KEY_MIN_LENGTH` and `UTXO_TX_HASH_LENGTH`, the
bytes `serialize_varint` writes for a number, and the number `deserialize_varint`
reads together with the bytes left after it. -/
structure UtxoLib where
  UTXO_KEY_TYPE : Nat
  UTXO_KEY_MIN_LENGTH : Nat
  UTXO_TX_HASH_LENGTH : Nat
  serialize_varint : Nat → List Nat
  deserialize_varint : List Nat → Nat × List Nat

/-- The loop `tmp[i] = key->tx_hash[UTXO_TX_HASH_LENGTH - 1 - i]` over `i` below
`UTXO_TX_HASH_LENGTH`. -/
def reverseHash (n : Nat) (tx_hash : List Nat) : List Nat :=
  (List.range n).map fun i => tx_hash.getD (n - 1 - i) 0

/-- The function `utxo_serialize_key` of src/mods/databases/utxo.c: the return value,
the bytes written to `output`, and `*output_len`.  The calls `serialize_uint8` and
`serialize_uchar` of serialize.c (not in src) are taken to write the one byte and
the bytes given. -/
def utxo_serialize_key (lib : UtxoLib) (key : UTXOKey) : Int × List Nat × Nat :=
  let tmp := reverseHash lib.UTXO_TX_HASH_LENGTH key.tx_hash
  let output := [key.type] ++ tmp ++ lib.serialize_varint key.vout
  (1, output, output.length)

/-- The function `utxo_set_key_from_raw` of src/mods/databases/utxo.c: the return value
and the key object afterwards; `none` when `assert(key_len)` fails.  The calls
`deserialize_uint8` and `deserialize_uchar` of serialize.c (not in src) are taken to
read the one byte and the bytes asked for. -/
def utxo_set_key_from_raw (lib : UtxoLib) (key : UTXOKey) (raw_key : List Nat)
    (key_len : Nat) : Option (Int × UTXOKey) :=
  if key_len = 0 then none
  else if raw_key.getD 0 0 ≠ lib.UTXO_KEY_TYPE then some (-1, key)
  else if key_len < lib.UTXO_KEY_MIN_LENGTH ∨ key_len > UTXO_KEY_MAX_LENGTH then
    some (-1, key)
  else
    let type := raw_key.getD 0 0
    let tx_hash := (raw_key.drop 1).take lib.UTXO_TX_HASH_LENGTH
    let vout := (lib.deserialize_varint (raw_key.drop (1 + lib.UTXO_TX_HASH_LENGTH))).1
    some (1, ⟨type, reverseHash lib.UTXO_TX_HASH_LENGTH tx_hash, vout⟩)

namespace BtkPubkey

end BtkPubkey

end Btk


namespace Btk

/-! ## The message queue of a node (src/mods/node.c) -/

def MAX_MESSAGE_QUEUE : Nat := 100

/-- What node.c takes from outside, for a type `M` of message objects: the byte count
that `ioctl(FIONREAD)` stores, the return value of `read` with the bytes it puts into
the buffer, and the functions of message.c (not in src).  `message_deserialize` is
given the buffer, the offset `j` of the pointer `s + j` and the length `l`, and gives
its return value with the message object it fills. -/
structure NodeEnv (M : Type) where
  fionread : Int
  read : Int → Int × List Nat
  message_deserialize : List Nat → Int → Int → Int × M
  message_is_valid : M → Int
  message_cmp_command : M → List Char → Int

/-- The function `node_read` of src/mods/node.c: the value returned and the content of
the buffer. -/
def node_read {M : Type} (env : NodeEnv M) : Int × List Nat :=
  if env.fionread > 0 then env.read env.fionread else (0, [])

/-- The loop `for (i = 0; i < MAX_MESSAGE_QUEUE; ++i) if (n->mqueue[i] == NULL) break;`
over the slots from index `i` on: the value of `i` after the loop. -/
def findNull {M : Type} : List (Option M) → Nat → Nat
  | [], i => i
  | none :: _, i => i
  | some _ :: rest, i => findNull rest (i + 1)

/-- The loop `while (l > 0)` of `node_read_messages` on the buffer `s`, with `fuel`
iterations allowed: the count `c` and the queue when the loop ends.  The result is
`none` when `assert(i < MAX_MESSAGE_QUEUE)` fails and when the fuel runs out. -/
def readLoop {M : Type} (env : NodeEnv M) (s : List Nat) :
    Nat → Int → Int → Int → List (Option M) → Option (Int × List (Option M))
  | 0, _, _, _, _ => none
  | fuel + 1, l, j, c, q =>
    if l > 0 then
      let d := env.message_deserialize s j l
      let j1 := j + d.1
      let l1 := l - j1
      if env.message_is_valid d.2 ≠ 0 then
        let i := findNull (q.take MAX_MESSAGE_QUEUE) 0
        if i < MAX_MESSAGE_QUEUE then
          readLoop env s fuel l1 j1 (c + 1) (q.set i (some d.2))
        else none
      else readLoop env s fuel l1 j1 c q
    else some (c, q)

/-- The function `node_read_messages` of src/mods/node.c on the queue `q`: the value
returned and the queue afterwards. -/
def node_read_messages {M : Type} (env : NodeEnv M) (fuel : Nat) (q : List (Option M)) :
    Option (Int × List (Option M)) :=
  let r := node_read env
  if r.1 < 0 then some (r.1, q) else readLoop env r.2 fuel r.1 0 0 q

/-- The first loop of `node_get_message` over the slots from index `i` on: the value
of `i` after the loop and the message `m`. -/
def searchLoop {M : Type} (env : NodeEnv M) (command : List Char) :
    List (Option M) → Nat → Nat × Option M
  | [], i => (i, none)
  | none :: _, i => (i, none)
  | some x :: rest, i =>
    if env.message_cmp_command x command = 0 then (i, some x)
    else searchLoop env command rest (i + 1)

/-- The loop `while (++i < MAX_MESSAGE_QUEUE)` of `node_get_message`; `i` is the value
after the increment. -/
def bumpLoop {M : Type} : Nat → Nat → List (Option M) → List (Option M)
  | 0, _, q => q
  | fuel + 1, i, q =>
    if i < MAX_MESSAGE_QUEUE then
      match q.getD i none with
      | some x => bumpLoop fuel (i + 1) ((q.set (i - 1) (some x)).set i none)
      | none => q
    else q

/-- The function `node_get_message` of src/mods/node.c on the queue `q`: the message
returned (`none` for NULL) and the queue afterwards; `none` when `node_read_messages`
gives no result. -/
def node_get_message {M : Type} (env : NodeEnv M) (fuel : Nat) (q : List (Option M))
    (command : List Char) : Option (Option M × List (Option M)) :=
  match node_read_messages env fuel q with
  | none => none
  | some (c, q1) =>
    if c < 0 then some (none, q1)
    else
      let r := searchLoop env command (q1.take MAX_MESSAGE_QUEUE) 0
      some (r.2, bumpLoop MAX_MESSAGE_QUEUE (r.1 + 1) q1)

/-- A node environment for examples: a message is a block of 24 bytes (a header
without payload), `message_deserialize` copies the 24 bytes at the offset and returns
24, every message is valid, and the command of a message is its first byte as a
character.  The socket holds the bytes `data`. -/
def exampleNodeEnv (data : List Nat) : NodeEnv (List Nat) where
  fionread := Int.ofNat data.length
  read := fun _ => (Int.ofNat data.length, data)
  message_deserialize := fun s j _ => (24, (s.drop j.toNat).take 24)
  message_is_valid := fun _ => 1
  message_cmp_command := fun m command =>
    if command = [Char.ofNat (m.getD 0 0)] then 0 else 1

/-- A queue that holds the given messages in its first slots. -/
def queueOf {M : Type} (ms : List M) : List (Option M) :=
  ms.map some ++ List.replicate (MAX_MESSAGE_QUEUE - ms.length) none

/-! ## The version message (src/mods/commands/version.c) -/

def IP_ADDR_FIELD_LEN : Nat := 16

def VERSION : Nat := 70015

def SERVICES : Nat := 0x00

def IP_ADDRESS : List Char := "00000000000000000000ffff7f000001".toList

def PORT : Nat := 8333

def USER_AGENT : List Char := "/Bitcoin-Toolkit:0.1.0/".toList

/-- The flag `SERIALIZE_ENDIAN_BIG` of serialize.h (not in src); version.c only passes
it on, so only its being different from `SERIALIZE_ENDIAN_LIT` matters. -/
def SERIALIZE_ENDIAN_BIG : Nat := 1

/-- The flag `SERIALIZE_ENDIAN_LIT` of serialize.h (not in src). -/
def SERIALIZE_ENDIAN_LIT : Nat := 2

/-- A `struct Version`; `user_agent` is `none` for the NULL pointer and otherwise the
characters before the terminating NUL. -/
structure Version where
  version : Nat
  services : Nat
  timestamp : Nat
  addr_recv_services : Nat
  addr_recv_ip_address : List Nat
  addr_recv_port : Nat
  addr_trans_services : Nat
  addr_trans_ip_address : List Nat
  addr_trans_port : Nat
  nonce : Nat
  user_agent_bytes : Nat
  user_agent : Option (List Nat)
  start_height : Nat
  relay : Nat
deriving DecidableEq, Repr

/-- The functions of serialize.c (not in src) that version.c calls.  A writer gives the
bytes it writes for a value and the endian flag; a reader gives the value it reads and
the rest of the source after the bytes it consumed. -/
structure SerializeLib where
  serialize_uint8 : Nat → Nat → List Nat
  serialize_uint16 : Nat → Nat → List Nat
  serialize_uint32 : Nat → Nat → List Nat
  serialize_uint64 : Nat → Nat → List Nat
  serialize_uchar : List Nat → Nat → List Nat
  serialize_char : List Nat → Nat → List Nat
  serialize_compuint : Nat → Nat → List Nat
  deserialize_uint8 : List Nat → Nat → Nat × List Nat
  deserialize_uint16 : List Nat → Nat → Nat × List Nat
  deserialize_uint32 : List Nat → Nat → Nat × List Nat
  deserialize_uint64 : List Nat → Nat → Nat × List Nat
  deserialize_uchar : List Nat → Nat → List Nat × List Nat
  deserialize_char : List Nat → Nat → List Nat × List Nat
  deserialize_compuint : List Nat → Nat → Nat × List Nat

/-- The function `version_new` of src/mods/commands/version.c, with the value of
`time(NULL)` and `hex_str_to_uc` of hex.c (not in src) as parameters. -/
def version_new (time : Nat) (hex_str_to_uc : List Char → List Nat) : Version where
  version := VERSION
  services := SERVICES
  timestamp := time
  addr_recv_services := SERVICES
  addr_recv_ip_address := (hex_str_to_uc IP_ADDRESS).take IP_ADDR_FIELD_LEN
  addr_recv_port := PORT
  addr_trans_services := SERVICES
  addr_trans_ip_address := (hex_str_to_uc IP_ADDRESS).take IP_ADDR_FIELD_LEN
  addr_trans_port := PORT
  nonce := 0x00
  user_agent_bytes := USER_AGENT.length
  user_agent := some (USER_AGENT.map Char.toNat)
  start_height := 0x00
  relay := 0x00

/-- The function `version_serialize` of src/mods/commands/version.c: the length
returned and the bytes `*s` points to; `none` when `user_agent` is NULL, which
`strlen` dereferences.  The allocation of `sizeof(struct Version) + 1024` bytes is
taken to hold the bytes written. -/
def version_serialize (lib : SerializeLib) (v : Version) : Option (Nat × List Nat) :=
  match v.user_agent with
  | none => none
  | some ua =>
    let out :=
      lib.serialize_uint32 v.version SERIALIZE_ENDIAN_LIT ++
      lib.serialize_uint64 v.services SERIALIZE_ENDIAN_LIT ++
      lib.serialize_uint64 v.timestamp SERIALIZE_ENDIAN_LIT ++
      lib.serialize_uint64 v.addr_recv_services SERIALIZE_ENDIAN_LIT ++
      lib.serialize_uchar v.addr_recv_ip_address IP_ADDR_FIELD_LEN ++
      lib.serialize_uint16 v.addr_recv_port SERIALIZE_ENDIAN_BIG ++
      lib.serialize_uint64 v.addr_trans_services SERIALIZE_ENDIAN_LIT ++
      lib.serialize_uchar v.addr_trans_ip_address IP_ADDR_FIELD_LEN ++
      lib.serialize_uint16 v.addr_trans_port SERIALIZE_ENDIAN_BIG ++
      lib.serialize_uint64 v.nonce SERIALIZE_ENDIAN_LIT ++
      lib.serialize_compuint v.user_agent_bytes SERIALIZE_ENDIAN_LIT ++
      lib.serialize_char ua ua.length ++
      lib.serialize_uint32 v.start_height SERIALIZE_ENDIAN_LIT ++
      lib.serialize_uint8 v.relay SERIALIZE_ENDIAN_LIT
    some (out.length, out)

/-- The object `NEW0` allocates: every field zero. -/
def version_zero : Version :=
  ⟨0, 0, 0, 0, List.replicate IP_ADDR_FIELD_LEN 0, 0, 0, List.replicate IP_ADDR_FIELD_LEN 0,
    0, 0, 0, none, 0, 0⟩

/-- The function `version_deserialize` of src/mods/commands/version.c: the value
returned (a `size_t`) and the object `*dest` afterwards; `none` when an assertion
fails. -/
def version_deserialize (lib : SerializeLib) (src : List Nat) (dest : Option Version)
    (l : Nat) : Option (Nat × Version) :=
  if l < 54 + IP_ADDR_FIELD_LEN + IP_ADDR_FIELD_LEN then none
  else
    let d0 := dest.getD version_zero
    let r1 := lib.deserialize_uint32 src SERIALIZE_ENDIAN_LIT
    let r2 := lib.deserialize_uint64 r1.2 SERIALIZE_ENDIAN_LIT
    let r3 := lib.deserialize_uint64 r2.2 SERIALIZE_ENDIAN_LIT
    let r4 := lib.deserialize_uint64 r3.2 SERIALIZE_ENDIAN_LIT
    let r5 := lib.deserialize_uchar r4.2 IP_ADDR_FIELD_LEN
    let r6 := lib.deserialize_uint16 r5.2 SERIALIZE_ENDIAN_BIG
    let r7 := lib.deserialize_uint64 r6.2 SERIALIZE_ENDIAN_LIT
    let r8 := lib.deserialize_uchar r7.2 IP_ADDR_FIELD_LEN
    let r9 := lib.deserialize_uint16 r8.2 SERIALIZE_ENDIAN_BIG
    let r10 := lib.deserialize_uint64 r9.2 SERIALIZE_ENDIAN_LIT
    let r11 := lib.deserialize_compuint r10.2 SERIALIZE_ENDIAN_LIT
    if r11.1 ≠ 0 then
      if l < 54 + IP_ADDR_FIELD_LEN + IP_ADDR_FIELD_LEN + r11.1 then none
      else
        let r12 := lib.deserialize_char r11.2 r11.1
        let r13 := lib.deserialize_uint32 r12.2 SERIALIZE_ENDIAN_LIT
        let r14 := lib.deserialize_uint8 r13.2 SERIALIZE_ENDIAN_LIT
        some ((61 + IP_ADDR_FIELD_LEN + IP_ADDR_FIELD_LEN + r11.1) % 2 ^ 64,
          { d0 with version := r1.1, services := r2.1, timestamp := r3.1,
                    addr_recv_services := r4.1, addr_recv_ip_address := r5.1,
                    addr_recv_port := r6.1, addr_trans_services := r7.1,
                    addr_trans_ip_address := r8.1, addr_trans_port := r9.1, nonce := r10.1,
                    user_agent_bytes := r11.1, user_agent := some r12.1,
                    start_height := r13.1, relay := r14.1 })
    else
      let r13 := lib.deserialize_uint32 r11.2 SERIALIZE_ENDIAN_LIT
      let r14 := lib.deserialize_uint8 r13.2 SERIALIZE_ENDIAN_LIT
      some ((61 + IP_ADDR_FIELD_LEN + IP_ADDR_FIELD_LEN + r11.1) % 2 ^ 64,
        { d0 with version := r1.1, services := r2.1, timestamp := r3.1,
                  addr_recv_services := r4.1, addr_recv_ip_address := r5.1,
                  addr_recv_port := r6.1, addr_trans_services := r7.1,
                  addr_trans_ip_address := r8.1, addr_trans_port := r9.1, nonce := r10.1,
                  user_agent_bytes := r11.1, user_agent := none,
                  start_height := r13.1, relay := r14.1 })

/-- Bytes of `v` in `n` bytes, least significant first. -/
def leBytes : Nat → Nat → List Nat
  | 0, _ => []
  | n + 1, v => v % 256 :: leBytes n (v / 256)

/-- The bytes of an integer of `n` bytes in the byte order of the endian flag. -/
def intBytes (n v endian : Nat) : List Nat :=
  if endian = SERIALIZE_ENDIAN_BIG then (leBytes n v).reverse else leBytes n v

/-- The integer read from bytes in the byte order of the endian flag. -/
def intOfBytes (bs : List Nat) (endian : Nat) : Nat :=
  if endian = SERIALIZE_ENDIAN_BIG then beNat bs else leNat bs

/-- A serialisation library for examples: integers of 1, 2, 4 and 8 bytes in the
byte order of the endian flag, byte and character arrays copied, and the compact
unsigned integer of the Bitcoin protocol (one byte below 0xfd, otherwise a marker
0xfd, 0xfe or 0xff and 2, 4 or 8 bytes). -/
def exampleSerializeLib : SerializeLib where
  serialize_uint8 := fun v e => intBytes 1 v e
  serialize_uint16 := fun v e => intBytes 2 v e
  serialize_uint32 := fun v e => intBytes 4 v e
  serialize_uint64 := fun v e => intBytes 8 v e
  serialize_uchar := fun bs n => bs.take n
  serialize_char := fun bs n => bs.take n
  serialize_compuint := fun v e =>
    if v < 0xfd then [v]
    else if v < 2 ^ 16 then 0xfd :: intBytes 2 v e
    else if v < 2 ^ 32 then 0xfe :: intBytes 4 v e
    else 0xff :: intBytes 8 v e
  deserialize_uint8 := fun s e => (intOfBytes (s.take 1) e, s.drop 1)
  deserialize_uint16 := fun s e => (intOfBytes (s.take 2) e, s.drop 2)
  deserialize_uint32 := fun s e => (intOfBytes (s.take 4) e, s.drop 4)
  deserialize_uint64 := fun s e => (intOfBytes (s.take 8) e, s.drop 8)
  deserialize_uchar := fun s n => (s.take n, s.drop n)
  deserialize_char := fun s n => (s.take n, s.drop n)
  deserialize_compuint := fun s e =>
    if s.getD 0 0 < 0xfd then (s.getD 0 0, s.drop 1)
    else if s.getD 0 0 = 0xfd then (intOfBytes ((s.drop 1).take 2) e, s.drop 3)
    else if s.getD 0 0 = 0xfe then (intOfBytes ((s.drop 1).take 4) e, s.drop 5)
    else (intOfBytes ((s.drop 1).take 8) e, s.drop 9)

/-- The bytes of a string of hex digits, two digits per byte, as `hex_str_to_uc` of
hex.c (not in src) is used in `version_new`. -/
def exampleHexStrToUc : List Char → List Nat
  | a :: b :: rest => ((digitVal a).getD 0 * 16 + (digitVal b).getD 0) :: exampleHexStrToUc rest
  | _ => []

end Btk


namespace Btk

/-! ## Modular exponentiation and primality certificates -/

theorem powModAux_eq (m : Nat) : ∀ (fuel b e acc : Nat), e ≤ fuel → acc < m →
    powModAux m fuel b e acc = acc * b ^ e % m := by
  intro fuel
  induction fuel with
  | zero =>
    intro b e acc he hacc
    have : e = 0 := by omega
    subst this
    simp [powModAux, Nat.mod_eq_of_lt hacc]
  | succ fuel ih =>
    intro b e acc he hacc
    unfold powModAux
    by_cases h0 : e = 0
    · subst h0; simp [Nat.mod_eq_of_lt hacc]
    · rw [if_neg h0]
      have hm : 0 < m := by omega
      have hle : e / 2 ≤ fuel := by omega
      by_cases h1 : e % 2 = 1
      · rw [if_pos h1, ih _ _ _ hle (Nat.mod_lt _ hm)]
        have he2 : b ^ e = b * (b * b) ^ (e / 2) := by
          conv_lhs => rw [show e = 2 * (e / 2) + 1 by omega]
          rw [pow_succ, pow_mul]; ring
        have key : (acc * b % m) * (b * b % m) ^ (e / 2) ≡ acc * b ^ e [MOD m] := by
          rw [he2, ← mul_assoc]
          exact Nat.ModEq.mul (Nat.mod_modEq _ _) ((Nat.mod_modEq _ _).pow _)
        exact key
      · rw [if_neg h1, ih _ _ _ hle hacc]
        have he2 : b ^ e = (b * b) ^ (e / 2) := by
          conv_lhs => rw [show e = 2 * (e / 2) by omega]
          rw [pow_mul]; ring
        have key : acc * (b * b % m) ^ (e / 2) ≡ acc * b ^ e [MOD m] := by
          rw [he2]
          exact Nat.ModEq.mul rfl ((Nat.mod_modEq _ _).pow _)
        exact key

theorem powMod_eq (a e m : Nat) (hm : 1 < m) : powMod a e m = a ^ e % m := by
  unfold powMod
  rw [powModAux_eq m e (a % m) e (1 % m) (le_refl _) (Nat.mod_lt _ (by omega))]
  have key : 1 % m * (a % m) ^ e ≡ a ^ e [MOD m] := by
    have h := Nat.ModEq.mul (Nat.mod_modEq 1 m) ((Nat.mod_modEq a m).pow e)
    simpa using h
  exact key

theorem powMod_cast (a e m : Nat) (hm : 1 < m) :
    ((powMod a e m : Nat) : ZMod m) = (a : ZMod m) ^ e := by
  rw [powMod_eq a e m hm, ZMod.natCast_mod]
  push_cast
  rfl

theorem prime_of_prattCheck (N a : Nat) (fs : List (Nat × Nat)) (h : prattCheck N a fs = true)
    (hfs : ∀ qe ∈ fs, Nat.Prime qe.1) : Nat.Prime N := by
  simp only [prattCheck, Bool.and_eq_true, decide_eq_true_eq, List.all_eq_true] at h
  obtain ⟨⟨⟨hN, hprod⟩, h1⟩, hq⟩ := h
  have cast_pow : ∀ e : Nat, ((a : ZMod N) ^ e = 1) ↔ powMod a e N = 1 := by
    intro e
    rw [powMod_eq a e N hN]
    have : ((a : ZMod N) ^ e = 1) ↔ ((a ^ e : Nat) : ZMod N) = ((1 : Nat) : ZMod N) := by
      push_cast; rfl
    rw [this, ZMod.natCast_eq_natCast_iff, Nat.ModEq, Nat.mod_eq_of_lt hN]
  refine lucas_primality N (a : ZMod N) ((cast_pow _).2 h1) ?_
  intro q hqp hqd
  rw [← hprod] at hqd
  obtain ⟨r, hr, hqr⟩ := (Prime.dvd_prod_iff hqp.prime).1 hqd
  obtain ⟨qe, hqe, rfl⟩ := List.mem_map.1 hr
  have hq1 : q ∣ qe.1 := hqp.dvd_of_dvd_pow hqr
  have hqq : q = qe.1 := (Nat.prime_dvd_prime_iff_eq hqp (hfs qe hqe)).1 hq1
  intro hc
  exact (hq qe hqe) ((cast_pow _).1 (hqq ▸ hc))

theorem prime_13331831 : Nat.Prime 13331831 :=
  prime_of_prattCheck _ 13 [(2, 1), (5, 1), (971, 1), (1373, 1)] (by decide!) (by
    intro qe hqe
    simp only [List.mem_cons, List.mem_singleton, List.not_mem_nil, or_false] at hqe
    rcases hqe with rfl | rfl | rfl | rfl <;> first | norm_num)

theorem prime_173378833005251801 : Nat.Prime 173378833005251801 :=
  prime_of_prattCheck _ 6 [(2, 3), (5, 2), (2621, 1), (24809, 1), (13331831, 1)] (by decide!) (by
    intro qe hqe
    simp only [List.mem_cons, List.mem_singleton, List.not_mem_nil, or_false] at hqe
    rcases hqe with rfl | rfl | rfl | rfl | rfl <;> first | exact prime_13331831 | norm_num)

theorem prime_22149492674086928081353 : Nat.Prime 22149492674086928081353 :=
  prime_of_prattCheck _ 5 [(2, 3), (3, 1), (5323, 1), (173378833005251801, 1)] (by decide!) (by
    intro qe hqe
    simp only [List.mem_cons, List.mem_singleton, List.not_mem_nil, or_false] at hqe
    rcases hqe with rfl | rfl | rfl | rfl <;> first | exact prime_173378833005251801 | norm_num)

theorem prime_132896956044521568488119 : Nat.Prime 132896956044521568488119 :=
  prime_of_prattCheck _ 6 [(2, 1), (3, 1), (22149492674086928081353, 1)] (by decide!) (by
    intro qe hqe
    simp only [List.mem_cons, List.mem_singleton, List.not_mem_nil, or_false] at hqe
    rcases hqe with rfl | rfl | rfl <;> first | exact prime_22149492674086928081353 | norm_num)

theorem prime_1206781 : Nat.Prime 1206781 :=
  prime_of_prattCheck _ 10 [(2, 2), (3, 1), (5, 1), (20113, 1)] (by decide!) (by
    intro qe hqe
    simp only [List.mem_cons, List.mem_singleton, List.not_mem_nil, or_false] at hqe
    rcases hqe with rfl | rfl | rfl | rfl <;> first | norm_num)

theorem prime_7240687 : Nat.Prime 7240687 :=
  prime_of_prattCheck _ 3 [(2, 1), (3, 1), (1206781, 1)] (by decide!) (by
    intro qe hqe
    simp only [List.mem_cons, List.mem_singleton, List.not_mem_nil, or_false] at hqe
    rcases hqe with rfl | rfl | rfl <;> first | exact prime_1206781 | norm_num)

theorem prime_107590001 : Nat.Prime 107590001 :=
  prime_of_prattCheck _ 3 [(2, 4), (5, 4), (7, 1), (29, 1), (53, 1)] (by decide!) (by
    intro qe hqe
    simp only [List.mem_cons, List.mem_singleton, List.not_mem_nil, or_false] at hqe
    rcases hqe with rfl | rfl | rfl | rfl | rfl <;> first | norm_num)

theorem prime_255515944373312847190720520512484175977 : Nat.Prime 255515944373312847190720520512484175977 :=
  prime_of_prattCheck _ 3 [(2, 3), (7, 2), (11, 1), (1627, 1), (2657, 1), (4423, 1), (41201, 1), (96557, 1), (7240687, 1), (107590001, 1)] (by decide!) (by
    intro qe hqe
    simp only [List.mem_cons, List.mem_singleton, List.not_mem_nil, or_false] at hqe
    rcases hqe with rfl | rfl | rfl | rfl | rfl | rfl | rfl | rfl | rfl | rfl <;> first | exact prime_7240687 | exact prime_107590001 | norm_num)

theorem prime_205115282021455665897114700593932402728804164701536103180137503955397371 : Nat.Prime 205115282021455665897114700593932402728804164701536103180137503955397371 :=
  prime_of_prattCheck _ 10 [(2, 1), (3, 1), (5, 1), (29, 2), (31, 1), (7723, 1), (132896956044521568488119, 1), (255515944373312847190720520512484175977, 1)] (by decide!) (by
    intro qe hqe
    simp only [List.mem_cons, List.mem_singleton, List.not_mem_nil, or_false] at hqe
    rcases hqe with rfl | rfl | rfl | rfl | rfl | rfl | rfl | rfl <;> first | exact prime_132896956044521568488119 | exact prime_255515944373312847190720520512484175977 | norm_num)

theorem prime_secp256k1_p : Nat.Prime secp256k1_p :=
  prime_of_prattCheck _ 3 [(2, 1), (3, 1), (7, 1), (13441, 1), (205115282021455665897114700593932402728804164701536103180137503955397371, 1)] (by decide!) (by
    intro qe hqe
    simp only [List.mem_cons, List.mem_singleton, List.not_mem_nil, or_false] at hqe
    rcases hqe with rfl | rfl | rfl | rfl | rfl <;> first | exact prime_205115282021455665897114700593932402728804164701536103180137503955397371 | norm_num)

theorem prime_4681609 : Nat.Prime 4681609 :=
  prime_of_prattCheck _ 23 [(2, 3), (3, 1), (97, 1), (2011, 1)] (by decide!) (by
    intro qe hqe
    simp only [List.mem_cons, List.mem_singleton, List.not_mem_nil, or_false] at hqe
    rcases hqe with rfl | rfl | rfl | rfl <;> first | norm_num)

theorem prime_107361793816595537 : Nat.Prime 107361793816595537 :=
  prime_of_prattCheck _ 3 [(2, 4), (16699, 1), (85831, 1), (4681609, 1)] (by decide!) (by
    intro qe hqe
    simp only [List.mem_cons, List.mem_singleton, List.not_mem_nil, or_false] at hqe
    rcases hqe with rfl | rfl | rfl | rfl <;> first | exact prime_4681609 | norm_num)

theorem prime_120233 : Nat.Prime 120233 :=
  prime_of_prattCheck _ 3 [(2, 3), (7, 1), (19, 1), (113, 1)] (by decide!) (by
    intro qe hqe
    simp only [List.mem_cons, List.mem_singleton, List.not_mem_nil, or_false] at hqe
    rcases hqe with rfl | rfl | rfl | rfl <;> first | norm_num)

theorem prime_44706919 : Nat.Prime 44706919 :=
  prime_of_prattCheck _ 6 [(2, 1), (3, 1), (797, 1), (9349, 1)] (by decide!) (by
    intro qe hqe
    simp only [List.mem_cons, List.mem_singleton, List.not_mem_nil, or_false] at hqe
    rcases hqe with rfl | rfl | rfl | rfl <;> first | norm_num)

theorem prime_174723607534414371449 : Nat.Prime 174723607534414371449 :=
  prime_of_prattCheck _ 3 [(2, 3), (17, 1), (59, 1), (4051, 1), (120233, 1), (44706919, 1)] (by decide!) (by
    intro qe hqe
    simp only [List.mem_cons, List.mem_singleton, List.not_mem_nil, or_false] at hqe
    rcases hqe with rfl | rfl | rfl | rfl | rfl | rfl <;> first | exact prime_120233 | exact prime_44706919 | norm_num)

theorem prime_305873 : Nat.Prime 305873 :=
  prime_of_prattCheck _ 3 [(2, 4), (7, 1), (2731, 1)] (by decide!) (by
    intro qe hqe
    simp only [List.mem_cons, List.mem_singleton, List.not_mem_nil, or_false] at hqe
    rcases hqe with rfl | rfl | rfl <;> first | norm_num)

theorem prime_545358713 : Nat.Prime 545358713 :=
  prime_of_prattCheck _ 5 [(2, 3), (41, 1), (59, 1), (28181, 1)] (by decide!) (by
    intro qe hqe
    simp only [List.mem_cons, List.mem_singleton, List.not_mem_nil, or_false] at hqe
    rcases hqe with rfl | rfl | rfl | rfl <;> first | norm_num)

theorem prime_1627771 : Nat.Prime 1627771 :=
  prime_of_prattCheck _ 3 [(2, 1), (3, 1), (5, 1), (29, 1), (1871, 1)] (by decide!) (by
    intro qe hqe
    simp only [List.mem_cons, List.mem_singleton, List.not_mem_nil, or_false] at hqe
    rcases hqe with rfl | rfl | rfl | rfl | rfl <;> first | norm_num)

theorem prime_297159362677 : Nat.Prime 297159362677 :=
  prime_of_prattCheck _ 2 [(2, 2), (3, 2), (11, 1), (461, 1), (1627771, 1)] (by decide!) (by
    intro qe hqe
    simp only [List.mem_cons, List.mem_singleton, List.not_mem_nil, or_false] at hqe
    rcases hqe with rfl | rfl | rfl | rfl | rfl <;> first | exact prime_1627771 | norm_num)

theorem prime_29047611873442575647497758179 : Nat.Prime 29047611873442575647497758179 :=
  prime_of_prattCheck _ 2 [(2, 1), (293, 1), (305873, 1), (545358713, 1), (297159362677, 1)] (by decide!) (by
    intro qe hqe
    simp only [List.mem_cons, List.mem_singleton, List.not_mem_nil, or_false] at hqe
    rcases hqe with rfl | rfl | rfl | rfl | rfl <;> first | exact prime_305873 | exact prime_545358713 | exact prime_297159362677 | norm_num)

theorem prime_341948486974166000522343609283189 : Nat.Prime 341948486974166000522343609283189 :=
  prime_of_prattCheck _ 2 [(2, 2), (3, 3), (109, 1), (29047611873442575647497758179, 1)] (by decide!) (by
    intro qe hqe
    simp only [List.mem_cons, List.mem_singleton, List.not_mem_nil, or_false] at hqe
    rcases hqe with rfl | rfl | rfl | rfl <;> first | exact prime_29047611873442575647497758179 | norm_num)

theorem prime_secp256k1_n : Nat.Prime secp256k1_n :=
  prime_of_prattCheck _ 7 [(2, 6), (3, 1), (149, 1), (631, 1), (107361793816595537, 1), (174723607534414371449, 1), (341948486974166000522343609283189, 1)] (by decide!) (by
    intro qe hqe
    simp only [List.mem_cons, List.mem_singleton, List.not_mem_nil, or_false] at hqe
    rcases hqe with rfl | rfl | rfl | rfl | rfl | rfl | rfl <;> first | exact prime_107361793816595537 | exact prime_174723607534414371449 | exact prime_341948486974166000522343609283189 | norm_num)

end Btk


namespace Btk

/-! ## The modelled point functions and Mathlib's group of the curve -/

open WeierstrassCurve.Affine

theorem secp256k1_p_gt : 1 < secp256k1_p := by decide

theorem cast_mulMod (a b : Nat) :
    ((mulMod a b : Nat) : ZMod secp256k1_p) = (a : ZMod secp256k1_p) * b := by
  unfold mulMod
  rw [ZMod.natCast_mod]
  push_cast
  rfl

theorem cast_subMod (a b : Nat) :
    ((subMod a b : Nat) : ZMod secp256k1_p) = (a : ZMod secp256k1_p) - b := by
  unfold subMod
  rw [ZMod.natCast_mod]
  have hb : b % secp256k1_p ≤ secp256k1_p := (Nat.mod_lt b (by decide)).le
  rw [Nat.cast_add, Nat.cast_sub hb, ZMod.natCast_self, ZMod.natCast_mod]
  ring

theorem cast_modInv (a : Nat) :
    ((modInv a : Nat) : ZMod secp256k1_p) = (a : ZMod secp256k1_p)⁻¹ := by
  haveI : Fact (Nat.Prime secp256k1_p) := ⟨prime_secp256k1_p⟩
  unfold modInv
  rw [powMod_cast a _ _ secp256k1_p_gt]
  by_cases ha : (a : ZMod secp256k1_p) = 0
  · rw [ha, inv_zero]
    exact zero_pow (by decide)
  · have h1 : (a : ZMod secp256k1_p) ^ (secp256k1_p - 1) = 1 := ZMod.pow_card_sub_one_eq_one ha
    have h2 : (a : ZMod secp256k1_p) ^ (secp256k1_p - 2) * a = 1 := by
      rw [← pow_succ]
      exact h1
    exact eq_inv_of_mul_eq_one_left h2


theorem cast_ne_zero_of_lt (a : Nat) (h0 : 0 < a) (h1 : a < secp256k1_p) :
    (a : ZMod secp256k1_p) ≠ 0 := by
  intro h
  rw [ZMod.natCast_zmod_eq_zero_iff_dvd] at h
  exact absurd (Nat.le_of_dvd h0 h) (by omega)

theorem curve_equation_iff (x y : ZMod secp256k1_p) :
    secp256k1_curve.toAffine.Equation x y ↔ y * y = x * x * x + 7 := by
  rw [WeierstrassCurve.Affine.equation_iff]
  simp only [secp256k1_curve]
  constructor
  · intro h
    linear_combination h
  · intro h
    linear_combination h

theorem curve_negY (x y : ZMod secp256k1_p) : secp256k1_curve.toAffine.negY x y = -y := by
  simp [WeierstrassCurve.Affine.negY, secp256k1_curve]

theorem curve_nonsingular_of_equation {x y : ZMod secp256k1_p}
    (h : secp256k1_curve.toAffine.Equation x y) : secp256k1_curve.toAffine.Nonsingular x y := by
  haveI : Fact (Nat.Prime secp256k1_p) := ⟨prime_secp256k1_p⟩
  rw [WeierstrassCurve.Affine.nonsingular_iff]
  refine ⟨h, ?_⟩
  simp only [secp256k1_curve]
  by_contra hc
  push_neg at hc
  obtain ⟨h1, h2⟩ := hc
  have h3 : (3 : ZMod secp256k1_p) ≠ 0 := by
    have := cast_ne_zero_of_lt 3 (by decide) (by decide)
    simpa using this
  have h2' : (2 : ZMod secp256k1_p) ≠ 0 := by
    have := cast_ne_zero_of_lt 2 (by decide) (by decide)
    simpa using this
  have h7 : (7 : ZMod secp256k1_p) ≠ 0 := by
    have := cast_ne_zero_of_lt 7 (by decide) (by decide)
    simpa using this
  have hy : y = 0 := by
    have : 2 * y = 0 := by linear_combination h2
    rcases mul_eq_zero.1 this with h | h
    · exact absurd h h2'
    · exact h
  have hx : x = 0 := by
    have : 3 * x ^ 2 = 0 := by linear_combination -h1
    rcases mul_eq_zero.1 this with h | h
    · exact absurd h h3
    · exact pow_eq_zero_iff (by decide) |>.1 h
  rw [curve_equation_iff, hx, hy] at h
  apply h7
  linear_combination -h

theorem onCurve_equation {P : Point} (h : onCurve P) :
    secp256k1_curve.toAffine.Equation (P.x : ZMod secp256k1_p) (P.y : ZMod secp256k1_p) := by
  rw [curve_equation_iff]
  have h3 := h.2.2
  have := (ZMod.natCast_eq_natCast_iff' (P.y * P.y) (P.x * P.x * P.x + 7) secp256k1_p).2 h3
  push_cast at this
  exact this

theorem onCurve_nonsingular {P : Point} (h : onCurve P) :
    secp256k1_curve.toAffine.Nonsingular (P.x : ZMod secp256k1_p) (P.y : ZMod secp256k1_p) :=
  curve_nonsingular_of_equation (onCurve_equation h)

theorem onCurve_of_equation (P : Point) (hx : P.x < secp256k1_p) (hy : P.y < secp256k1_p)
    (h : secp256k1_curve.toAffine.Equation (P.x : ZMod secp256k1_p) (P.y : ZMod secp256k1_p)) :
    onCurve P := by
  refine ⟨hx, hy, ?_⟩
  rw [curve_equation_iff] at h
  apply (ZMod.natCast_eq_natCast_iff' (P.y * P.y) (P.x * P.x * P.x + 7) secp256k1_p).1
  push_cast
  exact h

theorem subMod_lt (a b : Nat) : subMod a b < secp256k1_p := Nat.mod_lt _ (by decide)

theorem some_congr {x y x1 y1 : ZMod secp256k1_p}
    (h : secp256k1_curve.toAffine.Nonsingular x y)
    (h1 : secp256k1_curve.toAffine.Nonsingular x1 y1) (hx : x = x1) (hy : y = y1) :
    Point.some h = Point.some h1 := by
  subst hx
  subst hy
  rfl


theorem two_ne_zero_zmod : (2 : ZMod secp256k1_p) ≠ 0 := by
  have := cast_ne_zero_of_lt 2 (by decide) (by decide)
  simpa using this

theorem point_double_spec [Fact (Nat.Prime secp256k1_p)] {P : Point} (h : onCurve P)
    (hy : (P.y : ZMod secp256k1_p) ≠ 0) :
    ∃ hd : onCurve (point_double P),
      Point.some (onCurve_nonsingular h) + Point.some (onCurve_nonsingular h) =
        Point.some (onCurve_nonsingular hd) := by
  have hne : (P.y : ZMod secp256k1_p) ≠ secp256k1_curve.toAffine.negY P.x P.y := by
    rw [curve_negY]
    intro e
    have : (2 : ZMod secp256k1_p) * P.y = 0 := by linear_combination e
    rcases mul_eq_zero.1 this with h2 | h2
    · exact two_ne_zero_zmod h2
    · exact hy h2
  have hsl : secp256k1_curve.toAffine.slope (P.x : ZMod secp256k1_p) P.x P.y P.y =
      3 * (P.x : ZMod secp256k1_p) * P.x * (2 * (P.y : ZMod secp256k1_p))⁻¹ := by
    rw [WeierstrassCurve.Affine.slope_of_Y_ne rfl hne, curve_negY]
    simp only [secp256k1_curve]
    rw [div_eq_mul_inv]
    congr 1
    · ring
    · congr 1; ring
  have hs : ((mulMod (mulMod 3 (mulMod P.x P.x)) (modInv (mulMod 2 P.y)) : Nat) :
      ZMod secp256k1_p) = secp256k1_curve.toAffine.slope (P.x : ZMod secp256k1_p) P.x P.y P.y := by
    rw [hsl, cast_mulMod, cast_mulMod, cast_mulMod, cast_modInv, cast_mulMod]
    push_cast
    ring
  have hX : (((point_double P).x : Nat) : ZMod secp256k1_p) =
      secp256k1_curve.toAffine.addX P.x P.x
        (secp256k1_curve.toAffine.slope (P.x : ZMod secp256k1_p) P.x P.y P.y) := by
    simp only [point_double, WeierstrassCurve.Affine.addX]
    rw [cast_subMod, cast_subMod, cast_mulMod, hs]
    simp only [secp256k1_curve]
    ring
  have hY : (((point_double P).y : Nat) : ZMod secp256k1_p) =
      secp256k1_curve.toAffine.addY P.x P.x P.y
        (secp256k1_curve.toAffine.slope (P.x : ZMod secp256k1_p) P.x P.y P.y) := by
    simp only [WeierstrassCurve.Affine.addY, WeierstrassCurve.Affine.negAddY, curve_negY]
    rw [← hX]
    simp only [point_double]
    rw [cast_subMod, cast_mulMod, cast_subMod, hs]
    ring
  have hns := WeierstrassCurve.Affine.nonsingular_add (onCurve_nonsingular h)
    (onCurve_nonsingular h) (fun _ => hne)
  have hd : onCurve (point_double P) := by
    apply onCurve_of_equation _ (subMod_lt _ _) (subMod_lt _ _)
    rw [hX, hY]
    exact hns.1
  refine ⟨hd, ?_⟩
  rw [WeierstrassCurve.Affine.Point.add_self_of_Y_ne hne]
  exact some_congr _ _ hX.symm hY.symm

theorem point_add_spec [Fact (Nat.Prime secp256k1_p)] {P Q : Point} (hP : onCurve P)
    (hQ : onCurve Q) (hx : (P.x : ZMod secp256k1_p) ≠ Q.x) :
    ∃ hd : onCurve (point_add P Q),
      Point.some (onCurve_nonsingular hP) + Point.some (onCurve_nonsingular hQ) =
        Point.some (onCurve_nonsingular hd) := by
  have hsl : secp256k1_curve.toAffine.slope (P.x : ZMod secp256k1_p) Q.x P.y Q.y =
      ((Q.y : ZMod secp256k1_p) - P.y) * ((Q.x : ZMod secp256k1_p) - P.x)⁻¹ := by
    rw [WeierstrassCurve.Affine.slope_of_X_ne hx, div_eq_mul_inv]
    have h1 : (P.x : ZMod secp256k1_p) - Q.x ≠ 0 := sub_ne_zero.2 hx
    have h2 : (Q.x : ZMod secp256k1_p) - P.x ≠ 0 := sub_ne_zero.2 (Ne.symm hx)
    field_simp
    ring
  have hs : ((mulMod (subMod Q.y P.y) (modInv (subMod Q.x P.x)) : Nat) : ZMod secp256k1_p) =
      secp256k1_curve.toAffine.slope (P.x : ZMod secp256k1_p) Q.x P.y Q.y := by
    rw [hsl, cast_mulMod, cast_subMod, cast_modInv, cast_subMod]
  have hX : (((point_add P Q).x : Nat) : ZMod secp256k1_p) =
      secp256k1_curve.toAffine.addX P.x Q.x
        (secp256k1_curve.toAffine.slope (P.x : ZMod secp256k1_p) Q.x P.y Q.y) := by
    simp only [point_add, WeierstrassCurve.Affine.addX]
    rw [cast_subMod, cast_subMod, cast_mulMod, hs]
    simp only [secp256k1_curve]
    ring
  have hY : (((point_add P Q).y : Nat) : ZMod secp256k1_p) =
      secp256k1_curve.toAffine.addY P.x Q.x P.y
        (secp256k1_curve.toAffine.slope (P.x : ZMod secp256k1_p) Q.x P.y Q.y) := by
    simp only [WeierstrassCurve.Affine.addY, WeierstrassCurve.Affine.negAddY, curve_negY]
    rw [← hX]
    simp only [point_add]
    rw [cast_subMod, cast_mulMod, cast_subMod, hs]
    ring
  have hns := WeierstrassCurve.Affine.nonsingular_add (onCurve_nonsingular hP)
    (onCurve_nonsingular hQ) (fun e => (hx e).elim)
  have hd : onCurve (point_add P Q) := by
    apply onCurve_of_equation _ (subMod_lt _ _) (subMod_lt _ _)
    rw [hX, hY]
    exact hns.1
  refine ⟨hd, ?_⟩
  rw [WeierstrassCurve.Affine.Point.add_of_X_ne hx]
  exact some_congr _ _ hX.symm hY.symm


theorem rep_of_onCurve {P : Point} (h : onCurve P) :
    Rep P (Point.some (onCurve_nonsingular h)) :=
  ⟨onCurve_nonsingular h, h.1, h.2.1, rfl⟩

theorem onCurve_of_rep {P : Point} {e : secp256k1_curve.toAffine.Point} (h : Rep P e) :
    onCurve P := by
  obtain ⟨hn, hx, hy, _⟩ := h
  exact onCurve_of_equation P hx hy hn.1

theorem rep_eq {P : Point} {e : secp256k1_curve.toAffine.Point} (h : Rep P e)
    (hc : onCurve P) : e = Point.some (onCurve_nonsingular hc) := by
  obtain ⟨hn, _, _, he⟩ := h
  rw [he]

theorem rep_unique {P : Point} {e f : secp256k1_curve.toAffine.Point} (h : Rep P e)
    (h1 : Rep P f) : e = f := by
  have hc := onCurve_of_rep h
  rw [rep_eq h hc, rep_eq h1 hc]

theorem rep_ne_zero {P : Point} {e : secp256k1_curve.toAffine.Point} (h : Rep P e) : e ≠ 0 := by
  obtain ⟨hn, _, _, he⟩ := h
  rw [he]
  exact WeierstrassCurve.Affine.Point.some_ne_zero hn

theorem cast_inj_of_lt {a b : Nat} (ha : a < secp256k1_p) (hb : b < secp256k1_p)
    (h : (a : ZMod secp256k1_p) = b) : a = b := by
  have := (ZMod.natCast_eq_natCast_iff' a b secp256k1_p).1 h
  rwa [Nat.mod_eq_of_lt ha, Nat.mod_eq_of_lt hb] at this

theorem rep_double [Fact (Nat.Prime secp256k1_p)] {P : Point}
    {e : secp256k1_curve.toAffine.Point} (h : Rep P e) (hy : P.y ≠ 0) :
    Rep (point_double P) (e + e) := by
  have hc := onCurve_of_rep h
  have hy1 : (P.y : ZMod secp256k1_p) ≠ 0 := cast_ne_zero_of_lt _ (Nat.pos_of_ne_zero hy) hc.2.1
  obtain ⟨hd, hsum⟩ := point_double_spec hc hy1
  rw [rep_eq h hc, hsum]
  exact rep_of_onCurve hd

theorem rep_add [Fact (Nat.Prime secp256k1_p)] {P Q : Point}
    {e f : secp256k1_curve.toAffine.Point} (hP : Rep P e) (hQ : Rep Q f) (hx : P.x ≠ Q.x) :
    Rep (point_add P Q) (e + f) := by
  have hcP := onCurve_of_rep hP
  have hcQ := onCurve_of_rep hQ
  have hx1 : (P.x : ZMod secp256k1_p) ≠ Q.x := fun h => hx (cast_inj_of_lt hcP.1 hcQ.1 h)
  obtain ⟨hd, hsum⟩ := point_add_spec hcP hcQ hx1
  rw [rep_eq hP hcP, rep_eq hQ hcQ, hsum]
  exact rep_of_onCurve hd

theorem smulCheck_spec [Fact (Nat.Prime secp256k1_p)] :
    ∀ (fuel k : Nat) (B : Point) (acc r : Option Point) (a b : secp256k1_curve.toAffine.Point),
      smulCheck secp256k1_ops fuel k B acc = some r → Rep B b → RepOpt acc a →
      RepOpt r (a + k • b) := by
  intro fuel
  induction fuel with
  | zero =>
    intro k B acc r a b h _ ha
    simp only [smulCheck] at h
    split at h
    · next hk =>
      subst hk
      cases h
      rw [zero_nsmul, add_zero]
      exact ha
    · cases h
  | succ fuel ih =>
    intro k B acc r a b h hB ha
    unfold smulCheck at h
    by_cases hk : k = 0
    · subst hk
      simp only [if_true] at h
      cases h
      rw [zero_nsmul, add_zero]
      exact ha
    · rw [if_neg hk] at h
      have hk2 : k • b = (k % 2) • b + (k / 2) • (b + b) := by
        rw [← two_nsmul, ← mul_nsmul, ← add_nsmul]
        congr 1
        omega
      by_cases hodd : k % 2 = 1
      · simp only [hodd, if_true] at h
        cases acc with
        | none =>
          simp only at h
          by_cases hy : B.y = 0
          · simp [hy] at h
          · rw [if_neg hy] at h
            have hrec := ih (k / 2) (point_double B) (some B) r b (b + b) h
              (rep_double hB hy) hB
            have ha0 : a = 0 := ha
            rw [hk2, hodd, one_nsmul, ha0, zero_add]
            exact hrec
        | some A =>
          simp only at h
          by_cases hx : A.x = B.x
          · simp [hx] at h
          · rw [if_neg hx] at h
            simp only at h
            by_cases hy : B.y = 0
            · simp [hy] at h
            · rw [if_neg hy] at h
              have hA : Rep A a := ha
              have hrec := ih (k / 2) (point_double B) (some (point_add A B)) r (a + b) (b + b) h
                (rep_double hB hy) (rep_add hA hB hx)
              rw [hk2, hodd, one_nsmul, ← add_assoc]
              exact hrec
      · have hev : k % 2 = 0 := by omega
        simp only [hev] at h
        simp only [show (0 : Nat) = 1 ↔ False by decide, if_false] at h
        by_cases hy : B.y = 0
        · simp [hy] at h
        · rw [if_neg hy] at h
          have hrec := ih (k / 2) (point_double B) acc r a (b + b) h (rep_double hB hy) ha
          rw [hk2, hev, zero_nsmul, zero_add]
          exact hrec


theorem generator_onCurve : onCurve point_set_generator := by decide!

theorem smulCheck_order :
    smulCheck secp256k1_ops 300 (secp256k1_n - 1) point_set_generator none =
      some (some ⟨secp256k1_Gx, secp256k1_p - secp256k1_Gy⟩) := by decide!

theorem rep_neg {P : Point} {e : secp256k1_curve.toAffine.Point} (h : Rep P e) (hy : 0 < P.y) :
    Rep ⟨P.x, secp256k1_p - P.y⟩ (-e) := by
  obtain ⟨hn, hx, hy1, he⟩ := h
  have hcast : (((secp256k1_p - P.y : Nat)) : ZMod secp256k1_p) =
      secp256k1_curve.toAffine.negY P.x P.y := by
    rw [curve_negY, Nat.cast_sub hy1.le, ZMod.natCast_self, zero_sub]
  have hn1 := WeierstrassCurve.Affine.nonsingular_neg hn
  have hn2 : secp256k1_curve.toAffine.Nonsingular (P.x : ZMod secp256k1_p)
      (((secp256k1_p - P.y : Nat)) : ZMod secp256k1_p) := by
    rw [hcast]
    exact hn1
  refine ⟨hn2, hx, by simp only; omega, ?_⟩
  rw [he, WeierstrassCurve.Affine.Point.neg_some]
  exact some_congr _ _ rfl hcast.symm

theorem generator_nsmul_order [Fact (Nat.Prime secp256k1_p)]
    {g : secp256k1_curve.toAffine.Point} (hg : Rep point_set_generator g) :
    secp256k1_n • g = 0 := by
  have h1 := smulCheck_spec 300 (secp256k1_n - 1) point_set_generator none _ 0 g
    smulCheck_order hg rfl
  have h2 : Rep ⟨secp256k1_Gx, secp256k1_p - secp256k1_Gy⟩ (-g) :=
    rep_neg hg (by decide)
  have h3 : (0 : secp256k1_curve.toAffine.Point) + (secp256k1_n - 1) • g = -g :=
    rep_unique h1 h2
  rw [zero_add] at h3
  have h4 : secp256k1_n = (secp256k1_n - 1) + 1 := by decide
  rw [h4, add_nsmul, one_nsmul, h3, neg_add_cancel]

theorem generator_order_iff [Fact (Nat.Prime secp256k1_p)]
    {g : secp256k1_curve.toAffine.Point} (hg : Rep point_set_generator g) (m : Nat) :
    m • g = 0 ↔ secp256k1_n ∣ m := by
  have h0 := generator_nsmul_order hg
  have hdvd : addOrderOf g ∣ secp256k1_n := addOrderOf_dvd_of_nsmul_eq_zero h0
  have hne : addOrderOf g ≠ 1 := by
    intro h
    exact rep_ne_zero hg (AddMonoid.addOrderOf_eq_one_iff.1 h)
  have heq : addOrderOf g = secp256k1_n := by
    rcases (Nat.dvd_prime prime_secp256k1_n).1 hdvd with h | h
    · exact absurd h hne
    · exact h
  rw [← heq]
  exact addOrderOf_dvd_iff_nsmul_eq_zero.symm


theorem secp256k1_groupLaw :
    ∃ (E : Type) (inst : AddCommGroup E) (toE : Point → E), @GroupLaw secp256k1_ops E inst toE := by
  haveI : Fact (Nat.Prime secp256k1_p) := ⟨prime_secp256k1_p⟩
  let toE : Point → secp256k1_curve.toAffine.Point := fun P =>
    if h : onCurve P then Point.some (onCurve_nonsingular h) else 0
  have htoE : ∀ P (h : onCurve P), toE P = Point.some (onCurve_nonsingular h) := by
    intro P h
    simp only [toE, dif_pos h]
  have hrep : ∀ P, onCurve P → Rep P (toE P) := by
    intro P h
    rw [htoE P h]
    exact rep_of_onCurve h
  refine ⟨secp256k1_curve.toAffine.Point, inferInstance, toE, ?_⟩
  refine ⟨generator_onCurve, ?_, ?_, ?_, ?_, ?_⟩
  · intro P h
    simp only [secp256k1_ops, point_verify, decide_eq_true_eq]
    exact h.2.2
  · intro P h
    exact rep_ne_zero (hrep P h)
  · intro P h hne
    have hy : P.y ≠ 0 := by
      intro hy0
      apply hne
      rw [htoE P h]
      apply WeierstrassCurve.Affine.Point.add_self_of_Y_eq
      rw [curve_negY, hy0]
      simp
    have hr := rep_double (hrep P h) hy
    exact ⟨onCurve_of_rep hr, (rep_unique (hrep _ (onCurve_of_rep hr)) hr)⟩
  · intro P Q hP hQ hne hsum
    have hx : P.x ≠ Q.x := by
      intro hx0
      have hxc : (P.x : ZMod secp256k1_p) = Q.x := by rw [hx0]
      rcases WeierstrassCurve.Affine.Y_eq_of_X_eq (onCurve_equation hP) (onCurve_equation hQ) hxc
        with hy | hy
      · apply hne
        have hyn : P.y = Q.y := cast_inj_of_lt hP.2.1 hQ.2.1 hy
        have : P = Q := by
          cases P
          cases Q
          simp only at hx0 hyn
          rw [hx0, hyn]
        rw [this]
      · apply hsum
        rw [htoE P hP, htoE Q hQ]
        exact WeierstrassCurve.Affine.Point.add_of_Y_eq hxc hy
    have hr := rep_add (hrep P hP) (hrep Q hQ) hx
    exact ⟨onCurve_of_rep hr, (rep_unique (hrep _ (onCurve_of_rep hr)) hr)⟩
  · intro m
    exact generator_order_iff (hrep _ generator_onCurve) m

end Btk


namespace Btk

/-! ## The loops of pubkey_get under the group law -/

section Loops

variable {E : Type} [AddCommGroup E] {ops : PointOps} {toE : Point → E}

theorem nsmul_ne_zero_of_lt (law : GroupLaw ops toE) {m : Nat} (h0 : 0 < m)
    (h1 : m < secp256k1_n) : m • toE ops.point_set_generator ≠ 0 := by
  intro h
  have hd := (law.generator_order m).1 h
  exact absurd (Nat.le_of_dvd h0 hd) (by omega)

theorem two_pow_nsmul_ne_zero (law : GroupLaw ops toE) (i : Nat) :
    (2 ^ i) • toE ops.point_set_generator ≠ 0 := by
  intro h
  have hd := (law.generator_order (2 ^ i)).1 h
  have h2 : secp256k1_n ∣ 2 := prime_secp256k1_n.dvd_of_dvd_pow hd
  exact absurd (Nat.le_of_dvd (by decide) h2) (by decide)

theorem not_onCurve_zero : ¬ onCurve ⟨0, 0⟩ := by decide

theorem isEmptyAcc_init : isEmptyAcc point_init = true := by decide

theorem isEmptyAcc_of_onCurve {P : Point} (h : onCurve P) : isEmptyAcc P = false := by
  cases hP : isEmptyAcc P
  · rfl
  · exfalso
    simp only [isEmptyAcc, Bool.and_eq_true, decide_eq_true_eq] at hP
    apply not_onCurve_zero
    cases P
    simp only at hP
    rw [hP.1, hP.2] at h
    exact h

theorem doubleLoop_spec (law : GroupLaw ops toE) :
    ∀ (fuel : Nat) (prev : Point) (j : Nat), onCurve prev →
      toE prev = (2 ^ j) • toE ops.point_set_generator →
      ∃ pts, doubleLoop ops fuel prev = some pts ∧ pts.length = fuel ∧
        ∀ (i : Nat) (hi : i < pts.length),
          onCurve pts[i] ∧ toE pts[i] = (2 ^ (j + 1 + i)) • toE ops.point_set_generator := by
  intro fuel
  induction fuel with
  | zero =>
    intro prev j _ _
    exact ⟨[], rfl, rfl, fun i hi => absurd hi (by simp)⟩
  | succ fuel ih =>
    intro prev j hc hrep
    have hsum : toE prev + toE prev = (2 ^ (j + 1)) • toE ops.point_set_generator := by
      rw [hrep, ← add_nsmul, pow_succ]
      congr 1
      omega
    have hne : toE prev + toE prev ≠ 0 := by
      rw [hsum]
      exact two_pow_nsmul_ne_zero law (j + 1)
    obtain ⟨hd, hdE⟩ := law.double_spec prev hc hne
    obtain ⟨pts, hpts, hlen, hall⟩ := ih (ops.point_double prev) (j + 1) hd (hdE.trans hsum)
    refine ⟨ops.point_double prev :: pts, ?_, ?_, ?_⟩
    · simp only [doubleLoop, law.verify_of_onCurve _ hd, if_true, hpts, Option.map_some']
    · simp [hlen]
    · intro i hi
      cases i with
      | zero =>
        simp only [List.getElem_cons_zero, add_zero]
        exact ⟨hd, hdE.trans hsum⟩
      | succ i =>
        simp only [List.getElem_cons_succ]
        have hi1 : i < pts.length := by simpa using hi
        have := hall i hi1
        rw [show j + 1 + (i + 1) = j + 1 + 1 + i by omega]
        exact this

theorem pubkey_get_points_spec (law : GroupLaw ops toE) :
    ∃ points, pubkey_get_points ops = some points ∧ points.length = PUBKEY_POINTS ∧
      ∀ (i : Nat) (hi : i < points.length),
        onCurve points[i] ∧ toE points[i] = (2 ^ i) • toE ops.point_set_generator := by
  obtain ⟨pts, hpts, hlen, hall⟩ := doubleLoop_spec law (PUBKEY_POINTS - 1)
    ops.point_set_generator 0 law.generator_onCurve (by simp)
  refine ⟨ops.point_set_generator :: pts, ?_, ?_, ?_⟩
  · simp only [pubkey_get_points, hpts, Option.map_some']
  · simp only [List.length_cons, hlen]
    decide
  · intro i hi
    cases i with
    | zero =>
      simp only [List.getElem_cons_zero, pow_zero, one_nsmul]
      exact ⟨law.generator_onCurve, trivial⟩
    | succ i =>
      simp only [List.getElem_cons_succ]
      have hi1 : i < pts.length := by simpa using hi
      have := hall i hi1
      rw [show 0 + 1 + i = i + 1 by omega] at this
      exact this


theorem mod_two_pow_succ_of_testBit {k i : Nat} (h : k.testBit i = true) :
    k % 2 ^ (i + 1) = k % 2 ^ i + 2 ^ i := by
  rw [Nat.testBit_to_div_mod, decide_eq_true_eq] at h
  rw [Nat.mod_pow_succ, h, mul_one]

theorem mod_two_pow_succ_of_not_testBit {k i : Nat} (h : k.testBit i = false) :
    k % 2 ^ (i + 1) = k % 2 ^ i := by
  rw [Nat.testBit_to_div_mod, decide_eq_false_iff_not] at h
  have h0 : k / 2 ^ i % 2 = 0 := by omega
  rw [Nat.mod_pow_succ, h0, mul_zero, add_zero]

theorem acc_ne_of_inv (law : GroupLaw ops toE) {k i : Nat} {acc pt : Point}
    (hk : k < secp256k1_n) (hbit : k.testBit i = true)
    (hacc : toE acc = (k % 2 ^ i) • toE ops.point_set_generator)
    (hpt : toE pt = (2 ^ i) • toE ops.point_set_generator) :
    toE acc ≠ toE pt ∧ toE acc + toE pt ≠ 0 := by
  have hlt : k % 2 ^ i < 2 ^ i := Nat.mod_lt _ (by positivity)
  have hge : 2 ^ i ≤ k := Nat.testBit_implies_ge hbit
  have hle : k % 2 ^ (i + 1) ≤ k := Nat.mod_le _ _
  have hsucc := mod_two_pow_succ_of_testBit hbit
  constructor
  · intro heq
    rw [hacc, hpt] at heq
    have hsplit : (2 ^ i) • toE ops.point_set_generator =
        (k % 2 ^ i) • toE ops.point_set_generator +
          (2 ^ i - k % 2 ^ i) • toE ops.point_set_generator := by
      rw [← add_nsmul]
      congr 1
      omega
    rw [hsplit] at heq
    have hz : (2 ^ i - k % 2 ^ i) • toE ops.point_set_generator = 0 := by
      have := heq.symm
      rwa [add_right_eq_self] at this
    exact nsmul_ne_zero_of_lt law (by omega) (by omega) hz
  · rw [hacc, hpt, ← add_nsmul]
    exact nsmul_ne_zero_of_lt law (by omega) (by omega)

theorem addLoop_spec (law : GroupLaw ops toE) {k : Nat} (hk : k < secp256k1_n) :
    ∀ (pts : List Point) (i : Nat) (acc : Point),
      (∀ (j : Nat) (hj : j < pts.length),
        onCurve pts[j] ∧ toE pts[j] = (2 ^ (i + j)) • toE ops.point_set_generator) →
      AccInv toE (toE ops.point_set_generator) k i acc →
      ∃ acc1, addLoop ops k pts i acc = some acc1 ∧
        AccInv toE (toE ops.point_set_generator) k (i + pts.length) acc1 := by
  intro pts
  induction pts with
  | nil =>
    intro i acc _ hinv
    exact ⟨acc, rfl, by simpa using hinv⟩
  | cons pt rest ih =>
    intro i acc hpts hinv
    have hpt := hpts 0 (by simp)
    simp only [List.getElem_cons_zero, add_zero] at hpt
    have hrest : ∀ (j : Nat) (hj : j < rest.length),
        onCurve rest[j] ∧ toE rest[j] = (2 ^ (i + 1 + j)) • toE ops.point_set_generator := by
      intro j hj
      have := hpts (j + 1) (by simpa using hj)
      simp only [List.getElem_cons_succ] at this
      rw [show i + 1 + j = i + (j + 1) by omega]
      exact this
    have hlen : i + (pt :: rest).length = i + 1 + rest.length := by
      simp only [List.length_cons]
      omega
    rw [hlen]
    unfold addLoop
    by_cases hbit : k.testBit i = true
    · rw [if_pos hbit]
      have hsucc := mod_two_pow_succ_of_testBit hbit
      have hpos : (0 : Nat) < 2 ^ i := by positivity
      rcases hinv with ⟨h0, hacc⟩ | ⟨h0, hc, hacc⟩
      · subst hacc
        simp only [isEmptyAcc_init, if_true, law.verify_of_onCurve _ hpt.1]
        apply ih (i + 1) pt hrest
        right
        refine ⟨by omega, hpt.1, ?_⟩
        rw [hsucc, h0, zero_add]
        exact hpt.2
      · obtain ⟨hne1, hne2⟩ := acc_ne_of_inv law hk hbit hacc hpt.2
        obtain ⟨hc1, hE1⟩ := law.add_spec acc pt hc hpt.1 hne1 hne2
        simp only [isEmptyAcc_of_onCurve hc, Bool.false_eq_true, if_false,
          law.verify_of_onCurve _ hc1, if_true]
        apply ih (i + 1) _ hrest
        right
        refine ⟨by omega, hc1, ?_⟩
        rw [hE1, hacc, hpt.2, ← add_nsmul, hsucc]
    · rw [if_neg hbit]
      have hbit1 : k.testBit i = false := by simpa using hbit
      have hsucc := mod_two_pow_succ_of_not_testBit hbit1
      apply ih (i + 1) acc hrest
      unfold AccInv
      rw [hsucc]
      exact hinv

theorem accInv_zero (k : Nat) (g : E) : AccInv toE g k 0 point_init := by
  left
  exact ⟨by simp [Nat.mod_one], rfl⟩


theorem addLoop_cons (ops : PointOps) (s : Nat) (pt : Point) (rest : List Point) (i : Nat)
    (acc : Point) :
    addLoop ops s (pt :: rest) i acc =
      if s.testBit i = true then
        (if ops.point_verify (if isEmptyAcc acc = true then pt else ops.point_add acc pt) = true
          then addLoop ops s rest (i + 1)
            (if isEmptyAcc acc = true then pt else ops.point_add acc pt)
          else none)
      else addLoop ops s rest (i + 1) acc := rfl

theorem addLoop_append (ops : PointOps) (s : Nat) :
    ∀ (l1 l2 : List Point) (i : Nat) (acc : Point),
      addLoop ops s (l1 ++ l2) i acc =
        match addLoop ops s l1 i acc with
        | none => none
        | some a => addLoop ops s l2 (i + l1.length) a := by
  intro l1
  induction l1 with
  | nil =>
    intro l2 i acc
    simp [addLoop]
  | cons pt rest ih =>
    intro l2 i acc
    have hidx : i + (pt :: rest).length = i + 1 + rest.length := by
      simp only [List.length_cons]
      omega
    rw [hidx, List.cons_append, addLoop_cons, addLoop_cons]
    by_cases hbit : s.testBit i = true
    · rw [if_pos hbit, if_pos hbit]
      by_cases hv : ops.point_verify (if isEmptyAcc acc = true then pt
          else ops.point_add acc pt) = true
      · simp only [hv, if_true]
        exact ih l2 (i + 1) _
      · simp only [hv, if_false]
        simp
    · rw [if_neg hbit, if_neg hbit]
      exact ih l2 (i + 1) acc

theorem mod_two_pow_eq_zero_iff (k i : Nat) :
    k % 2 ^ i = 0 ↔ ∀ j, j < i → k.testBit j = false := by
  constructor
  · intro h j hj
    have := Nat.testBit_mod_two_pow k i j
    rw [h] at this
    simpa [hj] using this.symm
  · intro h
    apply Nat.zero_of_testBit_eq_false
    intro j
    rw [Nat.testBit_mod_two_pow]
    by_cases hj : j < i
    · simp [h j hj]
    · simp [hj]

theorem isEmptyAcc_iff_of_inv {g : E} {k i : Nat} {acc : Point}
    (h : AccInv toE g k i acc) : isEmptyAcc acc = true ↔ k % 2 ^ i = 0 := by
  rcases h with ⟨h0, hacc⟩ | ⟨h0, hc, _⟩
  · subst hacc
    simp [isEmptyAcc_init, h0]
  · simp [isEmptyAcc_of_onCurve hc, h0]

theorem take_spec {points : List Point}
    (hall : ∀ (i : Nat) (hi : i < points.length),
      onCurve points[i] ∧ toE points[i] = (2 ^ i) • toE ops.point_set_generator) (n : Nat) :
    ∀ (j : Nat) (hj : j < (points.take n).length),
      onCurve (points.take n)[j] ∧
        toE (points.take n)[j] = (2 ^ (0 + j)) • toE ops.point_set_generator := by
  intro j hj
  have hj1 : j < points.length := by
    rw [List.length_take] at hj
    omega
  rw [List.getElem_take, zero_add]
  exact hall j hj1


theorem secp256k1_n_lt : secp256k1_n < 2 ^ PUBKEY_POINTS := by decide

theorem derivation_spec (law : GroupLaw ops toE) {s : Nat} (h1 : 1 ≤ s)
    (h2 : s < secp256k1_n) :
    ∃ points P, pubkey_get_points ops = some points ∧ points.length = PUBKEY_POINTS ∧
      (∀ (i : Nat) (hi : i < points.length),
        onCurve points[i] ∧ toE points[i] = (2 ^ i) • toE ops.point_set_generator) ∧
      addLoop ops s points 0 point_init = some P ∧ onCurve P ∧
      toE P = s • toE ops.point_set_generator ∧
      ∀ i, i ≤ points.length →
        ∃ acc, addLoop ops s (points.take i) 0 point_init = some acc ∧
          AccInv toE (toE ops.point_set_generator) s i acc ∧
          addLoop ops s (points.drop i) i acc = some P := by
  obtain ⟨points, hpoints, hlen, hall⟩ := pubkey_get_points_spec law
  have hpre : ∀ i, i ≤ points.length →
      ∃ acc, addLoop ops s (points.take i) 0 point_init = some acc ∧
        AccInv toE (toE ops.point_set_generator) s i acc := by
    intro i hi
    obtain ⟨acc, hacc, hinv⟩ := addLoop_spec law h2 (points.take i) 0 point_init
      (take_spec hall i) (accInv_zero s _)
    refine ⟨acc, hacc, ?_⟩
    rw [List.length_take, Nat.min_eq_left hi, zero_add] at hinv
    exact hinv
  obtain ⟨P, hP, hinvP⟩ := hpre points.length (le_refl _)
  rw [List.take_length] at hP
  have hmod : s % 2 ^ points.length = s := by
    rw [hlen]
    exact Nat.mod_eq_of_lt (lt_trans h2 secp256k1_n_lt)
  have hPc : onCurve P ∧ toE P = s • toE ops.point_set_generator := by
    rcases hinvP with ⟨h0, _⟩ | ⟨_, hc, hE⟩
    · rw [hmod] at h0
      omega
    · rw [hmod] at hE
      exact ⟨hc, hE⟩
  refine ⟨points, P, hpoints, hlen, hall, hP, hPc.1, hPc.2, ?_⟩
  intro i hi
  obtain ⟨acc, hacc, hinv⟩ := hpre i hi
  refine ⟨acc, hacc, hinv, ?_⟩
  have happ := addLoop_append ops s (points.take i) (points.drop i) 0 point_init
  rw [List.take_append_drop, hP, hacc] at happ
  simp only [List.length_take, Nat.min_eq_left hi, zero_add] at happ
  exact happ.symm

end Loops

end Btk


namespace Btk

/-! ## Export of coordinates -/

theorem bytesLE_fuel : ∀ (fuel v : Nat), v ≤ fuel → bytesLE fuel v = bytesLE v v := by
  intro fuel
  induction fuel using Nat.strong_induction_on with
  | _ fuel ih =>
    intro v hv
    cases fuel with
    | zero =>
      have : v = 0 := by omega
      subst this
      rfl
    | succ fuel =>
      cases v with
      | zero => simp [bytesLE]
      | succ v =>
        have hdiv : (v + 1) / 256 ≤ v := by omega
        have hdiv1 : (v + 1) / 256 ≤ fuel := by omega
        simp only [bytesLE, Nat.succ_ne_zero, if_false]
        rw [ih fuel (by omega) _ hdiv1, ih v (by omega) _ hdiv]

theorem mpz_export_zero : mpz_export 0 = [] := rfl

theorem mpz_export_step {v : Nat} (hv : 0 < v) :
    mpz_export v = mpz_export (v / 256) ++ [v % 256] := by
  unfold mpz_export
  cases v with
  | zero => omega
  | succ v =>
    have hdiv : (v + 1) / 256 ≤ v := by omega
    simp only [bytesLE, Nat.succ_ne_zero, if_false, List.reverse_cons]
    rw [bytesLE_fuel v _ hdiv]

/-- Big-endian encoding in exactly `n` bytes. -/
theorem be32_step (n v : Nat) :
    ((List.range (n + 1)).map fun i => v / 256 ^ (n + 1 - 1 - i) % 256) =
      ((List.range n).map fun i => v / 256 / 256 ^ (n - 1 - i) % 256) ++ [v % 256] := by
  rw [List.range_succ, List.map_append]
  congr 1
  · apply List.map_congr_left
    intro i hi
    have hi1 : i < n := List.mem_range.1 hi
    rw [Nat.div_div_eq_div_mul, ← pow_succ']
    congr 3
    omega
  · simp

theorem pad_export (n : Nat) : ∀ v, v < 256 ^ n →
    List.replicate (n - (mpz_export v).length) 0 ++ mpz_export v =
      (List.range n).map fun i => v / 256 ^ (n - 1 - i) % 256 := by
  induction n with
  | zero =>
    intro v hv
    have : v = 0 := by simpa using hv
    subst this
    rfl
  | succ n ih =>
    intro v hv
    by_cases h0 : v = 0
    · subst h0
      rw [mpz_export_zero]
      simp only [List.length_nil, Nat.sub_zero, List.append_nil, Nat.zero_div, Nat.zero_mod]
      apply List.ext_getElem
      · simp
      · intro i h1 h2
        simp
    · have hpos : 0 < v := Nat.pos_of_ne_zero h0
      have hdiv : v / 256 < 256 ^ n := by
        rw [Nat.div_lt_iff_lt_mul (by decide)]
        rw [pow_succ] at hv
        exact hv
      rw [be32_step, ← ih _ hdiv, mpz_export_step hpos]
      simp only [List.length_append, List.length_singleton, Nat.add_sub_add_right,
        List.append_assoc]

theorem mpz_export_length_bounds : ∀ v, 0 < v →
    256 ^ ((mpz_export v).length - 1) ≤ v ∧ v < 256 ^ (mpz_export v).length := by
  intro v
  induction v using Nat.strong_induction_on with
  | _ v ih =>
    intro hv
    rw [mpz_export_step hv]
    simp only [List.length_append, List.length_singleton, Nat.add_sub_cancel]
    by_cases h0 : v / 256 = 0
    · rw [h0, mpz_export_zero]
      simp only [List.length_nil, pow_zero, zero_add, pow_one]
      omega
    · have hpos : 0 < v / 256 := Nat.pos_of_ne_zero h0
      have hlt : v / 256 < v := by omega
      obtain ⟨hlo, hhi⟩ := ih _ hlt hpos
      have hlen : 0 < (mpz_export (v / 256)).length := by
        rw [mpz_export_step hpos]
        simp
      constructor
      · have : 256 ^ (mpz_export (v / 256)).length =
            256 ^ ((mpz_export (v / 256)).length - 1) * 256 := by
          rw [← pow_succ]
          congr 1
          omega
        rw [this]
        calc 256 ^ ((mpz_export (v / 256)).length - 1) * 256 ≤ v / 256 * 256 :=
              Nat.mul_le_mul_right _ hlo
          _ ≤ v := Nat.div_mul_le_self v 256
      · rw [pow_succ]
        have := (Nat.div_lt_iff_lt_mul (by decide : 0 < 256)).1 hhi
        exact this

theorem bitLen_bounds : ∀ (fuel v : Nat), 0 < v → v ≤ fuel →
    2 ^ (bitLen fuel v - 1) ≤ v ∧ v < 2 ^ bitLen fuel v := by
  intro fuel
  induction fuel with
  | zero =>
    intro v h0 h1
    omega
  | succ fuel ih =>
    intro v h0 h1
    have hne : v ≠ 0 := by omega
    simp only [bitLen, if_neg hne, Nat.add_sub_cancel]
    by_cases h2 : v / 2 = 0
    · have hv1 : v = 1 := by omega
      subst hv1
      cases fuel with
      | zero => simp [bitLen]
      | succ fuel => simp [bitLen]
    · obtain ⟨hlo, hhi⟩ := ih (v / 2) (Nat.pos_of_ne_zero h2) (by omega)
      have hpos : 0 < bitLen fuel (v / 2) := by
        cases fuel with
        | zero => omega
        | succ fuel => simp [bitLen, h2]
      constructor
      · have : 2 ^ bitLen fuel (v / 2) = 2 ^ (bitLen fuel (v / 2) - 1) * 2 := by
          rw [← pow_succ]
          congr 1
          omega
        rw [this]
        omega
      · rw [pow_succ]
        omega

theorem sizeinbase_bytes {v : Nat} (hv : 0 < v) :
    (mpz_sizeinbase2 v + 7) / 8 = (mpz_export v).length := by
  have hne : v ≠ 0 := by omega
  obtain ⟨hlo, hhi⟩ := mpz_export_length_bounds v hv
  obtain ⟨blo, bhi⟩ := bitLen_bounds v v hv (le_refl _)
  have hlen : 0 < (mpz_export v).length := by
    rw [mpz_export_step hv]
    simp
  simp only [mpz_sizeinbase2, if_neg hne]
  have h256 : ∀ m : Nat, (256 : Nat) ^ m = 2 ^ (8 * m) := by
    intro m
    rw [pow_mul]
    norm_num
  rw [h256] at hlo hhi
  have h1 : bitLen v v - 1 < 8 * (mpz_export v).length :=
    (Nat.pow_lt_pow_iff_right (by decide : 1 < 2)).1 (lt_of_le_of_lt blo hhi)
  have h2 : 8 * ((mpz_export v).length - 1) < bitLen v v :=
    (Nat.pow_lt_pow_iff_right (by decide : 1 < 2)).1 (lt_of_le_of_lt hlo bhi)
  omega

theorem writeAt_pad (a c bs : List Nat) (m : Nat) (h : bs.length ≤ m) :
    writeAt (a ++ List.replicate m 0 ++ c) (a.length + (m - bs.length)) bs =
      a ++ (List.replicate (m - bs.length) 0 ++ bs) ++ c := by
  unfold writeAt
  have h1 : (a ++ List.replicate m 0 ++ c).take (a.length + (m - bs.length)) =
      a ++ List.replicate (m - bs.length) 0 := by
    rw [List.append_assoc, List.take_append, List.take_append_eq_append_take]
    simp only [List.length_replicate, List.take_replicate]
    have : m - bs.length - m = 0 := by omega
    rw [this, List.take_zero, List.append_nil, Nat.min_eq_left (Nat.sub_le _ _)]
  have h2 : bs.take ((a ++ List.replicate m 0 ++ c).length - (a.length + (m - bs.length))) = bs := by
    apply List.take_of_length_le
    simp only [List.length_append, List.length_replicate]
    omega
  have h3 : (a ++ List.replicate m 0 ++ c).drop (a.length + (m - bs.length) + bs.length) = c := by
    have : a.length + (m - bs.length) + bs.length = (a ++ List.replicate m 0).length := by
      simp only [List.length_append, List.length_replicate]
      omega
    rw [this, List.drop_left]
  rw [h1, h2, h3]
  simp only [List.append_assoc]

theorem be32_eq (v : Nat) :
    be32 v = (List.range 32).map fun i => v / 256 ^ (32 - 1 - i) % 256 := rfl

theorem exportCoord_spec (a c : List Nat) {v : Nat} (h0 : 0 < v) (h1 : v < 256 ^ 32) :
    exportCoord (a ++ List.replicate 32 0 ++ c) a.length v = some (a ++ be32 v ++ c) := by
  obtain ⟨hlo, hhi⟩ := mpz_export_length_bounds v h0
  have hL : (mpz_export v).length ≤ 32 := by
    by_contra hc
    have h32 : 32 ≤ (mpz_export v).length - 1 := by omega
    have : (256 : Nat) ^ 32 ≤ 256 ^ ((mpz_export v).length - 1) :=
      Nat.pow_le_pow_right (by decide) h32
    omega
  unfold exportCoord
  simp only [sizeinbase_bytes h0]
  rw [if_neg (by omega), if_pos trivial, writeAt_pad a c _ 32 hL, pad_export 32 v h1, ← be32_eq]

theorem x_ne_zero_of_onCurve {P : Point} (h : onCurve P) : P.x ≠ 0 := by
  haveI : Fact (Nat.Prime secp256k1_p) := ⟨prime_secp256k1_p⟩
  intro hx
  have heq := onCurve_equation h
  rw [curve_equation_iff, hx] at heq
  simp only [Nat.cast_zero, mul_zero, zero_add] at heq
  have h7 : (7 : ZMod secp256k1_p) ≠ 0 := by
    have := cast_ne_zero_of_lt 7 (by decide) (by decide)
    simpa using this
  have hy : (P.y : ZMod secp256k1_p) ≠ 0 := by
    intro hy
    rw [hy, mul_zero] at heq
    exact h7 heq.symm
  have hf := ZMod.pow_card_sub_one_eq_one hy
  have hpow : (7 : ZMod secp256k1_p) ^ ((secp256k1_p - 1) / 2) = 1 := by
    rw [← heq, ← sq, ← pow_mul]
    have : 2 * ((secp256k1_p - 1) / 2) = secp256k1_p - 1 := by decide!
    rw [this]
    exact hf
  have hc := powMod_cast 7 ((secp256k1_p - 1) / 2) secp256k1_p secp256k1_p_gt
  rw [show ((7 : Nat) : ZMod secp256k1_p) = 7 from Nat.cast_ofNat, hpow] at hc
  have hval : powMod 7 ((secp256k1_p - 1) / 2) secp256k1_p = secp256k1_p - 1 := by decide!
  rw [hval] at hc
  have h1 : ((secp256k1_p - 1 : Nat) : ZMod secp256k1_p) = ((1 : Nat) : ZMod secp256k1_p) := by
    rw [hc, Nat.cast_one]
  exact absurd (cast_inj_of_lt (by decide!) (by decide!) h1) (by decide!)

theorem y_ne_zero_of_onCurve {P : Point} (h : onCurve P) : P.y ≠ 0 := by
  haveI : Fact (Nat.Prime secp256k1_p) := ⟨prime_secp256k1_p⟩
  intro hy
  have heq := onCurve_equation h
  rw [curve_equation_iff, hy] at heq
  simp only [Nat.cast_zero, mul_zero] at heq
  have h7 : (7 : ZMod secp256k1_p) ≠ 0 := by
    have := cast_ne_zero_of_lt 7 (by decide) (by decide)
    simpa using this
  have hx : (P.x : ZMod secp256k1_p) ≠ 0 := by
    intro hx
    rw [hx] at heq
    simp only [mul_zero, zero_add] at heq
    exact h7 heq.symm
  have hf := ZMod.pow_card_sub_one_eq_one hx
  have hcube : (P.x : ZMod secp256k1_p) ^ 3 = ((secp256k1_p - 7 : Nat) : ZMod secp256k1_p) := by
    rw [Nat.cast_sub (by decide!), ZMod.natCast_self]
    push_cast
    linear_combination -heq
  have hpow : ((secp256k1_p - 7 : Nat) : ZMod secp256k1_p) ^ ((secp256k1_p - 1) / 3) = 1 := by
    rw [← hcube, ← pow_mul]
    have : 3 * ((secp256k1_p - 1) / 3) = secp256k1_p - 1 := by decide!
    rw [this]
    exact hf
  have hc := powMod_cast (secp256k1_p - 7) ((secp256k1_p - 1) / 3) secp256k1_p secp256k1_p_gt
  rw [hpow] at hc
  have hlt : powMod (secp256k1_p - 7) ((secp256k1_p - 1) / 3) secp256k1_p < secp256k1_p := by
    decide!
  have hne : powMod (secp256k1_p - 7) ((secp256k1_p - 1) / 3) secp256k1_p ≠ 1 := by decide!
  have h1 : ((powMod (secp256k1_p - 7) ((secp256k1_p - 1) / 3) secp256k1_p : Nat) :
      ZMod secp256k1_p) = ((1 : Nat) : ZMod secp256k1_p) := by
    rw [hc, Nat.cast_one]
  exact hne (cast_inj_of_lt hlt (by decide!) h1)

theorem secp256k1_p_lt : secp256k1_p < 256 ^ 32 := by decide!

theorem pubkey_get_serialize_spec (k : PrivKey) {P : Point} (h : onCurve P) :
    pubkey_get_serialize k P = some ⟨
      if k.cflag = true then
        (if P.y % 2 = 0 then 0x02 else 0x03) :: (be32 P.x ++ List.replicate 32 0)
      else 0x04 :: (be32 P.x ++ be32 P.y)⟩ := by
  have hx0 : 0 < P.x := Nat.pos_of_ne_zero (x_ne_zero_of_onCurve h)
  have hy0 : 0 < P.y := Nat.pos_of_ne_zero (y_ne_zero_of_onCurve h)
  have hx1 : P.x < 256 ^ 32 := lt_trans h.1 secp256k1_p_lt
  have hy1 : P.y < 256 ^ 32 := lt_trans h.2.1 secp256k1_p_lt
  have hbuf : ∀ flag : Nat, (List.replicate (PUBKEY_UNCOMPRESSED_LENGTH + 1) 0).set 0 flag =
      [flag] ++ List.replicate 32 0 ++ List.replicate 32 0 := by
    intro flag
    rfl
  have hX := fun flag : Nat => exportCoord_spec [flag] (List.replicate 32 0) hx0 hx1
  have hY := fun flag : Nat => exportCoord_spec ([flag] ++ be32 P.x) [] hy0 hy1
  have hlen : ∀ flag : Nat, ([flag] ++ be32 P.x).length = 33 := by
    intro flag
    simp [be32]
  simp only [hlen, List.append_nil, List.length_singleton] at hX hY
  unfold pubkey_get_serialize
  simp only [hbuf, hX, privkey_is_compressed]
  obtain ⟨data, cflag⟩ := k
  cases cflag
  · simp only [Bool.not_false, if_true, Bool.false_eq_true, if_false]
    rw [hY]
    simp [PUBKEY_UNCOMPRESSED_FLAG]
  · simp only [Bool.not_true, Bool.false_eq_true, if_false, if_true]
    by_cases hev : P.y % 2 = 0
    · simp [hev, PUBKEY_COMPRESSED_FLAG_EVEN]
    · simp [hev, PUBKEY_COMPRESSED_FLAG_ODD]


/-! ## The scalar read back from the hex string -/

theorem digitVal_hexDigit : ∀ d, d < 16 → digitVal (hexDigit d) = some d := by
  intro d hd
  interval_cases d <;> rfl

theorem parseDigits_hexByte (b : Nat) (hb : b < 256) (tl : List Char) (acc : Nat) :
    parseDigits 16 (hexByte b ++ tl) acc = parseDigits 16 tl (acc * 256 + b) := by
  have h1 : b / 16 < 16 := by omega
  have h2 : b % 16 < 16 := by omega
  simp only [hexByte, List.cons_append, List.nil_append, parseDigits,
    digitVal_hexDigit _ h1, digitVal_hexDigit _ h2, h1, h2, if_true]
  congr 1
  omega

theorem parseDigits_hexOfBytes : ∀ (bs : List Nat), (∀ b ∈ bs, b < 256) →
    ∀ (tl : List Char) (acc : Nat),
      parseDigits 16 (hexOfBytes bs ++ tl) acc =
        parseDigits 16 tl (bs.foldl (fun a b => a * 256 + b) acc) := by
  intro bs
  induction bs with
  | nil =>
    intro _ tl acc
    rfl
  | cons b bs ih =>
    intro hb tl acc
    simp only [hexOfBytes, List.append_assoc, List.foldl_cons]
    rw [parseDigits_hexByte b (hb b (List.mem_cons_self _ _))]
    exact ih (fun c hc => hb c (List.mem_cons_of_mem _ hc)) tl _

theorem hexOfBytes_length (bs : List Nat) : (hexOfBytes bs).length = 2 * bs.length := by
  induction bs with
  | nil => rfl
  | cons b bs ih =>
    simp only [hexOfBytes, hexByte, List.length_append, List.length_cons, List.length_nil, ih]
    omega

theorem pubkey_get_scalar_eq (k : PrivKey) (h : k.wf) : pubkey_get_scalar k = beNat k.data := by
  obtain ⟨hlen, hb⟩ := h
  have hl : (hexOfBytes k.data).length = PRIVKEY_LENGTH * 2 := by
    rw [hexOfBytes_length, hlen, mul_comm]
  have htake : (privkey_to_hex k).take (PRIVKEY_LENGTH * 2) = hexOfBytes k.data := by
    unfold privkey_to_hex
    rw [← hl, List.take_left]
  unfold pubkey_get_scalar
  rw [htake]
  have hne : hexOfBytes k.data ≠ [] := by
    intro h0
    rw [h0] at hl
    exact absurd hl (by decide)
  have hp := parseDigits_hexOfBytes k.data hb [] 0
  rw [List.append_nil] at hp
  unfold mpz_set_str
  split
  · next h0 => exact absurd h0 hne
  · rw [hp]
    rfl

end Btk


namespace Btk

/-! ## Derivation of the public point -/

/-- C1: when the point functions implement the group law, `pubkey_get` derives, for a
key whose scalar k (the big-endian value of its 32 bytes) satisfies 1 <= k < n, the
table of the 256 doublings of the generator and from it the point that stands for the
multiple k*G; at every set bit i the accumulator state reached by the iterations below
i continues to that result, the `(0,0)` test on it is true exactly when no lower bit
is set, and otherwise the accumulator is neither the point being added nor its
negative. -/
theorem pubkey_get_point_eq_smul {E : Type} [AddCommGroup E] (ops : PointOps)
    (toE : Point → E) (law : GroupLaw ops toE) (k : PrivKey) (hwf : k.wf)
    (h1 : 1 ≤ beNat k.data) (h2 : beNat k.data < secp256k1_n) :
    ∃ points P, pubkey_get_points ops = some points ∧ points.length = PUBKEY_POINTS ∧
      (∀ (i : Nat) (hi : i < points.length),
        toE points[i] = (2 ^ i) • toE ops.point_set_generator) ∧
      pubkey_get_point ops k = some P ∧
      toE P = (beNat k.data) • toE ops.point_set_generator ∧
      ∀ (i : Nat) (hi : i < points.length), (beNat k.data).testBit i = true →
        ∃ acc, addLoop ops (beNat k.data) (points.take i) 0 point_init = some acc ∧
          addLoop ops (beNat k.data) (points.drop i) i acc = some P ∧
          (isEmptyAcc acc = true ↔ ∀ j, j < i → (beNat k.data).testBit j = false) ∧
          (isEmptyAcc acc = false → toE acc ≠ toE points[i] ∧ toE acc ≠ -toE points[i]) := by
  obtain ⟨points, P, hpoints, hlen, hall, hP, _, hE, hpre⟩ := derivation_spec law h1 h2
  refine ⟨points, P, hpoints, hlen, fun i hi => (hall i hi).2, ?_, hE, ?_⟩
  · simp only [pubkey_get_point, hpoints, pubkey_get_scalar_eq k hwf]
    exact hP
  · intro i hi hbit
    obtain ⟨acc, hacc, hinv, hrest⟩ := hpre i hi.le
    refine ⟨acc, hacc, hrest, ?_, ?_⟩
    · rw [isEmptyAcc_iff_of_inv hinv]
      exact mod_two_pow_eq_zero_iff _ _
    · intro hne
      rcases hinv with ⟨_, hacc0⟩ | ⟨_, _, haccE⟩
      · rw [hacc0, isEmptyAcc_init] at hne
        cases hne
      · obtain ⟨hn1, hn2⟩ := acc_ne_of_inv law h2 hbit haccE (hall i hi).2
        exact ⟨hn1, fun h => hn2 (by rw [h, neg_add_cancel])⟩

/-- Witness of C1: the secp256k1 functions modelled from the spec implement the group
law, and the key with scalar 3 lies in the valid range. -/
theorem pubkey_get_point_eq_smul_witness :
    ∃ (E : Type) (inst : AddCommGroup E) (toE : Point → E),
      @GroupLaw secp256k1_ops E inst toE ∧
      PrivKey.wf ⟨List.replicate 31 0 ++ [3], true⟩ ∧
      1 ≤ beNat (List.replicate 31 0 ++ [3]) ∧
      beNat (List.replicate 31 0 ++ [3]) < secp256k1_n ∧
      ∃ P, pubkey_get_point secp256k1_ops ⟨List.replicate 31 0 ++ [3], true⟩ = some P ∧
        toE P = (beNat (List.replicate 31 0 ++ [3])) •
          toE secp256k1_ops.point_set_generator := by
  obtain ⟨E, inst, toE, law⟩ := secp256k1_groupLaw
  refine ⟨E, inst, toE, law, by decide!, by decide!, by decide!, ?_⟩
  obtain ⟨_, P, _, _, _, hP, hE, _⟩ :=
    pubkey_get_point_eq_smul secp256k1_ops toE law ⟨List.replicate 31 0 ++ [3], true⟩
      (by decide!) (by decide!) (by decide!)
  exact ⟨P, hP, hE⟩

/-- C2: for every key with scalar in [1, n-1], with the secp256k1 functions modelled
from the spec, `pubkey_get` returns the standard serialisation of the derived point
(x, y): for a compressed key the flag 0x02 (y even) or 0x03 (y odd), the 32-byte
big-endian x and 32 zero bytes; for an uncompressed key the flag 0x04, the 32-byte
big-endian x and the 32-byte big-endian y. -/
theorem pubkey_get_serialization (k : PrivKey) (hwf : k.wf)
    (h1 : 1 ≤ beNat k.data) (h2 : beNat k.data < secp256k1_n) :
    ∃ x y, pubkey_get_point secp256k1_ops k = some ⟨x, y⟩ ∧
      pubkey_get secp256k1_ops k = some ⟨
        if k.cflag = true then
          (if y % 2 = 0 then 0x02 else 0x03) :: (be32 x ++ List.replicate 32 0)
        else 0x04 :: (be32 x ++ be32 y)⟩ := by
  obtain ⟨E, inst, toE, law⟩ := secp256k1_groupLaw
  obtain ⟨points, P, hpoints, _, _, hP, hPc, _, _⟩ := derivation_spec law h1 h2
  have hpt : pubkey_get_point secp256k1_ops k = some P := by
    simp only [pubkey_get_point, hpoints, pubkey_get_scalar_eq k hwf]
    exact hP
  refine ⟨P.x, P.y, hpt, ?_⟩
  simp only [pubkey_get, hpt]
  exact pubkey_get_serialize_spec k hPc

/-- Witness of C2 at the uncompressed key with scalar 3. -/
theorem pubkey_get_serialization_witness :
    PrivKey.wf ⟨List.replicate 31 0 ++ [3], false⟩ ∧
    1 ≤ beNat (List.replicate 31 0 ++ [3]) ∧
    beNat (List.replicate 31 0 ++ [3]) < secp256k1_n ∧
    ∃ x y, pubkey_get secp256k1_ops ⟨List.replicate 31 0 ++ [3], false⟩ =
      some ⟨0x04 :: (be32 x ++ be32 y)⟩ := by
  refine ⟨by decide!, by decide!, by decide!, ?_⟩
  obtain ⟨x, y, _, h⟩ :=
    pubkey_get_serialization ⟨List.replicate 31 0 ++ [3], false⟩ (by decide!) (by decide!)
      (by decide!)
  exact ⟨x, y, h⟩

/-- C3: for every key with scalar in [1, n-1], with the secp256k1 functions modelled
from the spec, no assertion of `pubkey_get` fails: the 256 precomputed points exist and
each satisfies `y^2 = x^3 + 7 (mod p)`, the accumulator after each set bit satisfies
it, and so does the derived point. -/
theorem pubkey_get_points_onCurve (k : PrivKey) (hwf : k.wf)
    (h1 : 1 ≤ beNat k.data) (h2 : beNat k.data < secp256k1_n) :
    ∃ points P, pubkey_get_points secp256k1_ops = some points ∧
      points.length = PUBKEY_POINTS ∧
      (∀ pt, pt ∈ points → onCurve pt) ∧
      (∀ i, i < points.length → (beNat k.data).testBit i = true →
        ∃ acc, addLoop secp256k1_ops (beNat k.data) (points.take (i + 1)) 0
            point_init = some acc ∧ onCurve acc) ∧
      pubkey_get_point secp256k1_ops k = some P ∧ onCurve P := by
  obtain ⟨E, inst, toE, law⟩ := secp256k1_groupLaw
  obtain ⟨points, P, hpoints, hlen, hall, hP, hPc, _, hpre⟩ := derivation_spec law h1 h2
  refine ⟨points, P, hpoints, hlen, ?_, ?_, ?_, hPc⟩
  · intro pt hpt
    obtain ⟨i, hi, rfl⟩ := List.getElem_of_mem hpt
    exact (hall i hi).1
  · intro i hi hbit
    obtain ⟨acc, hacc, hinv, _⟩ := hpre (i + 1) hi
    refine ⟨acc, hacc, ?_⟩
    have hsucc := mod_two_pow_succ_of_testBit hbit
    have hpos : (0 : Nat) < 2 ^ i := by positivity
    rcases hinv with ⟨h0, _⟩ | ⟨_, hc, _⟩
    · omega
    · exact hc
  · simp only [pubkey_get_point, hpoints, pubkey_get_scalar_eq k hwf]
    exact hP

/-- Witness of C3 at the key with scalar 3. -/
theorem pubkey_get_points_onCurve_witness :
    PrivKey.wf ⟨List.replicate 31 0 ++ [3], false⟩ ∧
    1 ≤ beNat (List.replicate 31 0 ++ [3]) ∧
    beNat (List.replicate 31 0 ++ [3]) < secp256k1_n ∧
    ∃ P, pubkey_get_point secp256k1_ops ⟨List.replicate 31 0 ++ [3], false⟩ = some P ∧
      onCurve P := by
  refine ⟨by decide!, by decide!, by decide!, ?_⟩
  obtain ⟨_, P, _, _, _, _, hP, hc⟩ :=
    pubkey_get_points_onCurve ⟨List.replicate 31 0 ++ [3], false⟩ (by decide!) (by decide!)
      (by decide!)
  exact ⟨P, hP, hc⟩

end Btk


namespace Btk

/-! ## Generator and address -/

set_option maxRecDepth 100000 in
/-- C7: for the compressed private key with scalar 1, with the secp256k1 functions
modelled from the spec, `pubkey_get` returns a key whose first 33 bytes are 0x02 and
the 32-byte big-endian x-coordinate of the generator, and `pubkey_to_hex` of it is the
66-character lowercase hex of those bytes. -/
theorem pubkey_get_scalar_one :
    ∃ K, pubkey_get secp256k1_ops ⟨List.replicate 31 0 ++ [1], true⟩ = some K ∧
      K.data.take 33 =
        0x02 :: be32 0x79BE667EF9DCBBAC55A06295CE870B07029BFCDB2DCE28D959F2815B16F81798 ∧
      pubkey_to_hex K =
        some "0279be667ef9dcbbac55a06295ce870b07029bfcdb2dce28d959f2815b16f81798".toList ∧
      (pubkey_to_hex K).map List.length = some 66 :=
  ⟨⟨0x02 :: (be32 secp256k1_Gx ++ List.replicate 32 0)⟩, by decide!, by decide!, by decide!,
    by decide!⟩

/-- C4: for a PubKey of 65 bytes whose flag byte is 0x02, 0x03 or 0x04, with SHA-256
giving 32 bytes and RIPEMD-160 giving 20 bytes, `pubkey_to_address` is
`base58check_encode` of the 21 bytes `v || RIPEMD160(SHA256(data[0..L-1]))`, where L is
33 for a compressed key and 65 otherwise, and v is 0x00 on mainnet and 0x6F on testnet. -/
theorem pubkey_to_address_eq (lib : AddressLib) (net : Network) (k : PubKey)
    (hsha : ∀ b, (lib.crypto_get_sha256 b).length = 32)
    (hrmd : ∀ b, (lib.crypto_get_rmd160 b).length = 20)
    (hflag : k.data.getD 0 0 = 0x02 ∨ k.data.getD 0 0 = 0x03 ∨ k.data.getD 0 0 = 0x04)
    (hnet : net = ⟨true, false⟩ ∨ net = ⟨false, true⟩) :
    pubkey_to_address lib net k =
      some (lib.base58check_encode
        ((if net.network_is_main = true then 0x00 else 0x6F) ::
          lib.crypto_get_rmd160 (lib.crypto_get_sha256
            (k.data.take (if k.data.getD 0 0 = 0x04 then 65 else 33))))) := by
  have hl : (if pubkey_is_compressed k = true then PUBKEY_COMPRESSED_LENGTH + 1
      else PUBKEY_UNCOMPRESSED_LENGTH + 1) = (if k.data.getD 0 0 = 0x04 then 65 else 33) := by
    simp only [pubkey_is_compressed, PUBKEY_COMPRESSED_FLAG_EVEN, PUBKEY_COMPRESSED_FLAG_ODD,
      PUBKEY_COMPRESSED_LENGTH, PUBKEY_UNCOMPRESSED_LENGTH]
    generalize k.data.getD 0 0 = f at hflag
    rcases hflag with h | h | h <;> subst h <;> rfl
  have hs : ∀ b, (lib.crypto_get_sha256 b).take 32 = lib.crypto_get_sha256 b :=
    fun b => List.take_of_length_le (by rw [hsha])
  have hr : ∀ b, (lib.crypto_get_rmd160 b).take 20 = lib.crypto_get_rmd160 b :=
    fun b => List.take_of_length_le (by rw [hrmd])
  unfold pubkey_to_address
  simp only [hl, hs, hr]
  rcases hnet with h | h <;> subst h <;>
    simp [ADDRESS_VERSION_BIT_MAINNET, ADDRESS_VERSION_BIT_TESTNET]

/-- Witness of C4: a compressed key on testnet, with digest functions of the right lengths. -/
theorem pubkey_to_address_eq_witness :
    pubkey_to_address ⟨fun _ => List.replicate 32 7, fun _ => List.replicate 20 9,
        fun b => b.map Char.ofNat⟩ ⟨false, true⟩ ⟨0x02 :: List.replicate 64 0⟩ =
      some ((0x6F :: List.replicate 20 9).map Char.ofNat) :=
  pubkey_to_address_eq ⟨fun _ => List.replicate 32 7, fun _ => List.replicate 20 9,
      fun b => b.map Char.ofNat⟩ ⟨false, true⟩ ⟨0x02 :: List.replicate 64 0⟩
    (fun _ => by simp) (fun _ => by simp) (Or.inl (by decide)) (Or.inr rfl)

end Btk


namespace Btk

open BtkPubkey

/-! ## btk_pubkey_main -/

/-- C5: whatever the input and the input format, when the key that the input switch
decoded is all zero (`privkey_is_zero`), `btk_pubkey_main` returns -1, `pubkey_get` is
not called, and nothing is printed. -/
theorem btk_pubkey_main_rejects_zero (env : Env) (f : Flags) (priv : PrivKey)
    (hdec : decode env f = .ok priv) (hz : env.privkey_is_zero priv = true) :
    (btk_pubkey_main env f).ret = -1 ∧ (btk_pubkey_main env f).pubkey_get_calls = [] ∧
      (btk_pubkey_main env f).stdout = [] := by
  unfold btk_pubkey_main
  by_cases hm : env.malloc_priv = true
  · simp [hm, hdec, hz]
  · simp [hm]

set_option maxRecDepth 100000 in
/-- Witness of C5: 32 zero bytes given as raw input. -/
theorem btk_pubkey_main_rejects_zero_witness :
    decode (exampleEnv secp256k1_ops (List.replicate 32 0))
        ⟨INPUT_RAW, OUTPUT_HEX, 0, false, true, 0⟩ = .ok ⟨List.replicate 32 0, false⟩ ∧
      (btk_pubkey_main (exampleEnv secp256k1_ops (List.replicate 32 0))
        ⟨INPUT_RAW, OUTPUT_HEX, 0, false, true, 0⟩).ret = -1 ∧
      (btk_pubkey_main (exampleEnv secp256k1_ops (List.replicate 32 0))
        ⟨INPUT_RAW, OUTPUT_HEX, 0, false, true, 0⟩).pubkey_get_calls = [] :=
  ⟨by decide!,
    (btk_pubkey_main_rejects_zero (exampleEnv secp256k1_ops (List.replicate 32 0))
      ⟨INPUT_RAW, OUTPUT_HEX, 0, false, true, 0⟩ ⟨List.replicate 32 0, false⟩
      (by decide!) (by decide!)).1,
    (btk_pubkey_main_rejects_zero (exampleEnv secp256k1_ops (List.replicate 32 0))
      ⟨INPUT_RAW, OUTPUT_HEX, 0, false, true, 0⟩ ⟨List.replicate 32 0, false⟩
      (by decide!) (by decide!)).2.1⟩

set_option maxRecDepth 100000 in
/-- Counterexample to C6: the 32 raw bytes of n + 1, accepted by a decoder that copies
them, are not rejected: `btk_pubkey_main` calls `pubkey_get` on them, returns 1 and
prints a public key, the very key it prints for the scalar 1. -/
theorem btk_pubkey_main_accepts_order_plus_one :
    decode (exampleEnv secp256k1_ops (be32 (secp256k1_n + 1)))
        ⟨INPUT_RAW, OUTPUT_HEX, 0, false, true, 0⟩ = .ok ⟨be32 (secp256k1_n + 1), false⟩ ∧
      secp256k1_n ≤ beNat (be32 (secp256k1_n + 1)) ∧
      btk_pubkey_main (exampleEnv secp256k1_ops (be32 (secp256k1_n + 1)))
          ⟨INPUT_RAW, OUTPUT_HEX, 0, false, true, 0⟩ =
        ⟨1, (hexOfBytes (0x04 :: (be32 secp256k1_Gx ++ be32 secp256k1_Gy))).map Char.toNat
          ++ [10], [], [⟨be32 (secp256k1_n + 1), false⟩]⟩ ∧
      btk_pubkey_main (exampleEnv secp256k1_ops (be32 1))
          ⟨INPUT_RAW, OUTPUT_HEX, 0, false, true, 0⟩ =
        ⟨1, (hexOfBytes (0x04 :: (be32 secp256k1_Gx ++ be32 secp256k1_Gy))).map Char.toNat
          ++ [10], [], [⟨be32 1, false⟩]⟩ :=
  ⟨by decide!, by decide!, by decide!, by decide!⟩

/-- C6 as amended: `btk_pubkey_main` returns -1 without calling `pubkey_get` when the
decoder refuses the input or the decoded key is zero; it compares no scalar with n:
every other decoded key, whatever its scalar, is passed (after the compression switch)
to `pubkey_get`, and the call returns 1 when `pubkey_get` and the output conversions
succeed. -/
theorem btk_pubkey_main_range (env : Env) (f : Flags) (hm : env.malloc_priv = true) :
    (∀ msg, decode env f = .error msg →
      (btk_pubkey_main env f).ret = -1 ∧ (btk_pubkey_main env f).pubkey_get_calls = []) ∧
    (∀ priv, decode env f = .ok priv →
      (env.privkey_is_zero priv = true →
        (btk_pubkey_main env f).ret = -1 ∧ (btk_pubkey_main env f).pubkey_get_calls = []) ∧
      (env.privkey_is_zero priv = false → env.malloc_key = true →
        (btk_pubkey_main env f).pubkey_get_calls = [applyCompression env f priv] ∧
        (∀ out1 out2, 0 ≤ (env.pubkey_get (applyCompression env f priv)).1 →
          printPrivkey env f (applyCompression env f priv) = .ok out1 →
          printPubkey env f (env.pubkey_get (applyCompression env f priv)).2 = .ok out2 →
          (btk_pubkey_main env f).ret = 1))) := by
  refine ⟨?_, ?_⟩
  · intro msg hdec
    simp [btk_pubkey_main, hm, hdec]
  · intro priv hdec
    refine ⟨?_, ?_⟩
    · intro hz
      simp [btk_pubkey_main, hm, hdec, hz]
    · intro hz hk
      refine ⟨?_, ?_⟩
      · simp only [btk_pubkey_main, hm, hdec, hz, hk, Bool.not_true, Bool.false_eq_true,
          if_false]
        split
        · rfl
        · split
          · rfl
          · split <;> rfl
      · intro out1 out2 hg h1 h2
        simp only [btk_pubkey_main, hm, hdec, hz, hk, Bool.not_true, Bool.false_eq_true,
          if_false, not_lt.2 hg, h1, h2]

set_option maxRecDepth 100000 in
/-- Witness of C6 as amended: the raw bytes of n - 1 are decoded and handed to
`pubkey_get`. -/
theorem btk_pubkey_main_range_witness :
    (btk_pubkey_main (exampleEnv secp256k1_ops (be32 (secp256k1_n - 1)))
        ⟨INPUT_RAW, OUTPUT_HEX, 0, false, true, 0⟩).pubkey_get_calls =
      [⟨be32 (secp256k1_n - 1), false⟩] :=
  ((btk_pubkey_main_range (exampleEnv secp256k1_ops (be32 (secp256k1_n - 1)))
      ⟨INPUT_RAW, OUTPUT_HEX, 0, false, true, 0⟩ rfl).2 ⟨be32 (secp256k1_n - 1), false⟩
      (by decide!)).2 (by decide!) rfl |>.1

end Btk


namespace Btk

open BtkPrivkey

/-! ## btk_privkey_main: decimal input -/

theorem digitVal_ofNat_digit (b : Nat) (h1 : 48 ≤ b) (h2 : b ≤ 57) :
    digitVal (Char.ofNat b) = some (b - 48) := by
  interval_cases b <;> rfl

theorem parseDigits_dec : ∀ (s : List Nat), (∀ b ∈ s, 48 ≤ b ∧ b ≤ 57) → ∀ acc : Nat,
    parseDigits 10 (s.map Char.ofNat) acc =
      some (s.foldl (fun a c => a * 10 + (c - 48)) acc) := by
  intro s
  induction s with
  | nil =>
    intro _ acc
    rfl
  | cons b s ih =>
    intro hs acc
    obtain ⟨h1, h2⟩ := hs b (List.mem_cons_self _ _)
    simp only [List.map_cons, parseDigits, digitVal_ofNat_digit b h1 h2, List.foldl_cons]
    rw [if_pos (by omega)]
    exact ih (fun c hc => hs c (List.mem_cons_of_mem _ hc)) _

theorem mpz_set_str_dec (s : List Nat) (hs : ∀ b ∈ s, 48 ≤ b ∧ b ≤ 57) :
    mpz_set_str (s.map Char.ofNat) 10 = decValue s := by
  cases s with
  | nil => rfl
  | cons b s =>
    have := parseDigits_dec (b :: s) hs 0
    simp only [List.map_cons] at this
    simp only [mpz_set_str, List.map_cons, this, Option.getD_some, decValue]

theorem cstr_append_zeros (s : List Nat) (hs : ∀ b ∈ s, b ≠ 0) (n : Nat) :
    cstr (s ++ List.replicate n 0) = s := by
  unfold cstr
  induction s with
  | nil =>
    cases n with
    | zero => rfl
    | succ n => simp [List.replicate_succ]
  | cons b s ih =>
    have hb := hs b (List.mem_cons_self _ _)
    simp only [List.cons_append, List.takeWhile_cons, hb, ne_eq, not_false_eq_true,
      decide_True, if_true]
    rw [ih (fun c hc => hs c (List.mem_cons_of_mem _ hc))]

theorem mpz_export_length_pos {v : Nat} (hv : 0 < v) : 0 < (mpz_export v).length := by
  rw [mpz_export_step hv]
  simp

theorem mpz_export_length_le {v n : Nat} (hv : v < 256 ^ n) : (mpz_export v).length ≤ n := by
  by_cases h0 : v = 0
  · subst h0
    simp [mpz_export_zero]
  · obtain ⟨hlo, _⟩ := mpz_export_length_bounds v (Nat.pos_of_ne_zero h0)
    by_contra hc
    have : (256 : Nat) ^ n ≤ 256 ^ ((mpz_export v).length - 1) :=
      Nat.pow_le_pow_right (by decide) (by omega)
    omega

theorem mpz_export_length_gt {v n : Nat} (hv : 256 ^ n ≤ v) : n < (mpz_export v).length := by
  have hpos : 0 < v := lt_of_lt_of_le (by positivity) hv
  obtain ⟨_, hhi⟩ := mpz_export_length_bounds v hpos
  exact (Nat.pow_lt_pow_iff_right (by decide : 1 < 256)).1 (lt_of_le_of_lt hv hhi)

theorem mpz_export_high : ∀ (j v : Nat), j < (mpz_export v).length →
    (mpz_export (v / 256 ^ j)).length = (mpz_export v).length - j ∧
      ∃ low, mpz_export v = mpz_export (v / 256 ^ j) ++ low := by
  intro j
  induction j with
  | zero =>
    intro v _
    exact ⟨by simp, [], by simp⟩
  | succ j ih =>
    intro v hj
    have hv : 0 < v := by
      by_contra h0
      have : v = 0 := by omega
      subst this
      simp [mpz_export_zero] at hj
    have hstep := mpz_export_step hv
    have hlen : (mpz_export v).length = (mpz_export (v / 256)).length + 1 := by
      rw [hstep]
      simp
    have hj1 : j < (mpz_export (v / 256)).length := by omega
    obtain ⟨h1, low, h2⟩ := ih (v / 256) hj1
    have hdiv : v / 256 ^ (j + 1) = v / 256 / 256 ^ j := by
      rw [Nat.div_div_eq_div_mul, pow_succ']
    rw [hdiv]
    refine ⟨by omega, low ++ [v % 256], ?_⟩
    rw [hstep, h2, List.append_assoc]

theorem mpz_export_take_32 {v : Nat} (hv : 256 ^ 32 ≤ v) :
    (mpz_export v).take 32 = be32 (v / 256 ^ ((mpz_export v).length - 32)) := by
  have hL := mpz_export_length_gt hv
  obtain ⟨h1, low, h2⟩ := mpz_export_high ((mpz_export v).length - 32) v (by omega)
  generalize v / 256 ^ ((mpz_export v).length - 32) = w at h1 h2 ⊢
  have hlen : (mpz_export w).length = 32 := by omega
  have hpos : 0 < w := by
    by_contra h0
    have hw0 : w = 0 := Nat.eq_zero_of_not_pos h0
    rw [hw0, mpz_export_zero] at hlen
    simp at hlen
  have hlt : w < 256 ^ 32 := by
    have := (mpz_export_length_bounds _ hpos).2
    rwa [hlen] at this
  have hpad := pad_export 32 _ hlt
  rw [hlen] at hpad
  simp only [Nat.sub_self, List.replicate_zero, List.nil_append] at hpad
  rw [h2, List.take_append_of_le_length hlen.ge, List.take_of_length_le hlen.le, be32_eq,
    ← hpad]


theorem readInput_fst (stdin : List Nat) : (readInput stdin).1 = stdin.take 999 := rfl

theorem readInput_snd (stdin : List Nat) :
    (readInput stdin).2 =
      stdin.take 999 ++ List.replicate (1000 - (stdin.take 999).length) 0 := rfl

theorem dec_buffer_take (v : Nat) :
    (writeAt (List.replicate BUFFER_SIZE 0)
      (PRIVKEY_LENGTH - (if (mpz_sizeinbase2 v + 7) / 8 > PRIVKEY_LENGTH then PRIVKEY_LENGTH
        else (mpz_sizeinbase2 v + 7) / 8)) (mpz_export v)).take PRIVKEY_LENGTH =
      if v < 2 ^ 256 then be32 v else be32 (v / 256 ^ ((mpz_export v).length - 32)) := by
  have h256 : (2 : Nat) ^ 256 = 256 ^ 32 := by norm_num
  have hbuf : List.replicate BUFFER_SIZE 0 =
      [] ++ List.replicate 32 0 ++ List.replicate 968 (0 : Nat) := by
    simp only [List.nil_append, BUFFER_SIZE]
    show List.replicate (32 + 968) 0 = _
    exact (List.append_replicate_replicate).symm
  simp only [PRIVKEY_LENGTH]
  by_cases h0 : v = 0
  · subst h0
    have : mpz_sizeinbase2 0 = 1 := rfl
    have hz : be32 0 = List.replicate 32 0 := by
      apply List.ext_getElem
      · simp [be32]
      · intro i h1 h2
        simp [be32]
    have hw : ∀ (buf : List Nat) (off : Nat), writeAt buf off [] = buf := by
      intro buf off
      simp [writeAt]
    rw [if_pos (Nat.pow_pos (by decide)), hz, mpz_export_zero, hw, List.take_replicate]
    rfl
  · have hpos : 0 < v := Nat.pos_of_ne_zero h0
    rw [sizeinbase_bytes hpos]
    by_cases hlt : v < 2 ^ 256
    · rw [if_pos hlt]
      rw [h256] at hlt
      have hL := mpz_export_length_le hlt
      rw [if_neg (by omega), hbuf]
      have hw := writeAt_pad [] (List.replicate 968 0) (mpz_export v) 32 hL
      simp only [List.length_nil, zero_add] at hw
      rw [hw, pad_export 32 v hlt, ← be32_eq]
      simp only [List.nil_append]
      rw [List.take_append_of_le_length (by simp [be32])]
      exact List.take_of_length_le (by simp [be32])
    · rw [if_neg hlt]
      have hge : 256 ^ 32 ≤ v := by
        rw [← h256]
        omega
      have hL := mpz_export_length_gt hge
      rw [if_pos (by omega), ← mpz_export_take_32 hge]
      simp only [writeAt, Nat.sub_self, List.take_zero, List.nil_append, List.length_replicate,
        Nat.sub_zero, zero_add]
      rw [List.take_append_of_le_length (by
        rw [List.length_take]
        simp only [BUFFER_SIZE]
        omega)]
      rw [List.take_take]
      congr 1

theorem calls_of_readKey (env : Env) (opts : List Char) (f : Flags) (stdin : List Nat)
    (hopts : parseOpts opts defaultFlags = some f) (k : Option PrivKey) (calls : List Call)
    (hread : readKey env f stdin = .inr (k, calls)) :
    ∃ rest, (btk_privkey_main env opts stdin).calls = calls ++ rest := by
  unfold btk_privkey_main
  simp only [hopts, hread]
  cases k with
  | none => exact ⟨[], by simp⟩
  | some key =>
    simp only
    by_cases h1 : f.output_compression = OUTPUT_COMPRESS
    · simp only [h1, if_true]
      cases env.privkey_compress key <;> exact ⟨_, rfl⟩
    · simp only [h1, if_false]
      by_cases h2 : f.output_compression = OUTPUT_UNCOMPRESS
      · simp only [h2, if_true]
        cases env.privkey_uncompress key <;> exact ⟨_, rfl⟩
      · simp only [h2, if_false]
        exact ⟨[], by simp⟩

/-- C8 as amended: in decimal input mode, for the digits read from standard input (at
most 999), with value v, the buffer handed to `privkey_from_raw` with length 32 starts
with the 32-byte big-endian encoding of v, left-padded with zero bytes, when v fits in
32 bytes; when v needs more bytes, it starts with the 32 high-order bytes of v, the
encoding of v divided by 256 to the number of surplus bytes. -/
theorem btk_privkey_main_dec_bytes (env : Env) (opts : List Char) (f : Flags)
    (stdin : List Nat) (hopts : parseOpts opts defaultFlags = some f)
    (hf : f.input_format = INPUT_DEC) (hd : ∀ b ∈ stdin.take 999, 48 ≤ b ∧ b ≤ 57) :
    ∃ buf rest, (btk_privkey_main env opts stdin).calls =
        Call.privkey_from_raw buf 32 :: rest ∧
      buf.take 32 =
        if decValue (stdin.take 999) < 2 ^ 256 then be32 (decValue (stdin.take 999))
        else be32 (decValue (stdin.take 999) /
          256 ^ ((mpz_export (decValue (stdin.take 999))).length - 32)) := by
  have hall : ((readInput stdin).1.all fun b => decide (48 ≤ b) && decide (b ≤ 57)) = true := by
    rw [readInput_fst, List.all_eq_true]
    intro b hb
    have := hd b hb
    simp [this.1, this.2]
  have hcstr : cstr (readInput stdin).2 = stdin.take 999 := by
    rw [readInput_snd]
    apply cstr_append_zeros
    intro b hb
    have := hd b hb
    omega
  have hval : mpz_set_str ((cstr (readInput stdin).2).map Char.ofNat) 10 =
      decValue (stdin.take 999) := by
    rw [hcstr]
    exact mpz_set_str_dec _ hd
  have hread : readKey env f stdin =
      .inr (env.privkey_from_raw (writeAt (List.replicate BUFFER_SIZE 0)
        (PRIVKEY_LENGTH - (if (mpz_sizeinbase2 (decValue (stdin.take 999)) + 7) / 8 >
            PRIVKEY_LENGTH then PRIVKEY_LENGTH
          else (mpz_sizeinbase2 (decValue (stdin.take 999)) + 7) / 8))
        (mpz_export (decValue (stdin.take 999)))) PRIVKEY_LENGTH,
        [Call.privkey_from_raw (writeAt (List.replicate BUFFER_SIZE 0)
        (PRIVKEY_LENGTH - (if (mpz_sizeinbase2 (decValue (stdin.take 999)) + 7) / 8 >
            PRIVKEY_LENGTH then PRIVKEY_LENGTH
          else (mpz_sizeinbase2 (decValue (stdin.take 999)) + 7) / 8))
        (mpz_export (decValue (stdin.take 999)))) PRIVKEY_LENGTH]) := by
    unfold readKey
    simp only [hf, hall, hval, if_true]
    rfl
  obtain ⟨rest, hrest⟩ := calls_of_readKey env opts f stdin hopts _ _ hread
  exact ⟨_, rest, hrest, dec_buffer_take (decValue (stdin.take 999))⟩


set_option maxRecDepth 100000 in
/-- Counterexample to C8: for the decimal digits of 2^256 the buffer handed to
`privkey_from_raw` starts with the byte 1 followed by zeros, the 32 high-order bytes,
and not with the encoding of `2^256 mod 2^256 = 0`. -/
theorem btk_privkey_main_dec_high_bytes :
    decValue ("115792089237316195423570985008687907853269984665640564039457584007913129639936".toList.map
        Char.toNat) = 2 ^ 256 ∧
      (btk_privkey_main exampleEnv ['d']
        ("115792089237316195423570985008687907853269984665640564039457584007913129639936".toList.map
          Char.toNat)).calls =
        [Call.privkey_from_raw (1 :: List.replicate 999 0) 32,
          Call.privkey_compress ⟨1 :: List.replicate 31 0, false⟩] ∧
      (1 :: List.replicate 999 0).take 32 ≠ be32 (2 ^ 256 % 2 ^ 256) :=
  ⟨by decide!, by decide!, by decide!⟩

set_option maxRecDepth 100000 in
/-- Witness of C8 as amended, at the decimal digits of 2^256. -/
theorem btk_privkey_main_dec_bytes_witness :
    ∃ buf rest, (btk_privkey_main exampleEnv ['d']
        ("115792089237316195423570985008687907853269984665640564039457584007913129639936".toList.map
          Char.toNat)).calls = Call.privkey_from_raw buf 32 :: rest ∧
      buf.take 32 = 1 :: List.replicate 31 0 := by
  obtain ⟨buf, rest, h1, h2⟩ := btk_privkey_main_dec_bytes exampleEnv ['d']
    ⟨INPUT_DEC, OUTPUT_WIF, OUTPUT_COMPRESS, false⟩
    ("115792089237316195423570985008687907853269984665640564039457584007913129639936".toList.map
      Char.toNat) (by decide!) rfl (by decide!)
  refine ⟨buf, rest, h1, ?_⟩
  rw [h2]
  decide!

end Btk


namespace Btk

open BtkPrivkey

/-! ## btk_privkey_main: hex input -/

theorem stripTrailing_append_one (init : List Nat) (last : Nat) :
    stripTrailing (init ++ [last]) =
      if isspace last = true then stripTrailing init else init ++ [last] := by
  unfold stripTrailing
  rw [List.reverse_append, List.reverse_singleton, List.singleton_append, List.dropWhile_cons]
  by_cases h : isspace last = true
  · simp [h]
  · simp [h]

theorem getD_append_cons (last : Nat) (tail : List Nat) : ∀ init : List Nat,
    (init ++ last :: tail).getD init.length 0 = last := by
  intro init
  induction init with
  | nil => rfl
  | cons b init ih =>
    simp only [List.cons_append, List.length_cons, List.getD_cons_succ]
    exact ih

theorem stripSpaces_eq : ∀ (inp tail : List Nat),
    stripSpaces (inp ++ tail) inp.length =
      if stripTrailing inp = [] then none else some (stripTrailing inp).length := by
  intro inp
  induction inp using List.reverseRecOn with
  | nil =>
    intro tail
    rfl
  | append_singleton init last ih =>
    intro tail
    have hget : (init ++ [last] ++ tail).getD init.length 0 = last := by
      rw [List.append_assoc, List.singleton_append]
      exact getD_append_cons last tail init
    rw [List.length_append, List.length_singleton, stripSpaces, hget,
      stripTrailing_append_one]
    by_cases h : isspace last = true
    · rw [if_pos h, if_pos h, List.append_assoc]
      exact ih _
    · rw [if_neg h, if_neg h, if_neg (by simp)]
      simp

theorem stripTrailing_split (s : List Nat) :
    ∃ sp, s = stripTrailing s ++ sp := by
  unfold stripTrailing
  refine ⟨(s.reverse.takeWhile isspace).reverse, ?_⟩
  rw [← List.reverse_append, List.takeWhile_append_dropWhile, List.reverse_reverse]

theorem cstr_set (t rest : List Nat) (x : Nat) :
    cstr ((t ++ x :: rest).set t.length 0) = cstr t := by
  unfold cstr
  induction t with
  | nil => simp
  | cons b t ih =>
    simp only [List.cons_append, List.length_cons, List.set_cons_succ, List.takeWhile_cons]
    rw [ih]

theorem hex_buffer (stdin : List Nat) (hne : stripTrailing (stdin.take 999) ≠ []) :
    stripSpaces (readInput stdin).2 (readInput stdin).1.length =
        some (stripTrailing (stdin.take 999)).length ∧
      (readInput stdin).2.take (stripTrailing (stdin.take 999)).length =
        stripTrailing (stdin.take 999) ∧
      cstr ((readInput stdin).2.set (stripTrailing (stdin.take 999)).length 0) =
        cstr (stripTrailing (stdin.take 999)) := by
  rw [readInput_fst, readInput_snd]
  refine ⟨?_, ?_, ?_⟩
  · rw [stripSpaces_eq, if_neg hne]
  · obtain ⟨sp, hsp⟩ := stripTrailing_split (stdin.take 999)
    generalize stripTrailing (List.take 999 stdin) = t at hsp ⊢
    rw [hsp, List.append_assoc, List.take_left]
  · obtain ⟨sp, hsp⟩ := stripTrailing_split (stdin.take 999)
    have hlen : (stdin.take 999).length ≤ 999 := by
      rw [List.length_take]
      omega
    have hrep : List.replicate (1000 - (stdin.take 999).length) 0 =
        0 :: List.replicate (999 - (stdin.take 999).length) 0 := by
      rw [show 1000 - (stdin.take 999).length = (999 - (stdin.take 999).length) + 1 by omega]
      rfl
    rw [hrep]
    generalize stripTrailing (List.take 999 stdin) = t at hsp ⊢
    generalize List.replicate (999 - (List.take 999 stdin).length) 0 = zs
    rw [hsp]
    cases sp with
    | nil =>
      rw [List.append_nil]
      exact cstr_set _ _ _
    | cons x sp =>
      rw [List.append_assoc, List.cons_append]
      exact cstr_set _ _ _

/-- C9 as amended: in hex input mode, an input (of which at most 999 bytes are read)
that is not white space only and, after its trailing white space is stripped, contains
a non-hex character or is shorter than 64 or exactly 65 characters long, makes
`btk_privkey_main` fail with `Invalid input` without calling `privkey_from_hex`; a
stripped input of hex characters only whose length is 64, 66 or more is handed to
`privkey_from_hex`. -/
theorem btk_privkey_main_hex_guard (env : Env) (opts : List Char) (f : Flags)
    (stdin : List Nat) (hopts : parseOpts opts defaultFlags = some f)
    (hf : f.input_format = INPUT_HEX) (hne : stripTrailing (stdin.take 999) ≠ []) :
    (((stripTrailing (stdin.take 999)).length < 64 ∨
        (stripTrailing (stdin.take 999)).length = 65 ∨
        ∃ b ∈ stripTrailing (stdin.take 999), env.hex_ischar b = false) →
      btk_privkey_main env opts stdin = ⟨Exit.failure, [], ["Error: Invalid input."], []⟩) ∧
    ((64 ≤ (stripTrailing (stdin.take 999)).length ∧
        (stripTrailing (stdin.take 999)).length ≠ 65 ∧
        ∀ b ∈ stripTrailing (stdin.take 999), env.hex_ischar b = true) →
      ∃ rest, (btk_privkey_main env opts stdin).calls =
        Call.privkey_from_hex (cstr (stripTrailing (stdin.take 999))) :: rest) := by
  obtain ⟨h1, h2, h3⟩ := hex_buffer stdin hne
  constructor
  · intro hbad
    have hread : readKey env f stdin =
        .inl ⟨Exit.failure, [], ["Error: Invalid input."], []⟩ := by
      unfold readKey
      simp only [hf, h1, h2, PRIVKEY_LENGTH]
      rw [if_neg (by decide), if_neg (by decide), if_pos trivial]
      by_cases hlt : (stripTrailing (stdin.take 999)).length < 64
      · rw [if_pos hlt]
      · rw [if_neg hlt]
        by_cases h65 : (stripTrailing (stdin.take 999)).length = 65
        · rw [if_pos h65]
        · rw [if_neg h65]
          rcases hbad with h | h | ⟨b, hb, hbf⟩
          · exact absurd h hlt
          · exact absurd h h65
          · have hall : (stripTrailing (stdin.take 999)).all env.hex_ischar = false := by
              rw [List.all_eq_false]
              exact ⟨b, hb, by simp [hbf]⟩
            rw [hall]
            rfl
    unfold btk_privkey_main
    simp only [hopts, hread]
  · intro hgood
    obtain ⟨h64, h65, hall⟩ := hgood
    have hall1 : (stripTrailing (stdin.take 999)).all env.hex_ischar = true := by
      rw [List.all_eq_true]
      exact hall
    have hread : readKey env f stdin =
        .inr (env.privkey_from_hex (cstr (stripTrailing (stdin.take 999))),
          [Call.privkey_from_hex (cstr (stripTrailing (stdin.take 999)))]) := by
      unfold readKey
      simp only [hf, h1, h2, h3, PRIVKEY_LENGTH]
      rw [if_neg (by decide), if_neg (by decide), if_pos trivial, if_neg (by omega),
        if_neg h65, if_pos hall1]
    exact calls_of_readKey env opts f stdin hopts _ _ hread

set_option maxRecDepth 100000 in
/-- Counterexample to C9: an input of 67 hex characters, whose length is neither 64 nor
66, is not refused: it is handed to `privkey_from_hex` as it is. -/
theorem btk_privkey_main_hex_length_67 :
    (btk_privkey_main exampleEnv ['h'] (List.replicate 67 48)).calls =
        [Call.privkey_from_hex (List.replicate 67 48)] ∧
      (btk_privkey_main exampleEnv ['h'] (List.replicate 67 48)).exit = Exit.success ∧
      (btk_privkey_main exampleEnv ['h'] (List.replicate 67 48)).stderr = [] :=
  ⟨by decide!, by decide!, by decide!⟩

set_option maxRecDepth 100000 in
/-- Witness of C9 as amended: 65 hex characters followed by a newline are refused. -/
theorem btk_privkey_main_hex_guard_witness :
    btk_privkey_main exampleEnv ['h'] (List.replicate 65 48 ++ [10]) =
      ⟨Exit.failure, [], ["Error: Invalid input."], []⟩ :=
  (btk_privkey_main_hex_guard exampleEnv ['h'] ⟨INPUT_HEX, OUTPUT_WIF, 0, false⟩
    (List.replicate 65 48 ++ [10]) (by decide!) rfl (by decide!)).1 (Or.inr (Or.inl (by decide!)))


/-! ## btk_privkey_main: string input -/

end Btk


namespace Btk

/-! ## Reading a coordinate back -/

theorem beNat_append_singleton (l : List Nat) (b : Nat) : beNat (l ++ [b]) = beNat l * 256 + b := by
  simp [beNat, List.foldl_append]

theorem beNat_range (n : Nat) : ∀ v, v < 256 ^ n →
    beNat ((List.range n).map fun i => v / 256 ^ (n - 1 - i) % 256) = v := by
  induction n with
  | zero =>
    intro v hv
    have : v = 0 := by simpa using hv
    subst this
    rfl
  | succ n ih =>
    intro v hv
    have hdiv : v / 256 < 256 ^ n := by
      rw [Nat.div_lt_iff_lt_mul (by decide)]
      rw [pow_succ] at hv
      exact hv
    rw [be32_step, beNat_append_singleton, ih _ hdiv]
    omega

theorem beNat_be32 {v : Nat} (h : v < 256 ^ 32) : beNat (be32 v) = v := by
  rw [be32_eq]
  exact beNat_range 32 v h

theorem be32_length (v : Nat) : (be32 v).length = 32 := by
  simp [be32]

theorem be32_lt (v : Nat) : ∀ b ∈ be32 v, b < 256 := by
  intro b hb
  simp only [be32, List.mem_map] at hb
  obtain ⟨i, _, rfl⟩ := hb
  exact Nat.mod_lt _ (by decide)

theorem be32_ne_zeros {v : Nat} (h0 : v ≠ 0) (h : v < 256 ^ 32) :
    be32 v ≠ List.replicate 32 0 := by
  intro he
  have h1 := beNat_be32 h
  rw [he] at h1
  have h2 : beNat (List.replicate 32 0) = 0 := by decide
  omega

/-- The point and the buffer `pubkey_get` gives on the secp256k1 functions for a key
with scalar in `[1, n-1]`. -/
theorem pubkey_get_secp256k1 (k : PrivKey) (hwf : k.wf)
    (h1 : 1 ≤ beNat k.data) (h2 : beNat k.data < secp256k1_n) :
    ∃ P, onCurve P ∧ pubkey_get_point secp256k1_ops k = some P ∧
      pubkey_get secp256k1_ops k = some ⟨
        if k.cflag = true then
          (if P.y % 2 = 0 then 0x02 else 0x03) :: (be32 P.x ++ List.replicate 32 0)
        else 0x04 :: (be32 P.x ++ be32 P.y)⟩ := by
  obtain ⟨E, inst, toE, law⟩ := secp256k1_groupLaw
  obtain ⟨points, P, hpoints, _, _, hP, hPc, _, _⟩ := derivation_spec law h1 h2
  have hpt : pubkey_get_point secp256k1_ops k = some P := by
    simp only [pubkey_get_point, hpoints, pubkey_get_scalar_eq k hwf]
    exact hP
  refine ⟨P, hPc, hpt, ?_⟩
  simp only [pubkey_get, hpt]
  exact pubkey_get_serialize_spec k hPc

/-! ## Conversions of a compressed key read 33 bytes -/

theorem pubkey_to_hex_compressed {k : PubKey}
    (h : k.data.getD 0 0 = 2 ∨ k.data.getD 0 0 = 3) :
    pubkey_to_hex k = some (hexOfBytes (k.data.take 33)) := by
  unfold pubkey_to_hex
  have h4 : k.data.getD 0 0 ≠ PUBKEY_UNCOMPRESSED_FLAG := by
    rcases h with h | h <;> rw [h] <;> decide
  have h23 : k.data.getD 0 0 = PUBKEY_COMPRESSED_FLAG_EVEN ∨
      k.data.getD 0 0 = PUBKEY_COMPRESSED_FLAG_ODD := h
  rw [if_neg h4, if_pos h23]
  rfl

theorem pubkey_to_hex_uncompressed {k : PubKey} (h : k.data.getD 0 0 = 4) :
    pubkey_to_hex k = some (hexOfBytes (k.data.take 65)) := by
  unfold pubkey_to_hex
  have h4 : k.data.getD 0 0 = PUBKEY_UNCOMPRESSED_FLAG := h
  rw [if_pos h4]
  rfl

theorem pubkey_is_compressed_iff (k : PubKey) :
    pubkey_is_compressed k = true ↔ (k.data.getD 0 0 = 2 ∨ k.data.getD 0 0 = 3) := by
  simp [pubkey_is_compressed, PUBKEY_COMPRESSED_FLAG_EVEN, PUBKEY_COMPRESSED_FLAG_ODD]

theorem hexDigit_mem : ∀ d, d < 16 → hexDigit d ∈ "0123456789abcdef".toList := by
  intro d hd
  interval_cases d <;> decide

theorem hexOfBytes_mem : ∀ (bs : List Nat), (∀ b ∈ bs, b < 256) →
    ∀ c ∈ hexOfBytes bs, c ∈ "0123456789abcdef".toList := by
  intro bs
  induction bs with
  | nil =>
    intro _ c hc
    simp [hexOfBytes] at hc
  | cons b bs ih =>
    intro hb c hc
    have hb0 := hb b (List.mem_cons_self _ _)
    simp only [hexOfBytes, hexByte, List.mem_append, List.mem_cons, List.mem_singleton,
      List.not_mem_nil, or_false] at hc
    rcases hc with (hc | hc) | hc
    · rw [hc]
      exact hexDigit_mem _ (by omega)
    · rw [hc]
      exact hexDigit_mem _ (by omega)
    · exact ih (fun x hx => hb x (List.mem_cons_of_mem _ hx)) c hc

/-! ## Counting the group operations -/

theorem doubleLoopCount_fst (ops : PointOps) : ∀ (fuel : Nat) (prev : Point) (c : Nat),
    (doubleLoopCount ops fuel prev c).map Prod.fst = doubleLoop ops fuel prev := by
  intro fuel
  induction fuel with
  | zero =>
    intro prev c
    rfl
  | succ fuel ih =>
    intro prev c
    simp only [doubleLoopCount, doubleLoop]
    by_cases hv : ops.point_verify (ops.point_double prev) = true
    · rw [if_pos hv, if_pos hv, ← ih (ops.point_double prev) (c + 1)]
      cases doubleLoopCount ops fuel (ops.point_double prev) (c + 1) <;> rfl
    · rw [if_neg hv, if_neg hv]
      rfl

theorem doubleLoopCount_snd (ops : PointOps) : ∀ (fuel : Nat) (prev : Point) (c : Nat)
    (r : List Point × Nat), doubleLoopCount ops fuel prev c = some r → r.2 = c + fuel := by
  intro fuel
  induction fuel with
  | zero =>
    intro prev c r h
    simp only [doubleLoopCount, Option.some.injEq] at h
    rw [← h]
    rfl
  | succ fuel ih =>
    intro prev c r h
    simp only [doubleLoopCount] at h
    by_cases hv : ops.point_verify (ops.point_double prev) = true
    · rw [if_pos hv] at h
      cases hr : doubleLoopCount ops fuel (ops.point_double prev) (c + 1) with
      | none =>
        rw [hr] at h
        exact absurd h (by simp)
      | some r1 =>
        rw [hr] at h
        simp only [Option.map_some', Option.some.injEq] at h
        rw [← h]
        have := ih _ _ _ hr
        simp only [this]
        omega
    · rw [if_neg hv] at h
      exact absurd h (by simp)

theorem addLoopCount_fst (ops : PointOps) (s : Nat) : ∀ (pts : List Point) (i : Nat)
    (acc : Point) (c : Nat),
    (addLoopCount ops s pts i acc c).map Prod.fst = addLoop ops s pts i acc := by
  intro pts
  induction pts with
  | nil =>
    intro i acc c
    rfl
  | cons pt rest ih =>
    intro i acc c
    rw [addLoop_cons]
    simp only [addLoopCount]
    by_cases hb : s.testBit i = true
    · rw [if_pos hb, if_pos hb]
      by_cases he : isEmptyAcc acc = true
      · rw [if_pos he, if_pos he]
        by_cases hv : ops.point_verify pt = true
        · rw [if_pos hv, if_pos hv]
          exact ih _ _ _
        · rw [if_neg hv, if_neg hv]
          rfl
      · rw [if_neg he, if_neg he]
        by_cases hv : ops.point_verify (ops.point_add acc pt) = true
        · rw [if_pos hv, if_pos hv]
          exact ih _ _ _
        · rw [if_neg hv, if_neg hv]
          rfl
    · rw [if_neg hb, if_neg hb]
      exact ih _ _ _

theorem setBits_succ (s i len : Nat) :
    setBits s i (len + 1) = (if s.testBit i = true then 1 else 0) + setBits s (i + 1) len := by
  unfold setBits
  rw [List.range'_succ, List.filter_cons]
  by_cases hb : s.testBit i = true
  · rw [if_pos hb, if_pos hb, List.length_cons]
    omega
  · rw [if_neg hb, if_neg hb]
    omega

theorem isEmptyAcc_eq_true {P : Point} (h : isEmptyAcc P = true) : P = ⟨0, 0⟩ := by
  obtain ⟨x, y⟩ := P
  simp only [isEmptyAcc, Bool.and_eq_true, decide_eq_true_eq] at h
  rw [h.1, h.2]

theorem isEmptyAcc_of_verify {ops : PointOps} (h0 : ops.point_verify ⟨0, 0⟩ = false)
    {P : Point} (h : ops.point_verify P = true) : isEmptyAcc P = false := by
  cases he : isEmptyAcc P with
  | false => rfl
  | true =>
    rw [isEmptyAcc_eq_true he, h0] at h
    exact absurd h (by decide)

/-- The adding loop calls `point_add` once for every set bit, except for the first
set bit it meets while the accumulator is still (0,0). -/
theorem addLoopCount_snd (ops : PointOps) (h0 : ops.point_verify ⟨0, 0⟩ = false) (s : Nat) :
    ∀ (pts : List Point) (i : Nat) (acc : Point) (c : Nat) (r : Point × Nat),
      addLoopCount ops s pts i acc c = some r →
      r.2 = c + setBits s i pts.length -
        (if isEmptyAcc acc = true ∧ 0 < setBits s i pts.length then 1 else 0) := by
  intro pts
  induction pts with
  | nil =>
    intro i acc c r h
    simp only [addLoopCount, Option.some.injEq] at h
    rw [← h]
    simp [setBits]
  | cons pt rest ih =>
    intro i acc c r h
    simp only [addLoopCount] at h
    rw [List.length_cons, setBits_succ]
    by_cases hb : s.testBit i = true
    · rw [if_pos hb] at h ⊢
      by_cases he : isEmptyAcc acc = true
      · rw [if_pos he] at h
        by_cases hv : ops.point_verify pt = true
        · rw [if_pos hv] at h
          have := ih _ _ _ _ h
          rw [isEmptyAcc_of_verify h0 hv] at this
          simp only [Bool.false_eq_true, false_and, if_false] at this
          rw [if_pos ⟨he, by omega⟩, this]
          omega
        · rw [if_neg hv] at h
          exact absurd h (by simp)
      · rw [if_neg he] at h
        by_cases hv : ops.point_verify (ops.point_add acc pt) = true
        · rw [if_pos hv] at h
          have := ih _ _ _ _ h
          rw [isEmptyAcc_of_verify h0 hv] at this
          simp only [Bool.false_eq_true, false_and, if_false] at this
          rw [if_neg (fun hc => he hc.1), this]
          omega
        · rw [if_neg hv] at h
          exact absurd h (by simp)
    · rw [if_neg hb] at h ⊢
      have := ih _ _ _ _ h
      rw [this, zero_add]

end Btk


namespace Btk

/-! ## Compression and text forms of a public key -/

/-- C11: `pubkey_compress` is idempotent: for every PubKey `k`,
`pubkey_compress (pubkey_compress k)` equals `pubkey_compress k` on the whole buffer,
and `pubkey_compress k` equals `k` when `k` is already compressed; the call keeps the
length of the buffer and every byte after the flag byte. -/
theorem pubkey_compress_idempotent (k : PubKey) :
    pubkey_compress (pubkey_compress k) = pubkey_compress k ∧
      (pubkey_is_compressed k = true → pubkey_compress k = k) ∧
      (pubkey_compress k).data.length = k.data.length ∧
      (pubkey_compress k).data.drop 1 = k.data.drop 1 := by
  obtain ⟨data⟩ := k
  by_cases h : data.getD 0 0 = PUBKEY_COMPRESSED_FLAG_EVEN ∨
      data.getD 0 0 = PUBKEY_COMPRESSED_FLAG_ODD
  · have hc : pubkey_compress ⟨data⟩ = ⟨data⟩ := by
      unfold pubkey_compress
      rw [if_pos h]
    rw [hc]
    exact ⟨hc, fun _ => rfl, rfl, rfl⟩
  · have hflag : pubkey_is_compressed ⟨data⟩ ≠ true := by
      intro hc
      exact h ((pubkey_is_compressed_iff _).1 hc)
    cases data with
    | nil =>
      have hc : pubkey_compress ⟨[]⟩ = ⟨[]⟩ := by
        unfold pubkey_compress
        rw [if_neg h]
        rfl
      rw [hc]
      exact ⟨hc, fun _ => rfl, rfl, rfl⟩
    | cons a t =>
      have hc : ∃ v, (v = PUBKEY_COMPRESSED_FLAG_EVEN ∨ v = PUBKEY_COMPRESSED_FLAG_ODD) ∧
          pubkey_compress ⟨a :: t⟩ = ⟨v :: t⟩ := by
        unfold pubkey_compress
        rw [if_neg h]
        by_cases hy : beNat (List.take 32 (List.drop (1 + 32) (a :: t))) % 2 = 0
        · exact ⟨_, Or.inl rfl, by simp only [hy, if_true, List.set_cons_zero]⟩
        · exact ⟨_, Or.inr rfl, by simp only [hy, if_false, List.set_cons_zero]⟩
      obtain ⟨v, hv, hc⟩ := hc
      rw [hc]
      refine ⟨?_, fun hx => absurd hx hflag, rfl, rfl⟩
      unfold pubkey_compress
      exact if_pos hv

/-- C13: for a PubKey of 65 bytes, `pubkey_to_hex` returns for the flag 0x02 or 0x03
exactly 66 characters and for the flag 0x04 exactly 130 characters, which are the two
digits printed by `%02x` for each of the bytes data[0..32] respectively data[0..64], in
order; every character is one of `0123456789abcdef`, and read as a base-16 number the
text is the big-endian value of those bytes; for any other flag byte the result is
NULL. -/
theorem pubkey_to_hex_spec (k : PubKey) (hlen : k.data.length = 65)
    (hb : ∀ b ∈ k.data, b < 256) :
    ((k.data.getD 0 0 = 0x02 ∨ k.data.getD 0 0 = 0x03) →
      ∃ s, pubkey_to_hex k = some s ∧ s.length = 66 ∧ s = hexOfBytes (k.data.take 33) ∧
        (∀ c ∈ s, c ∈ "0123456789abcdef".toList) ∧
        parseDigits 16 s 0 = beNat (k.data.take 33)) ∧
    (k.data.getD 0 0 = 0x04 →
      ∃ s, pubkey_to_hex k = some s ∧ s.length = 130 ∧ s = hexOfBytes (k.data.take 65) ∧
        (∀ c ∈ s, c ∈ "0123456789abcdef".toList) ∧
        parseDigits 16 s 0 = beNat (k.data.take 65)) ∧
    (k.data.getD 0 0 ≠ 0x02 → k.data.getD 0 0 ≠ 0x03 → k.data.getD 0 0 ≠ 0x04 →
      pubkey_to_hex k = none) := by
  have htake : ∀ n, ∀ b ∈ k.data.take n, b < 256 :=
    fun n b hm => hb b (List.mem_of_mem_take hm)
  have hread : ∀ n, parseDigits 16 (hexOfBytes (k.data.take n)) 0 = beNat (k.data.take n) := by
    intro n
    have := parseDigits_hexOfBytes (k.data.take n) (htake n) [] 0
    rw [List.append_nil] at this
    rw [this]
    rfl
  refine ⟨?_, ?_, ?_⟩
  · intro h
    refine ⟨_, pubkey_to_hex_compressed h, ?_, rfl, hexOfBytes_mem _ (htake 33), hread 33⟩
    rw [hexOfBytes_length, List.length_take, hlen]
    rfl
  · intro h
    refine ⟨_, pubkey_to_hex_uncompressed h, ?_, rfl, hexOfBytes_mem _ (htake 65), hread 65⟩
    rw [hexOfBytes_length, List.length_take, hlen]
    rfl
  · intro h2 h3 h4
    unfold pubkey_to_hex
    have h23 : ¬ (k.data.getD 0 0 = PUBKEY_COMPRESSED_FLAG_EVEN ∨
        k.data.getD 0 0 = PUBKEY_COMPRESSED_FLAG_ODD) := by
      rintro (h | h)
      · exact h2 h
      · exact h3 h
    have h4a : ¬ k.data.getD 0 0 = PUBKEY_UNCOMPRESSED_FLAG := h4
    rw [if_neg h4a, if_neg h23]

/-- Witness of C13: the compressed key 02 || 01 .. 01 || 00 .. 00 gives 66 characters. -/
theorem pubkey_to_hex_spec_witness :
    ∃ s, pubkey_to_hex ⟨0x02 :: (List.replicate 32 1 ++ List.replicate 32 0)⟩ = some s ∧
      s.length = 66 ∧
      s = hexOfBytes ((0x02 :: (List.replicate 32 1 ++ List.replicate 32 0)).take 33) := by
  obtain ⟨s, h1, h2, h3, _⟩ :=
    (pubkey_to_hex_spec ⟨0x02 :: (List.replicate 32 1 ++ List.replicate 32 0)⟩ (by decide)
      (by decide)).1 (Or.inl (by decide))
  exact ⟨s, h1, h2, h3⟩

/-- C14: for a PubKey whose flag byte is 0x02, 0x03 or 0x04, with SHA-256 giving 32
bytes and RIPEMD-160 giving 20 bytes, `pubkey_to_bech32address` hands to
`bech32_get_address` the 20 bytes RIPEMD160(SHA256(data[0..L-1])) with L = 33 for a
compressed key and 65 otherwise, and `pubkey_to_address` Base58Check-encodes the 21-byte
payload made of the version byte and these same 20 bytes, which are its bytes 1..20. -/
theorem pubkey_to_bech32address_eq (lib : AddressLib) (b : Bech32Lib) (net : Network)
    (k : PubKey)
    (hsha : ∀ m, (lib.crypto_get_sha256 m).length = 32)
    (hrmd : ∀ m, (lib.crypto_get_rmd160 m).length = 20)
    (hflag : k.data.getD 0 0 = 0x02 ∨ k.data.getD 0 0 = 0x03 ∨ k.data.getD 0 0 = 0x04)
    (hnet : net = ⟨true, false⟩ ∨ net = ⟨false, true⟩) :
    ∃ program : List Nat,
      program = lib.crypto_get_rmd160 (lib.crypto_get_sha256
        (k.data.take (if k.data.getD 0 0 = 0x04 then 65 else 33))) ∧
      program.length = 20 ∧
      pubkey_to_bech32address lib b k = b.bech32_get_address program 20 ∧
      pubkey_to_address lib net k = some (lib.base58check_encode
        ((if net.network_is_main = true then 0x00 else 0x6F) :: program)) ∧
      (((if net.network_is_main = true then 0x00 else 0x6F) :: program).drop 1).take 20 =
        program := by
  have hl : (if pubkey_is_compressed k = true then PUBKEY_COMPRESSED_LENGTH + 1
      else PUBKEY_UNCOMPRESSED_LENGTH + 1) = (if k.data.getD 0 0 = 0x04 then 65 else 33) := by
    simp only [pubkey_is_compressed, PUBKEY_COMPRESSED_FLAG_EVEN, PUBKEY_COMPRESSED_FLAG_ODD,
      PUBKEY_COMPRESSED_LENGTH, PUBKEY_UNCOMPRESSED_LENGTH]
    generalize k.data.getD 0 0 = f at hflag
    rcases hflag with h | h | h <;> subst h <;> rfl
  have hs : ∀ m, (lib.crypto_get_sha256 m).take 32 = lib.crypto_get_sha256 m :=
    fun m => List.take_of_length_le (by rw [hsha])
  have hr : ∀ m, (lib.crypto_get_rmd160 m).take 20 = lib.crypto_get_rmd160 m :=
    fun m => List.take_of_length_le (by rw [hrmd])
  refine ⟨_, rfl, hrmd _, ?_, ?_, ?_⟩
  · unfold pubkey_to_bech32address
    simp only [hl, hs, hr]
  · unfold pubkey_to_address
    simp only [hl, hs, hr]
    rcases hnet with h | h <;> subst h <;>
      simp [ADDRESS_VERSION_BIT_MAINNET, ADDRESS_VERSION_BIT_TESTNET]
  · rw [List.drop_succ_cons, List.drop_zero, hr]

/-- Witness of C14: a compressed key on mainnet, with digest functions of the right
lengths and encoders that show their argument. -/
theorem pubkey_to_bech32address_eq_witness :
    pubkey_to_bech32address ⟨fun _ => List.replicate 32 7, fun _ => List.replicate 20 9,
        fun m => m.map Char.ofNat⟩ ⟨fun m _ => m.map Char.ofNat⟩
        ⟨0x03 :: List.replicate 64 0⟩ = (List.replicate 20 9).map Char.ofNat ∧
      pubkey_to_address ⟨fun _ => List.replicate 32 7, fun _ => List.replicate 20 9,
        fun m => m.map Char.ofNat⟩ ⟨true, false⟩ ⟨0x03 :: List.replicate 64 0⟩ =
        some ((0x00 :: List.replicate 20 9).map Char.ofNat) := by
  obtain ⟨program, h1, _, h3, h4, _⟩ :=
    pubkey_to_bech32address_eq ⟨fun _ => List.replicate 32 7, fun _ => List.replicate 20 9,
      fun m => m.map Char.ofNat⟩ ⟨fun m _ => m.map Char.ofNat⟩ ⟨true, false⟩
      ⟨0x03 :: List.replicate 64 0⟩
      (fun _ => by simp) (fun _ => by simp) (Or.inr (Or.inl (by decide))) (Or.inl rfl)
  subst h1
  exact ⟨h3, h4⟩

/-! ## Compressing a derived key -/

theorem pubkey_compress_uncompressed (f : Nat) (a b : List Nat) (h4 : f ≠ 2 ∧ f ≠ 3)
    (ha : a.length = 32) (hb : b.length = 32) :
    pubkey_compress ⟨f :: (a ++ b)⟩ = ⟨(if beNat b % 2 = 0 then 2 else 3) :: (a ++ b)⟩ := by
  have hd : ((f :: (a ++ b)).drop (1 + 32)).take 32 = b := by
    show ((f :: (a ++ b)).drop (32 + 1)).take 32 = b
    rw [List.drop_succ_cons, List.drop_left' ha, List.take_of_length_le (by rw [hb])]
  unfold pubkey_compress
  have hn : ¬ ((⟨f :: (a ++ b)⟩ : PubKey).data.getD 0 0 = PUBKEY_COMPRESSED_FLAG_EVEN ∨
      (⟨f :: (a ++ b)⟩ : PubKey).data.getD 0 0 = PUBKEY_COMPRESSED_FLAG_ODD) := by
    rintro (h | h)
    · exact h4.1 h
    · exact h4.2 h
  rw [if_neg hn]
  simp only [hd, List.set_cons_zero, PUBKEY_COMPRESSED_FLAG_EVEN, PUBKEY_COMPRESSED_FLAG_ODD]

theorem take_33_cons (f : Nat) (a b : List Nat) (ha : a.length = 32) :
    (f :: (a ++ b)).take 33 = f :: a := by
  show (f :: (a ++ b)).take (32 + 1) = f :: a
  rw [List.take_succ_cons, List.take_left' ha]

theorem drop_33_cons (f : Nat) (a b : List Nat) (ha : a.length = 32) :
    (f :: (a ++ b)).drop 33 = b := by
  show (f :: (a ++ b)).drop (32 + 1) = b
  rw [List.drop_succ_cons, List.drop_left' ha]

theorem pubkey_to_address_congr (lib : AddressLib) (net : Network) {k c : PubKey}
    (hk : pubkey_is_compressed k = true) (hc : pubkey_is_compressed c = true)
    (h : k.data.take 33 = c.data.take 33) :
    pubkey_to_address lib net k = pubkey_to_address lib net c := by
  unfold pubkey_to_address
  simp only [hk, hc, if_true, PUBKEY_COMPRESSED_LENGTH, h]

/-- C12: for every 32-byte scalar in [1, n-1], with the secp256k1 functions modelled
from the spec, `pubkey_get` of the uncompressed key gives a buffer `u` and of the
compressed key a buffer `c` such that the first 33 bytes of `pubkey_compress u` equal
the first 33 bytes of `c`, the flag byte set by `pubkey_compress` being 0x02 for an
even and 0x03 for an odd y of the derived point; `pubkey_to_hex`, `pubkey_to_raw` and
`pubkey_to_address` give the same result on both, and the two buffers differ in bytes
33..64, which hold y in the one and zeros in the other. -/
theorem pubkey_compress_pubkey_get (d : List Nat) (hwf : PrivKey.wf ⟨d, false⟩)
    (h1 : 1 ≤ beNat d) (h2 : beNat d < secp256k1_n)
    (hex_to_dec : Char → Char → Nat) (lib : AddressLib) (net : Network) :
    ∃ (P : Point) (u c : PubKey),
      pubkey_get_point secp256k1_ops ⟨d, false⟩ = some P ∧
      pubkey_get secp256k1_ops ⟨d, false⟩ = some u ∧
      pubkey_get secp256k1_ops ⟨d, true⟩ = some c ∧
      (pubkey_compress u).data.take 33 = c.data.take 33 ∧
      (pubkey_compress u).data.getD 0 0 = (if P.y % 2 = 0 then 0x02 else 0x03) ∧
      (pubkey_to_hex c).isSome = true ∧
      pubkey_to_hex (pubkey_compress u) = pubkey_to_hex c ∧
      pubkey_to_raw hex_to_dec (pubkey_compress u) = pubkey_to_raw hex_to_dec c ∧
      pubkey_to_address lib net (pubkey_compress u) = pubkey_to_address lib net c ∧
      (pubkey_compress u).data.drop 33 = be32 P.y ∧
      c.data.drop 33 = List.replicate 32 0 ∧
      (pubkey_compress u).data.drop 33 ≠ c.data.drop 33 := by
  obtain ⟨P, hPc, hpt, hu⟩ := pubkey_get_secp256k1 ⟨d, false⟩ hwf h1 h2
  obtain ⟨P1, _, hpt1, hc⟩ := pubkey_get_secp256k1 ⟨d, true⟩ hwf h1 h2
  have hsame : pubkey_get_point secp256k1_ops ⟨d, true⟩ =
      pubkey_get_point secp256k1_ops ⟨d, false⟩ := by
    unfold pubkey_get_point
    rw [pubkey_get_scalar_eq ⟨d, true⟩ hwf, pubkey_get_scalar_eq ⟨d, false⟩ hwf]
  have hP1 : P1 = P := by
    rw [hsame, hpt] at hpt1
    exact (Option.some.inj hpt1).symm
  subst hP1
  have hy1 : P1.y < 256 ^ 32 := lt_trans hPc.2.1 secp256k1_p_lt
  have hy0 : P1.y ≠ 0 := y_ne_zero_of_onCurve hPc
  simp only [Bool.false_eq_true, if_false] at hu
  simp only [if_true] at hc
  have hcomp : pubkey_compress ⟨0x04 :: (be32 P1.x ++ be32 P1.y)⟩ =
      ⟨(if P1.y % 2 = 0 then 2 else 3) :: (be32 P1.x ++ be32 P1.y)⟩ := by
    have := pubkey_compress_uncompressed 4 (be32 P1.x) (be32 P1.y) (by decide)
      (be32_length _) (be32_length _)
    rw [beNat_be32 hy1] at this
    exact this
  have hflag : ∀ t : List Nat, pubkey_is_compressed
      ⟨(if P1.y % 2 = 0 then 2 else 3) :: t⟩ = true := by
    intro t
    rw [pubkey_is_compressed_iff]
    by_cases hev : P1.y % 2 = 0
    · left
      simp [hev]
    · right
      simp [hev]
  have htake : (pubkey_compress ⟨0x04 :: (be32 P1.x ++ be32 P1.y)⟩).data.take 33 =
      (⟨(if P1.y % 2 = 0 then 0x02 else 0x03) :: (be32 P1.x ++ List.replicate 32 0)⟩ :
        PubKey).data.take 33 := by
    rw [hcomp]
    show List.take 33 (_ :: (be32 P1.x ++ be32 P1.y)) =
      List.take 33 (_ :: (be32 P1.x ++ List.replicate 32 0))
    rw [take_33_cons _ _ _ (be32_length _), take_33_cons _ _ _ (be32_length _)]
  have hhex : pubkey_to_hex (pubkey_compress ⟨0x04 :: (be32 P1.x ++ be32 P1.y)⟩) =
      pubkey_to_hex
        ⟨(if P1.y % 2 = 0 then 0x02 else 0x03) :: (be32 P1.x ++ List.replicate 32 0)⟩ := by
    rw [pubkey_to_hex_compressed ((pubkey_is_compressed_iff _).1 (hflag _)), ← htake,
      pubkey_to_hex_compressed]
    rw [hcomp]
    exact (pubkey_is_compressed_iff _).1 (hflag _)
  have hd1 : (pubkey_compress ⟨0x04 :: (be32 P1.x ++ be32 P1.y)⟩).data.drop 33 =
      be32 P1.y := by
    rw [hcomp]
    exact drop_33_cons _ _ _ (be32_length _)
  have hd2 : (⟨(if P1.y % 2 = 0 then 0x02 else 0x03) ::
      (be32 P1.x ++ List.replicate 32 0)⟩ : PubKey).data.drop 33 = List.replicate 32 0 :=
    drop_33_cons _ _ _ (be32_length _)
  refine ⟨P1, _, _, hpt, hu, hc, htake, ?_, ?_, hhex, ?_, ?_, hd1, hd2, ?_⟩
  · rw [hcomp]
    rfl
  · rw [pubkey_to_hex_compressed ((pubkey_is_compressed_iff _).1 (hflag _))]
    rfl
  · unfold pubkey_to_raw
    rw [hhex]
  · apply pubkey_to_address_congr lib net _ (hflag _) htake
    rw [hcomp]
    exact hflag _
  · rw [hd1, hd2]
    exact be32_ne_zeros hy0 hy1

/-- Witness of C12 at the scalar 3, with a byte reader, digest functions and a network. -/
theorem pubkey_compress_pubkey_get_witness :
    PrivKey.wf ⟨List.replicate 31 0 ++ [3], false⟩ ∧
    1 ≤ beNat (List.replicate 31 0 ++ [3]) ∧
    beNat (List.replicate 31 0 ++ [3]) < secp256k1_n ∧
    ∃ u c : PubKey,
      pubkey_get secp256k1_ops ⟨List.replicate 31 0 ++ [3], false⟩ = some u ∧
      pubkey_get secp256k1_ops ⟨List.replicate 31 0 ++ [3], true⟩ = some c ∧
      (pubkey_compress u).data.take 33 = c.data.take 33 ∧
      (pubkey_to_hex c).isSome = true ∧
      pubkey_to_hex (pubkey_compress u) = pubkey_to_hex c ∧
      pubkey_to_raw (fun a b => (digitVal a).getD 0 * 16 + (digitVal b).getD 0)
          (pubkey_compress u) =
        pubkey_to_raw (fun a b => (digitVal a).getD 0 * 16 + (digitVal b).getD 0) c ∧
      pubkey_to_address ⟨fun m => m.take 32, fun m => m.take 20, fun m => m.map Char.ofNat⟩
          ⟨true, false⟩ (pubkey_compress u) =
        pubkey_to_address ⟨fun m => m.take 32, fun m => m.take 20, fun m => m.map Char.ofNat⟩
          ⟨true, false⟩ c ∧
      (pubkey_compress u).data.drop 33 ≠ c.data.drop 33 := by
  refine ⟨by decide!, by decide!, by decide!, ?_⟩
  obtain ⟨_, u, c, _, hu, hc, h1, _, h2, h3, h4, h5, _, _, h6⟩ :=
    pubkey_compress_pubkey_get (List.replicate 31 0 ++ [3]) (by decide!) (by decide!)
      (by decide!) (fun a b => (digitVal a).getD 0 * 16 + (digitVal b).getD 0)
      ⟨fun m => m.take 32, fun m => m.take 20, fun m => m.map Char.ofNat⟩ ⟨true, false⟩
  exact ⟨u, c, hu, hc, h1, h2, h3, h4, h5, h6⟩

end Btk


namespace Btk

open BtkPubkey

/-! ## Output of btk_pubkey_main on failure -/

end Btk


namespace Btk

/-! ## The number of group operations of pubkey_get -/

theorem setBits_eq_zero {s i len : Nat} (h : setBits s i len = 0) :
    ∀ j, i ≤ j → j < i + len → s.testBit j = false := by
  intro j h1 h2
  unfold setBits at h
  have hnil := List.length_eq_zero.1 h
  rw [List.filter_eq_nil_iff] at hnil
  have := hnil j (List.mem_range'_1.2 ⟨h1, h2⟩)
  simpa using this

theorem setBits_pos {s : Nat} (h1 : 1 ≤ s) (h2 : s < 2 ^ 256) : 1 ≤ setBits s 0 256 := by
  by_contra hc
  have h0 : setBits s 0 256 = 0 := by omega
  have hall : ∀ j, s.testBit j = (0 : Nat).testBit j := by
    intro j
    rw [Nat.zero_testBit]
    by_cases hj : j < 256
    · exact setBits_eq_zero h0 j (Nat.zero_le _) (by omega)
    · apply Nat.testBit_lt_two_pow
      exact lt_of_lt_of_le h2 (Nat.pow_le_pow_right (by decide) (by omega))
  have := Nat.eq_of_testBit_eq hall
  omega

/-- The numbers of calls that `pubkey_get` makes on point functions for which it passes
all its assertions with the scalar `s`: 255 doublings, and one addition for every set
bit of `s` after the first one met. -/
theorem pubkey_get_op_counts_spec (ops : PointOps) (h0 : ops.point_verify ⟨0, 0⟩ = false)
    (k : PrivKey) {points : List Point} {P : Point}
    (hpoints : pubkey_get_points ops = some points) (hlen : points.length = PUBKEY_POINTS)
    (hP : addLoop ops (pubkey_get_scalar k) points 0 point_init = some P) :
    pubkey_get_op_counts ops k = some (255, setBits (pubkey_get_scalar k) 0 256 - 1) := by
  unfold pubkey_get_points at hpoints
  cases hd : doubleLoop ops (PUBKEY_POINTS - 1) ops.point_set_generator with
  | none =>
    rw [hd] at hpoints
    exact absurd hpoints (by simp)
  | some pts =>
    rw [hd] at hpoints
    simp only [Option.map_some', Option.some.injEq] at hpoints
    subst hpoints
    have hfst := doubleLoopCount_fst ops (PUBKEY_POINTS - 1) ops.point_set_generator 0
    rw [hd] at hfst
    cases hdc : doubleLoopCount ops (PUBKEY_POINTS - 1) ops.point_set_generator 0 with
    | none =>
      rw [hdc] at hfst
      exact absurd hfst (by simp)
    | some r =>
      obtain ⟨pts1, c1⟩ := r
      rw [hdc] at hfst
      simp only [Option.map_some', Option.some.injEq] at hfst
      subst hfst
      have hc1 := doubleLoopCount_snd ops _ _ _ _ hdc
      simp only [zero_add] at hc1
      have hfst2 := addLoopCount_fst ops (pubkey_get_scalar k)
        (ops.point_set_generator :: pts1) 0 point_init 0
      rw [hP] at hfst2
      cases hac : addLoopCount ops (pubkey_get_scalar k)
          (ops.point_set_generator :: pts1) 0 point_init 0 with
      | none =>
        rw [hac] at hfst2
        exact absurd hfst2 (by simp)
      | some r2 =>
        obtain ⟨P2, c2⟩ := r2
        have hc2 := addLoopCount_snd ops h0 _ _ _ _ _ _ hac
        rw [hlen] at hc2
        simp only [zero_add, isEmptyAcc_init, true_and] at hc2
        unfold pubkey_get_op_counts
        simp only [hdc, hac]
        have e1 : c1 = 255 := hc1
        have e2 : c2 = setBits (pubkey_get_scalar k) 0 256 - 1 := by
          have hpp : PUBKEY_POINTS = 256 := rfl
          rw [hpp] at hc2
          by_cases hpos : 0 < setBits (pubkey_get_scalar k) 0 256
          · rw [if_pos hpos] at hc2
            exact hc2
          · rw [if_neg hpos] at hc2
            omega
        rw [e1, e2]

set_option maxRecDepth 100000 in
/-- Counterexample to C16: the scalars 1 and 3 are both in [1, n-1]; `pubkey_get` makes
255 `point_double` calls for each, but no `point_add` call for the scalar 1 and one
`point_add` call for the scalar 3. -/
theorem pubkey_get_op_counts_differ :
    1 ≤ beNat (be32 1) ∧ beNat (be32 1) < secp256k1_n ∧
    1 ≤ beNat (be32 3) ∧ beNat (be32 3) < secp256k1_n ∧
    pubkey_get_op_counts secp256k1_ops ⟨be32 1, false⟩ = some (255, 0) ∧
    pubkey_get_op_counts secp256k1_ops ⟨be32 3, false⟩ = some (255, 1) :=
  ⟨by decide!, by decide!, by decide!, by decide!, by decide!, by decide!⟩

/-- C16 as amended: for every key with scalar in [1, n-1], with the secp256k1 functions
modelled from the spec, `pubkey_get` makes 255 `point_double` calls and one `point_add`
call for every set bit of the scalar but one: the number of additions is the number
of set bits minus 1, so it is the same for two scalars only when they have the same
number of set bits. -/
theorem pubkey_get_op_counts_eq (k : PrivKey) (hwf : k.wf)
    (h1 : 1 ≤ beNat k.data) (h2 : beNat k.data < secp256k1_n) :
    pubkey_get_op_counts secp256k1_ops k = some (255, setBits (beNat k.data) 0 256 - 1) ∧
      1 ≤ setBits (beNat k.data) 0 256 := by
  obtain ⟨E, inst, toE, law⟩ := secp256k1_groupLaw
  obtain ⟨points, P, hpoints, hlen, _, hP, _, _, _⟩ := derivation_spec law h1 h2
  rw [← pubkey_get_scalar_eq k hwf] at hP ⊢
  refine ⟨pubkey_get_op_counts_spec secp256k1_ops (by decide) k hpoints hlen hP, ?_⟩
  rw [pubkey_get_scalar_eq k hwf]
  exact setBits_pos h1 (lt_trans h2 secp256k1_n_lt)

set_option maxRecDepth 100000 in
/-- Witness of C16 as amended at the scalar 7: three set bits, two additions. -/
theorem pubkey_get_op_counts_eq_witness :
    PrivKey.wf ⟨be32 7, true⟩ ∧ 1 ≤ beNat (be32 7) ∧ beNat (be32 7) < secp256k1_n ∧
      setBits (beNat (be32 7)) 0 256 = 3 ∧
      pubkey_get_op_counts secp256k1_ops ⟨be32 7, true⟩ =
        some (255, setBits (beNat (be32 7)) 0 256 - 1) :=
  ⟨by decide!, by decide!, by decide!, by decide!,
    (pubkey_get_op_counts_eq ⟨be32 7, true⟩ (by decide!) (by decide!) (by decide!)).1⟩

end Btk


namespace Btk

/-! ## compactuint_get_value -/

/-- C17: `compactuint_get_value` at the three bytes fd 01 00 with `input_len` 3
returns 3 and writes 256 to `*output`, the value of the two bytes 01 00 read most
significant byte first; their unsigned little-endian value is 1. -/
theorem compactuint_get_value_fd_01_00 :
    compactuint_get_value 0 [0xfd, 0x01, 0x00] 3 = some (3, 256) ∧
      beNat [0x01, 0x00] = 256 ∧ leNat [0x01, 0x00] = 1 := by
  decide

theorem compactuint_get_value_small {output : Nat} {input : List Nat} {input_len : Nat}
    (hne : ¬ input_len = 0) (h : input.getD 0 0 ≤ 0xfc) :
    compactuint_get_value output input input_len = some (1, input.getD 0 0) := by
  unfold compactuint_get_value
  rw [if_neg hne, if_pos h]

theorem compactuint_get_value_big {output : Nat} {input : List Nat} {input_len : Nat}
    (hne : ¬ input_len = 0) (j : Nat)
    (h : (input.getD 0 0 = 0xfd ∧ j = 2) ∨ (input.getD 0 0 = 0xfe ∧ j = 4) ∨
      (input.getD 0 0 = 0xff ∧ j = 8)) :
    compactuint_get_value output input input_len =
      if input_len < j + 1 then some (-1, output)
      else some (Int.ofNat (j + 1), compactuintLoop ((input.drop 1).take j) 0) := by
  unfold compactuint_get_value
  rw [if_neg hne]
  rcases h with ⟨h, hj⟩ | ⟨h, hj⟩ | ⟨h, hj⟩
  · rw [if_neg (by omega), if_pos h, hj]
  · rw [if_neg (by omega), if_neg (by omega), if_pos h, hj]
  · rw [if_neg (by omega), if_neg (by omega), if_neg (by omega), if_pos h, hj]

theorem compactSizeLen_cases (first : Nat) :
    (first ≤ 0xfc → compactSizeLen first = 1) ∧ (first = 0xfd → compactSizeLen first = 3) ∧
      (first = 0xfe → compactSizeLen first = 5) ∧ (first = 0xff → compactSizeLen first = 9) := by
  refine ⟨?_, ?_, ?_, ?_⟩
  · intro h
    unfold compactSizeLen
    rw [if_pos h]
  · intro h
    rw [h]
    rfl
  · intro h
    rw [h]
    rfl
  · intro h
    rw [h]
    rfl

/-- C18: for every non-empty input whose first byte is a byte, `compactuint_get_value`
returns a value: the number of bytes of the encoding (1 for a first byte up to 0xfc, 3
for 0xfd, 5 for 0xfe, 9 for 0xff) when `input_len` is at least that number, and -1
exactly when the first byte is 0xfd or more and `input_len` is smaller than that
number, in which case `*output` keeps its content. -/
theorem compactuint_get_value_return (output : Nat) (input : List Nat) (input_len : Nat)
    (hlen : 0 < input_len) (hb : input.getD 0 0 < 256) :
    ∃ (r : Int) (out : Nat), compactuint_get_value output input input_len = some (r, out) ∧
      (compactSizeLen (input.getD 0 0) ≤ input_len →
        r = Int.ofNat (compactSizeLen (input.getD 0 0))) ∧
      (r = -1 ↔ (0xfd ≤ input.getD 0 0 ∧ input_len < compactSizeLen (input.getD 0 0))) ∧
      (r = -1 → out = output) ∧
      (input.getD 0 0 ≤ 0xfc → compactSizeLen (input.getD 0 0) = 1) ∧
      (input.getD 0 0 = 0xfd → compactSizeLen (input.getD 0 0) = 3) ∧
      (input.getD 0 0 = 0xfe → compactSizeLen (input.getD 0 0) = 5) ∧
      (input.getD 0 0 = 0xff → compactSizeLen (input.getD 0 0) = 9) := by
  have hne : ¬ input_len = 0 := by omega
  have hsz := compactSizeLen_cases (input.getD 0 0)
  have hbig : ∀ j : Nat, ((input.getD 0 0 = 0xfd ∧ j = 2) ∨ (input.getD 0 0 = 0xfe ∧ j = 4) ∨
      (input.getD 0 0 = 0xff ∧ j = 8)) → compactSizeLen (input.getD 0 0) = j + 1 →
      ∃ (r : Int) (out : Nat), compactuint_get_value output input input_len = some (r, out) ∧
        (compactSizeLen (input.getD 0 0) ≤ input_len →
          r = Int.ofNat (compactSizeLen (input.getD 0 0))) ∧
        (r = -1 ↔ (0xfd ≤ input.getD 0 0 ∧ input_len < compactSizeLen (input.getD 0 0))) ∧
        (r = -1 → out = output) := by
    intro j hj hs
    have h253 : 0xfd ≤ input.getD 0 0 := by
      rcases hj with ⟨h, _⟩ | ⟨h, _⟩ | ⟨h, _⟩ <;> rw [h] <;> decide
    rw [compactuint_get_value_big hne j hj, hs]
    by_cases hl : input_len < j + 1
    · rw [if_pos hl]
      refine ⟨-1, output, rfl, ?_, ?_, fun _ => rfl⟩
      · intro hc
        omega
      · exact ⟨fun _ => ⟨h253, hl⟩, fun _ => rfl⟩
    · rw [if_neg hl]
      refine ⟨_, _, rfl, fun _ => rfl, ?_, ?_⟩
      · constructor
        · intro hc
          have : (0 : Int) ≤ Int.ofNat (j + 1) := Int.ofNat_nonneg _
          omega
        · intro hc
          exact absurd hc.2 hl
      · intro hc
        have : (0 : Int) ≤ Int.ofNat (j + 1) := Int.ofNat_nonneg _
        omega
  have hcases : input.getD 0 0 ≤ 0xfc ∨ input.getD 0 0 = 0xfd ∨ input.getD 0 0 = 0xfe ∨
      input.getD 0 0 = 0xff := by omega
  rcases hcases with h | h | h | h
  · refine ⟨1, input.getD 0 0, compactuint_get_value_small hne h, ?_, ?_, ?_, hsz⟩
    · intro _
      rw [hsz.1 h]
      rfl
    · constructor
      · intro hc
        exact absurd hc (by decide)
      · intro hc
        omega
    · intro hc
      exact absurd hc (by decide)
  · obtain ⟨r, out, h1, h2, h3, h4⟩ := hbig 2 (Or.inl ⟨h, rfl⟩) (hsz.2.1 h)
    exact ⟨r, out, h1, h2, h3, h4, hsz⟩
  · obtain ⟨r, out, h1, h2, h3, h4⟩ := hbig 4 (Or.inr (Or.inl ⟨h, rfl⟩)) (hsz.2.2.1 h)
    exact ⟨r, out, h1, h2, h3, h4, hsz⟩
  · obtain ⟨r, out, h1, h2, h3, h4⟩ := hbig 8 (Or.inr (Or.inr ⟨h, rfl⟩)) (hsz.2.2.2 h)
    exact ⟨r, out, h1, h2, h3, h4, hsz⟩

/-- Witness of C18: the first byte 0xfe with only three bytes of input gives -1 and
leaves the content 77 of `*output`. -/
theorem compactuint_get_value_return_witness :
    ∃ (r : Int) (out : Nat), compactuint_get_value 77 [0xfe, 1, 2] 3 = some (r, out) ∧
      r = -1 ∧ out = 77 := by
  obtain ⟨r, out, h1, _, h3, h4, _⟩ :=
    compactuint_get_value_return 77 [0xfe, 1, 2] 3 (by decide) (by decide)
  have hr : r = -1 := h3.2 ⟨by decide, by decide⟩
  exact ⟨r, out, h1, hr, h4 hr⟩

end Btk


namespace Btk

/-! ## UTXO values and keys -/

/-- C19: `utxo_value_get_address` leaves the value object as it was and returns -1 or
1: -1 when the value has no script, when its `n_size` is neither 0 nor 1, when the
allocation fails, and otherwise exactly when `base58check_encode` fails; in this last
case and on success `address` holds what `base58check_encode` wrote for the
`script_len + 1` bytes v || script[0..script_len-1], with v = 0x00 for `n_size` 0 and
v = 0x05 for `n_size` 1. -/
theorem utxo_value_get_address_spec (env : UtxoEnv) (address : List Char)
    (value : UTXOValue) :
    (utxo_value_get_address env address value).value = value ∧
    ((utxo_value_get_address env address value).ret = -1 ∨
      (utxo_value_get_address env address value).ret = 1) ∧
    (value.script = none →
      (utxo_value_get_address env address value).ret = -1 ∧
      (utxo_value_get_address env address value).address = address) ∧
    (value.n_size ≠ 0 → value.n_size ≠ 1 →
      (utxo_value_get_address env address value).ret = -1 ∧
      (utxo_value_get_address env address value).address = address) ∧
    (∀ script, value.script = some script → (value.n_size = 0 ∨ value.n_size = 1) →
      (env.malloc (value.script_len + 1) = false →
        (utxo_value_get_address env address value).ret = -1 ∧
        (utxo_value_get_address env address value).address = address) ∧
      (env.malloc (value.script_len + 1) = true →
        ((utxo_value_get_address env address value).ret = -1 ↔
          (env.base58check_encode
            ((if value.n_size = 0 then 0x00 else 0x05) :: script.take value.script_len)
            (value.script_len + 1)).1 < 0) ∧
        (utxo_value_get_address env address value).address =
          (env.base58check_encode
            ((if value.n_size = 0 then 0x00 else 0x05) :: script.take value.script_len)
            (value.script_len + 1)).2)) := by
  refine ⟨?_, ?_, ?_, ?_, ?_⟩
  · unfold utxo_value_get_address
    dsimp only
    split_ifs <;> rfl
  · unfold utxo_value_get_address
    dsimp only
    split_ifs <;> first | exact Or.inl rfl | exact Or.inr rfl
  · intro hs
    have h0 : utxo_value_has_address value = 0 := by
      simp [utxo_value_has_address, hs]
    unfold utxo_value_get_address
    rw [if_pos h0]
    exact ⟨rfl, rfl⟩
  · intro hn0 hn1
    have h0 : utxo_value_has_address value = 0 := by
      unfold utxo_value_has_address
      rw [if_neg hn0, if_neg hn1]
      split <;> rfl
    unfold utxo_value_get_address
    rw [if_pos h0]
    exact ⟨rfl, rfl⟩
  · intro script hs hn
    have h1 : ¬ utxo_value_has_address value = 0 := by
      unfold utxo_value_has_address
      rw [hs]
      rcases hn with h | h
      · simp [h]
      · simp [h]
    have hv : (if value.n_size = 1 then 0x05 else 0x00) =
        (if value.n_size = 0 then 0x00 else 0x05) := by
      rcases hn with h | h <;> simp [h]
    refine ⟨?_, ?_⟩
    · intro hm
      unfold utxo_value_get_address
      rw [if_neg h1, hm]
      exact ⟨rfl, rfl⟩
    · intro hm
      unfold utxo_value_get_address
      rw [if_neg h1, hm]
      simp only [Bool.not_true, Bool.false_eq_true, if_false, hs, Option.getD_some, hv]
      by_cases hr : (env.base58check_encode
          ((if value.n_size = 0 then 0x00 else 0x05) :: script.take value.script_len)
          (value.script_len + 1)).1 < 0
      · rw [if_pos hr]
        exact ⟨⟨fun _ => hr, fun _ => rfl⟩, rfl⟩
      · rw [if_neg hr]
        refine ⟨⟨fun hc => ?_, fun hc => absurd hc hr⟩, rfl⟩
        have h1 : (1 : Int) = -1 := hc
        exact absurd h1 (by decide)

theorem reverseHash_eq_reverse (n : Nat) (l : List Nat) (h : l.length = n) :
    reverseHash n l = l.reverse := by
  unfold reverseHash
  apply List.ext_getElem
  · simp [h]
  · intro i h1 h2
    have hi : i < n := by simpa using h1
    have hlt : n - 1 - i < l.length := by omega
    rw [List.getElem_map, List.getElem_range, List.getElem_reverse,
      List.getD_eq_getElem _ _ hlt]
    congr 1
    omega

/-- C20: for every key with type `UTXO_KEY_TYPE`, a 32-byte `tx_hash` and a `vout`
below 2^32, when the varint functions of serialize.c write between 1 and 5 bytes for
every number below 2^32 and read back the number they wrote, `utxo_serialize_key`
writes the type byte, the `tx_hash` in reversed byte order and the varint of `vout`,
reports `output_len` = 33 + (varint length of `vout`), at most 38, and
`utxo_set_key_from_raw` on those bytes returns 1 and yields the same type, the same
`tx_hash` and the same `vout`. -/
theorem utxo_key_round_trip (lib : UtxoLib) (key key0 : UTXOKey)
    (hhl : lib.UTXO_TX_HASH_LENGTH = 32) (hmin : lib.UTXO_KEY_MIN_LENGTH ≤ 34)
    (hcodec : ∀ v, v < 2 ^ 32 →
      1 ≤ (lib.serialize_varint v).length ∧ (lib.serialize_varint v).length ≤ 5 ∧
      (lib.deserialize_varint (lib.serialize_varint v)).1 = v)
    (htype : key.type = lib.UTXO_KEY_TYPE) (hhash : key.tx_hash.length = 32)
    (hvout : key.vout < 2 ^ 32) :
    utxo_serialize_key lib key =
      (1, [key.type] ++ key.tx_hash.reverse ++ lib.serialize_varint key.vout,
        33 + (lib.serialize_varint key.vout).length) ∧
    33 + (lib.serialize_varint key.vout).length ≤ 38 ∧
    utxo_set_key_from_raw lib key0 (utxo_serialize_key lib key).2.1
      (utxo_serialize_key lib key).2.2 = some (1, key) := by
  obtain ⟨hc1, hc5, hrt⟩ := hcodec key.vout hvout
  have hser : utxo_serialize_key lib key =
      (1, [key.type] ++ key.tx_hash.reverse ++ lib.serialize_varint key.vout,
        33 + (lib.serialize_varint key.vout).length) := by
    unfold utxo_serialize_key
    rw [hhl, reverseHash_eq_reverse 32 _ hhash]
    simp only [List.length_append, List.length_singleton, List.length_reverse, hhash]
  refine ⟨hser, by omega, ?_⟩
  rw [hser]
  have hrl : key.tx_hash.reverse.length = 32 := by rw [List.length_reverse, hhash]
  have hdrop : ([key.type] ++ key.tx_hash.reverse ++ lib.serialize_varint key.vout).drop
      (1 + 32) = lib.serialize_varint key.vout := by
    apply List.drop_left'
    simp [hrl]
  have htake : (([key.type] ++ key.tx_hash.reverse ++ lib.serialize_varint key.vout).drop
      1).take 32 = key.tx_hash.reverse := by
    rw [List.append_assoc, List.singleton_append, List.drop_succ_cons, List.drop_zero,
      List.take_left' hrl]
  have h0 : ([key.type] ++ key.tx_hash.reverse ++ lib.serialize_varint key.vout).getD 0 0 =
      key.type := by
    simp
  unfold utxo_set_key_from_raw
  simp only [h0, hhl, hdrop, htake, hrt]
  rw [if_neg (by omega), if_neg (fun hc => hc htype),
    if_neg (by unfold UTXO_KEY_MAX_LENGTH; omega),
    reverseHash_eq_reverse 32 _ hrl, List.reverse_reverse]

/-- Witness of C20: a key with type 0x43 and `vout` 7, with a varint codec of four
big-endian bytes. -/
theorem utxo_key_round_trip_witness :
    utxo_set_key_from_raw
      ⟨0x43, 34, 32, fun v => (List.range 4).map (fun i => v / 256 ^ (4 - 1 - i) % 256),
        fun bs => (beNat (bs.take 4), bs.drop 4)⟩
      ⟨0, [], 0⟩
      (utxo_serialize_key
        ⟨0x43, 34, 32, fun v => (List.range 4).map (fun i => v / 256 ^ (4 - 1 - i) % 256),
          fun bs => (beNat (bs.take 4), bs.drop 4)⟩
        ⟨0x43, List.range 32, 7⟩).2.1
      (utxo_serialize_key
        ⟨0x43, 34, 32, fun v => (List.range 4).map (fun i => v / 256 ^ (4 - 1 - i) % 256),
          fun bs => (beNat (bs.take 4), bs.drop 4)⟩
        ⟨0x43, List.range 32, 7⟩).2.2 = some (1, ⟨0x43, List.range 32, 7⟩) :=
  (utxo_key_round_trip
    ⟨0x43, 34, 32, fun v => (List.range 4).map (fun i => v / 256 ^ (4 - 1 - i) % 256),
      fun bs => (beNat (bs.take 4), bs.drop 4)⟩
    ⟨0x43, List.range 32, 7⟩ ⟨0, [], 0⟩ rfl (by decide)
    (fun v hv => ⟨by simp, by simp, by
      have h4 : ((List.range 4).map (fun i => v / 256 ^ (4 - 1 - i) % 256)).length = 4 := by
        simp
      show beNat (((List.range 4).map (fun i => v / 256 ^ (4 - 1 - i) % 256)).take 4) = v
      rw [List.take_of_length_le (by rw [h4])]
      exact beNat_range 4 v (by omega)⟩)
    rfl (by decide) (by decide)).2.2

end Btk


namespace Btk

/-! ## The message queue of a node -/

set_option maxRecDepth 100000 in
/-- C21: with nothing to read from the socket and a queue that holds the one message
`a`, `node_get_message` for the command of `a` returns `a` and leaves the queue as it
was, `a` still in slot 0; with the two messages `a`, `b` queued the same call returns
`a` and leaves the queue holding `b` alone. -/
theorem node_get_message_keeps_last :
    node_get_message (exampleNodeEnv []) 1 (queueOf [97 :: List.replicate 23 0]) [Char.ofNat 97] =
      some (some (97 :: List.replicate 23 0), queueOf [97 :: List.replicate 23 0]) ∧
    node_get_message (exampleNodeEnv []) 1
        (queueOf [97 :: List.replicate 23 0, 98 :: List.replicate 23 0]) [Char.ofNat 97] =
      some (some (97 :: List.replicate 23 0), queueOf [98 :: List.replicate 23 0]) := by
  constructor <;> decide!

set_option maxRecDepth 100000 in
/-- C22: with an empty queue and a socket that delivers three messages of 24 bytes
each, `node_read_messages` returns 2 and queues the first two messages only, whatever
the number of loop iterations allowed beyond three; with two such messages it returns 2
and queues both. -/
theorem node_read_messages_drops_third (fuel : Nat) :
    node_read_messages
        (exampleNodeEnv (List.replicate 24 1 ++ List.replicate 24 2 ++ List.replicate 24 3))
        (fuel + 3) (queueOf []) =
      some (2, queueOf [List.replicate 24 1, List.replicate 24 2]) ∧
    node_read_messages (exampleNodeEnv (List.replicate 24 1 ++ List.replicate 24 2))
        (fuel + 3) (queueOf []) =
      some (2, queueOf [List.replicate 24 1, List.replicate 24 2]) := by
  constructor <;> rfl

/-! ## The version message -/

set_option maxRecDepth 100000 in
/-- C23: for the message built by `version_new`, `version_serialize` returns 109 and
writes 109 bytes; `version_deserialize` on these bytes with the length 109 reads the
same message back and returns 116. -/
theorem version_deserialize_returns_116 :
    ∃ bytes, version_serialize exampleSerializeLib
        (version_new 1500000000 exampleHexStrToUc) = some (109, bytes) ∧
      bytes.length = 109 ∧
      version_deserialize exampleSerializeLib bytes none 109 =
        some (116, version_new 1500000000 exampleHexStrToUc) := by
  refine ⟨_, rfl, ?_, ?_⟩ <;> decide!

end Btk


namespace Btk

/-- Whatever the message functions are, with nothing to read from the socket a queue
that holds a single message matching the command is left as it was by
`node_get_message`, which returns that message. -/
theorem node_get_message_single {M : Type} (env : NodeEnv M) (fuel : Nat) (x : M)
    (command : List Char) (h0 : env.fionread ≤ 0)
    (hc : env.message_cmp_command x command = 0) :
    node_get_message env (fuel + 1) (queueOf [x]) command = some (some x, queueOf [x]) := by
  have hread : node_read env = (0, []) := by
    unfold node_read
    rw [if_neg (by omega)]
  have hrm : node_read_messages env (fuel + 1) (queueOf [x]) = some (0, queueOf [x]) := by
    unfold node_read_messages
    simp only [hread]
    rfl
  unfold node_get_message
  simp only [hrm]
  have hs : searchLoop env command ((queueOf [x]).take MAX_MESSAGE_QUEUE) 0 = (0, some x) := by
    show searchLoop env command (some x :: _) 0 = (0, some x)
    simp only [searchLoop, hc, if_true]
  rw [if_neg (by decide), hs]
  rfl

/-- Whatever the serialisation functions are, the value `version_deserialize` returns
is 93 plus the `user_agent_bytes` it has read. -/
theorem version_deserialize_ret (lib : SerializeLib) (src : List Nat) (dest : Option Version)
    (l ret : Nat) (d : Version) (h : version_deserialize lib src dest l = some (ret, d)) :
    ret = (93 + d.user_agent_bytes) % 2 ^ 64 := by
  unfold version_deserialize at h
  dsimp only at h
  split_ifs at h <;> simp only [Option.some.injEq, Prod.mk.injEq] at h <;>
    obtain ⟨h1, h2⟩ := h <;> subst h2 <;> rw [← h1] <;> rfl

/-- With writers of 4, 8, 8, 8, 16, 2, 8, 16, 2, 8, 1, `strlen(user_agent)`, 4 and 1
bytes, `version_serialize` returns 86 plus the length of the user agent. -/
theorem version_serialize_len (lib : SerializeLib) (v : Version) (ua : List Nat)
    (hua : v.user_agent = some ua)
    (h8 : ∀ x e, (lib.serialize_uint8 x e).length = 1)
    (h16 : ∀ x e, (lib.serialize_uint16 x e).length = 2)
    (h32 : ∀ x e, (lib.serialize_uint32 x e).length = 4)
    (h64 : ∀ x e, (lib.serialize_uint64 x e).length = 8)
    (huc : ∀ x, (lib.serialize_uchar x IP_ADDR_FIELD_LEN).length = 16)
    (hch : (lib.serialize_char ua ua.length).length = ua.length)
    (hcu : (lib.serialize_compuint v.user_agent_bytes SERIALIZE_ENDIAN_LIT).length = 1) :
    (version_serialize lib v).map Prod.fst = some (86 + ua.length) := by
  unfold version_serialize
  simp only [hua, Option.map_some', List.length_append, h8, h16, h32, h64, huc, hch, hcu]
  congr 1
  omega

theorem findNull_set_zero {M : Type} (x : M) :
    findNull (((queueOf ([] : List M)).set 0 (some x)).take MAX_MESSAGE_QUEUE) 0 = 1 := rfl

/-- Whatever the message functions are, when the socket delivers three messages of the
same length `r` and every message is valid, `node_read_messages` on an empty queue
returns 2: after the second message the remaining length `l` is `3r - r - 2r = 0`. -/
theorem node_read_messages_three_equal {M : Type} (env : NodeEnv M) (fuel : Nat) (r : Int)
    (hr : 0 < r) (hfion : env.fionread > 0) (hread : (env.read env.fionread).1 = 3 * r)
    (hd : ∀ s j l, (env.message_deserialize s j l).1 = r)
    (hv : ∀ m, env.message_is_valid m ≠ 0) :
    ∃ q, node_read_messages env (fuel + 3) (queueOf []) = some (2, q) := by
  have hnr : node_read env = env.read env.fionread := by
    unfold node_read
    rw [if_pos hfion]
  unfold node_read_messages
  simp only [hnr, hread]
  rw [if_neg (by omega)]
  have h0 : findNull ((queueOf ([] : List M)).take MAX_MESSAGE_QUEUE) 0 = 0 := rfl
  simp only [readLoop, hd, hv, ne_eq, not_false_eq_true, if_true, h0, findNull_set_zero]
  rw [if_pos (by omega), if_pos (by decide), if_pos (by omega), if_pos (by decide),
    if_neg (by omega)]
  exact ⟨_, rfl⟩

end Btk
